import Mathlib

/-! Game of Life board.

A shallow embedding of the `board` package (`board/point.go`, `board/board.go`,
`board/errors.go`) and of the `runner` package (`runner/runner.go`), with the
properties of the generation-advance algorithm and of the runner's lifecycle.

Conventions of the embedding:

* Go's `int` is a 64-bit two's-complement integer.  Values are `Int`s and every
  arithmetic operation of the source that can leave the range is followed by
  `wrapInt`.
* A Go call either returns or panics; `Go α` is `Except Panic α`.
* A Go multi-value return `(T, error)` is the pair `T × Option Error`
  (`none` is the `nil` error).
* A `*Board` receiver is an `Option Board` (`none` is the `nil` pointer).
  Methods that mutate the receiver (`Set`) return the updated board.
* A counted loop `for i := 0; i < n; i++` visits the elements of `forRange n`.
* The bit-vector storage is an external package; it is modelled from its
  specified interface (`BitMap`).
* Aliasing is studied on a second embedding of `NextBoard`, over a store of
  bit-vector objects addressed by pointers (`Heap`, `NextBoardRef`), which is
  proved to compute what the embedding on board values computes.
-/

namespace GameOfLife

/-! ## Go runtime model -/

/-- Ways in which a Go call aborts instead of returning. -/
inductive Panic where
  | divideByZero
  | nilDereference
  | mustFailed
  | nonPositiveInterval
  | nilContext
  deriving DecidableEq, Repr

deriving instance DecidableEq for Except

/-- A Go computation: a returned value or a panic. -/
abbrev Go (α : Type) := Except Panic α

/-- Smallest value of Go's 64-bit `int`. -/
def minInt : Int := -9223372036854775808

/-- Largest value of Go's 64-bit `int`. -/
def maxInt : Int := 9223372036854775807

/-- Two's-complement wrap-around of an integer result into the 64-bit range. -/
def wrapInt (x : Int) : Int :=
  (x + 9223372036854775808) % 18446744073709551616 - 9223372036854775808

/-- The integer is representable as a Go `int`. -/
def isInt (x : Int) : Prop := minInt ≤ x ∧ x ≤ maxInt

instance (x : Int) : Decidable (isInt x) := by
  unfold isInt; exact inferInstance

/-- Go integer division `a / b`: truncates toward zero, panics on a zero divisor. -/
def goDiv (a b : Int) : Go Int :=
  if b = 0 then throw Panic.divideByZero else pure (wrapInt (a.tdiv b))

/-- The values taken by `i` in `for i := 0; i < n; i++` (and in `for i := range n`). -/
def forRange (n : Int) : List Int :=
  (List.range n.toNat).map Int.ofNat

/-! ## Bit-vector storage -/

/-- Error values of the bit-vector storage. -/
inductive BitMapError where
  | outOfRange (pos length : Int)
  | badLength (length : Int)
  deriving DecidableEq, Repr

/-- Modelled from the spec: the fixed-size bit-vector storage primitive
(`bitmap.BitMap` of the external package `bitmap-go`), of which only the
interface is assumed: a fixed number of bits, each readable and writable by
its position. -/
structure BitMap where
  bits : List Bool
  deriving DecidableEq, Repr

namespace BitMap

/-- Modelled from the spec: `Length()` of the storage, its number of bits. -/
def Length (m : BitMap) : Int := m.bits.length

/-- Modelled from the spec: `bitmap.New(length)`, an all-zero storage; a
negative cell count cannot be allocated. -/
def New (length : Int) : Except BitMapError BitMap :=
  if length < 0 then Except.error (BitMapError.badLength length)
  else Except.ok ⟨List.replicate length.toNat false⟩

/-- Modelled from the spec: `IsSet(pos)`, the storage's own range check and
then the bit at `pos`. -/
def IsSet (m : BitMap) (pos : Int) : Bool × Option BitMapError :=
  if pos < 0 ∨ m.Length ≤ pos then (false, some (BitMapError.outOfRange pos m.Length))
  else (m.bits.getD pos.toNat false, none)

/-- Modelled from the spec: `SetVal(pos, val)`, the storage's own range check
and then a write of the single bit at `pos`. The updated storage is returned. -/
def SetVal (m : BitMap) (pos : Int) (val : Bool) : BitMap × Option BitMapError :=
  if pos < 0 ∨ m.Length ≤ pos then (m, some (BitMapError.outOfRange pos m.Length))
  else (⟨m.bits.set pos.toNat val⟩, none)

/-- Modelled from the spec: `Clone()`, an independent copy with the same bits. -/
def Clone (m : BitMap) : BitMap := ⟨m.bits⟩

end BitMap

/-! ## Points (`board/point.go`) -/

/-- `type Point struct { Row, Column int }`. -/
structure Point where
  Row : Int
  Column : Int
  deriving DecidableEq, Repr

/-- `Point.Neighbours`: the eight candidate neighbours, in source order. -/
def Point.Neighbours (p : Point) : List Point :=
  [ ⟨wrapInt (p.Row - 1), wrapInt (p.Column - 1)⟩, ⟨wrapInt (p.Row - 1), p.Column⟩,
    ⟨wrapInt (p.Row - 1), wrapInt (p.Column + 1)⟩,
    ⟨p.Row, wrapInt (p.Column - 1)⟩, ⟨p.Row, wrapInt (p.Column + 1)⟩,
    ⟨wrapInt (p.Row + 1), wrapInt (p.Column - 1)⟩, ⟨wrapInt (p.Row + 1), p.Column⟩,
    ⟨wrapInt (p.Row + 1), wrapInt (p.Column + 1)⟩ ]

/-! ## Errors (`board/errors.go`) -/

/-- `type InvalidPointError struct { Rows, Columns int; Point Point; Origin error }`. -/
structure InvalidPointError where
  Rows : Int
  Columns : Int
  Point : Point
  Origin : Option BitMapError
  deriving DecidableEq, Repr

/-- The error values produced by the `board` package. -/
inductive Error where
  /-- `&NilPointerError{Target: b}`. -/
  | nilPointer
  /-- `&InvalidPointError{...}`. -/
  | invalidPoint (e : InvalidPointError)
  /-- `newBoardError(err)`: the base construction error joined with its origin. -/
  | newBoard (origin : BitMapError)
  /-- `fmt.Errorf("data is too small (%d < %d)", length, rows)`. -/
  | dataTooSmall (length rows : Int)
  /-- `fmt.Errorf(msg + ": %w", err)`. -/
  | wrapped (msg : String) (inner : Error)
  deriving DecidableEq, Repr

/-- The `InvalidPointError` at the root of an error chain (`errors.As`), if any. -/
def Error.asInvalidPoint : Error → Option InvalidPointError
  | Error.invalidPoint e => some e
  | Error.wrapped _ inner => inner.asInvalidPoint
  | _ => none

/-! ## Boards (`board/board.go`) -/

/-- `type Board struct { data *bitmap.BitMap; rows int }`. -/
structure Board where
  data : BitMap
  rows : Int
  deriving DecidableEq, Repr

namespace Board

/-- `Board.Clone`. -/
def Clone (b : Option Board) : Go Board :=
  match b with
  | none => throw Panic.nilDereference
  | some v => pure { data := v.data.Clone, rows := v.rows }

/-- `Board.Rows`. -/
def Rows (b : Option Board) : Int :=
  match b with
  | none => 0
  | some v => v.rows

/-- `Board.Columns`: the derived column count `data.Length() / rows`. -/
def Columns (b : Option Board) : Go Int :=
  match b with
  | none => pure 0
  | some v => goDiv v.data.Length v.rows

/-- `Board.isValidPoint`; the `&&` chain is evaluated left to right, so
`Columns` is only called once the first three tests have passed. -/
def isValidPoint (b : Option Board) (p : Point) : Go Bool :=
  match b with
  | none => pure false
  | some v =>
    if p.Row ≥ 0 ∧ p.Row < v.rows ∧ p.Column ≥ 0 then do
      let c ← Columns b
      pure (decide (p.Column < c))
    else pure false

/-- The loop of `Board.neighbours`: keeps the valid candidates, in order. -/
def neighboursLoop (b : Option Board) : List Point → Go (List Point)
  | [] => pure []
  | q :: rest => do
    let valid ← isValidPoint b q
    let tail ← neighboursLoop b rest
    pure (if valid then q :: tail else tail)

/-- `Board.neighbours`. -/
def neighbours (b : Option Board) (p : Point) : Go (List Point) :=
  match b with
  | none => pure []
  | some _ => neighboursLoop b p.Neighbours

/-- `Board.pointToBitPosition`. -/
def pointToBitPosition (b : Option Board) (p : Point) : Go Int :=
  match b with
  | none => pure 0
  | some _ => do
    let c ← Columns b
    pure (wrapInt (wrapInt (p.Row * c) + p.Column))

/-- `Board.IsAlive`. -/
def IsAlive (b : Option Board) (p : Point) : Go (Bool × Option Error) :=
  match b with
  | none => pure (false, some Error.nilPointer)
  | some v => do
    let valid ← isValidPoint b p
    if !valid then
      let c ← Columns b
      pure (false, some (Error.invalidPoint ⟨Rows b, c, p, none⟩))
    else
      let bitPos ← pointToBitPosition b p
      match v.data.IsSet bitPos with
      | (_, some err) =>
        let c ← Columns b
        pure (false, some (Error.invalidPoint ⟨Rows b, c, p, some err⟩))
      | (isAlive, none) => pure (isAlive, none)

/-- `Board.IsDead`. -/
def IsDead (b : Option Board) (p : Point) : Go (Bool × Option Error) := do
  let (isAlive, err) ← IsAlive b p
  pure (!isAlive, err)

/-- The loop of `Board.countLivingNeighbours` over the remaining neighbours. -/
def countLoop (b : Option Board) : List Point → Int → Go (Int × Option Error)
  | [], result => pure (result, none)
  | neighbour :: rest, result => do
    let (isAlive, err) ← IsAlive b neighbour
    match err with
    | some e => pure (0, some (Error.wrapped "error counting living neighbours" e))
    | none => countLoop b rest (if isAlive then result + 1 else result)

/-- `Board.countLivingNeighbours`. -/
def countLivingNeighbours (b : Option Board) (p : Point) : Go (Int × Option Error) := do
  let ns ← neighbours b p
  countLoop b ns 0

/-- `Board.IsAliveNextCycle`. -/
def IsAliveNextCycle (b : Option Board) (p : Point) : Go (Bool × Option Error) := do
  let (pIsAlive, err) ← IsAlive b p
  match err with
  | some e => pure (false, some (Error.wrapped "IsAliveNextCycle" e))
  | none =>
    let (livingNeighboursCount, err) ← countLivingNeighbours b p
    match err with
    | some e => pure (false, some (Error.wrapped "IsAliveNextCycle" e))
    | none =>
      let survivalRule := pIsAlive && (livingNeighboursCount == 2 || livingNeighboursCount == 3)
      let reproductionRule := !pIsAlive && livingNeighboursCount == 3
      pure (survivalRule || reproductionRule, none)

/-- `Board.IsDeadNextCycle`. -/
def IsDeadNextCycle (b : Option Board) (p : Point) : Go (Bool × Option Error) := do
  let (isAlive, err) ← IsAliveNextCycle b p
  pure (!isAlive, err)

/-- `Board.Set`: returns the receiver after the write, and the error. -/
def Set (b : Option Board) (p : Point) (isAlive : Bool) : Go (Board × Option Error) := do
  let bitPosition ← pointToBitPosition b p
  match b with
  | none => throw Panic.nilDereference
  | some v =>
    match v.data.SetVal bitPosition isAlive with
    | (data, some _) =>
      pure ({ v with data := data }, some (Error.invalidPoint ⟨v.rows, 0, ⟨0, 0⟩, none⟩))
    | (data, none) => pure ({ v with data := data }, none)

/-- `New(rows, cols)`. -/
def New (rows cols : Int) : Option Board × Option Error :=
  match BitMap.New (wrapInt (rows * cols)) with
  | Except.error err => (none, some (Error.newBoard err))
  | Except.ok data => (some { data := data, rows := rows }, none)

/-- `NewFromData(rows, data)`. -/
def NewFromData (rows : Int) (data : BitMap) : Option Board × Option Error :=
  if data.Length < rows then (none, some (Error.dataTooSmall data.Length rows))
  else (some { data := data, rows := rows }, none)

/-- The body of the inner loop of `Board.NextBoard` at one cell: `Except.error`
is the early `return nil, loopErr`, `Except.ok` the new board to continue with. -/
def nextBoardCell (b : Option Board) (nextBoard : Board) (p : Point) :
    Go (Except Error Board) := do
  let (isAliveNext, loopErr) ← IsAliveNextCycle b p
  match loopErr with
  | some e => pure (Except.error e)
  | none =>
    if !isAliveNext then pure (Except.ok nextBoard)
    else
      let (nb, loopErr) ← Set (some nextBoard) p isAliveNext
      match loopErr with
      | some e => pure (Except.error e)
      | none => pure (Except.ok nb)

/-- The inner loop of `Board.NextBoard` over the remaining columns of `row`. -/
def nextBoardColumns (b : Option Board) (row : Int) :
    List Int → Board → Go (Except Error Board)
  | [], nextBoard => pure (Except.ok nextBoard)
  | column :: rest, nextBoard => do
    match ← nextBoardCell b nextBoard ⟨row, column⟩ with
    | Except.error e => pure (Except.error e)
    | Except.ok nb => nextBoardColumns b row rest nb

/-- The outer loop of `Board.NextBoard` over the remaining rows. -/
def nextBoardRows (b : Option Board) : List Int → Board → Go (Except Error Board)
  | [], nextBoard => pure (Except.ok nextBoard)
  | row :: rest, nextBoard => do
    let cols ← Columns b
    match ← nextBoardColumns b row (forRange cols) nextBoard with
    | Except.error e => pure (Except.error e)
    | Except.ok nb => nextBoardRows b rest nb

/-- `Board.NextBoard`. -/
def NextBoard (b : Option Board) : Go (Option Board × Option Error) := do
  let cols ← Columns b
  match New (Rows b) cols with
  | (_, some _) => throw Panic.mustFailed
  | (none, none) => throw Panic.nilDereference
  | (some nextBoard, none) =>
    match b with
    | none => throw Panic.nilDereference
    | some v =>
      match ← nextBoardRows b (forRange v.rows) nextBoard with
      | Except.error loopErr => pure (none, some loopErr)
      | Except.ok nb => pure (some nb, none)

/-- `Board.Points`: the sequence yielded to the consumer, in order. -/
def Points (b : Option Board) : Go (List Point) :=
  (forRange (Rows b)).foldr
    (fun row acc => do
      let cols ← Columns b
      let tail ← acc
      pure ((forRange cols).map (fun column => (⟨row, column⟩ : Point)) ++ tail))
    (pure [])

end Board

end GameOfLife

/-! ## The runner (`runner/runner.go`, `runner/state_string.go`)

Conventions, in addition to those of the board:

* `time.Duration` is a number of nanoseconds.
* A channel of the listener list is `none` (the `nil` channel) or the identity
  of a channel.
* Of a `context.Context`, a `time.Ticker` and the completion channel, the
  fields are what the runner observes: done, running, closed.
* `Start` and `Close` are `start` and `close` run under the mutex; the
  functions below are those bodies, for a call that holds the mutex. The mutex
  itself, the goroutine of the loop and the channels are in `World`.
-/

namespace GameOfLife

/-- `time.Duration`, in nanoseconds. -/
abbrev Duration := Int

/-- `type State uint32` with its five constants; no other value is ever
assigned to the `state` field. -/
inductive State where
  | Stopped
  | Starting
  | Running
  | Stopping
  | Errored
  deriving DecidableEq, Repr

/-- `State.String` (`state_string.go`). -/
def State.String : State → String
  | State.Stopped => "Stopped"
  | State.Starting => "Starting"
  | State.Running => "Running"
  | State.Stopping => "Stopping"
  | State.Errored => "Errored"

/-- A `chan<- *board.Board` of the listener list: `none` is the `nil` channel. -/
abbrev Listener := Option Nat

/-- A `context.Context`, as far as the runner reads it: whether `Done()` is closed. -/
structure Context where
  done : Bool
  deriving DecidableEq, Repr

/-- A `*time.Ticker`: its interval and whether it is delivering ticks. -/
structure Ticker where
  interval : Duration
  running : Bool
  deriving DecidableEq, Repr

/-- The completion channel `isStoppedChan`: nothing is sent on it, it is only closed. -/
structure Signal where
  closed : Bool
  deriving DecidableEq, Repr

/-- The error values produced by the `runner` package. -/
inductive RunnerError where
  /-- `fmt.Errorf("cannot start Runner in state %s", state)`. -/
  | cannotStart (state : String)
  /-- `fmt.Errorf("cannot close runner.Runner in state %s", state)`. -/
  | cannotClose (state : String)
  /-- `fmt.Errorf("the Runner took longer than %s to stop ...", grace)`. -/
  | closeTimeout (grace : Duration)
  /-- An error of the `board` package. -/
  | board (e : Error)
  /-- `errors.Join(left, right)` with both errors non-nil. -/
  | joinBoth (left : RunnerError) (right : Error)
  /-- `errors.Join(left, nil)` with `left` non-nil. -/
  | joinLeft (left : RunnerError)
  /-- `errors.Join(nil, right)` with `right` non-nil. -/
  | joinRight (right : Error)
  deriving DecidableEq, Repr

/-- Go's `errors.Join(left, right)`: `nil` when both are `nil`, else an error
wrapping the non-nil ones. -/
def errorsJoin (left : Option RunnerError) (right : Option Error) : Option RunnerError :=
  match left, right with
  | none, none => none
  | some l, none => some (RunnerError.joinLeft l)
  | none, some r => some (RunnerError.joinRight r)
  | some l, some r => some (RunnerError.joinBoth l r)

/-- Go's `slices.DeleteFunc(s, del)` (Go 1.22 and later), by its two results:
the contents of the backing array as seen through the slice header of the
caller (the kept elements moved to the front, the vacated tail zeroed), and
the returned, shorter slice. -/
def slicesDeleteFunc {α : Type} (s : List α) (del : α → Bool) (zero : α) :
    List α × List α :=
  let kept := s.filter (fun x => !del x)
  (kept ++ List.replicate (s.length - kept.length) zero, kept)

/-- `time.NewTicker(d)`: panics on a non-positive interval. -/
def newTicker (d : Duration) : Go Ticker :=
  if d ≤ 0 then throw Panic.nonPositiveInterval else pure ⟨d, true⟩

/-- `Ticker.Reset(d)`: panics on a non-positive interval. -/
def Ticker.Reset (_t : Ticker) (d : Duration) : Go Ticker :=
  if d ≤ 0 then throw Panic.nonPositiveInterval else pure ⟨d, true⟩

/-- `Ticker.Stop()`. -/
def Ticker.Stop (t : Ticker) : Ticker :=
  { t with running := false }

/-- `context.WithCancelCause(parent)`: panics on a `nil` parent; the derived
context is done as soon as its parent is. -/
def withCancelCause (parent : Option Context) : Go Context :=
  match parent with
  | none => throw Panic.nilContext
  | some c => pure ⟨c.done⟩

/-- `type options struct`. -/
structure Options where
  clockInterval : Duration
  baseCtx : Option Context
  closeGracePeriod : Duration
  boardRows : Int
  boardColumns : Int
  listeners : List Listener
  initFn : Option (Point → Bool)
  initBoard : Option Board

/-- `var defaultOptions`: 300 ms, the background context, one minute, 100 × 100. -/
def defaultOptions : Options :=
  { clockInterval := 300 * 1000000
    baseCtx := some ⟨false⟩
    closeGracePeriod := 60 * 1000000000
    boardRows := 100
    boardColumns := 100
    listeners := []
    initFn := none
    initBoard := none }

/-- `WithClockInterval`. -/
def WithClockInterval (interval : Duration) (o : Options) : Options :=
  { o with clockInterval := interval }

/-- `WithBaseContext`. -/
def WithBaseContext (ctx : Option Context) (o : Options) : Options :=
  { o with baseCtx := ctx }

/-- `WithCloseGracePeriod`. -/
def WithCloseGracePeriod (duration : Duration) (o : Options) : Options :=
  { o with closeGracePeriod := duration }

/-- `WithBoardSize`. -/
def WithBoardSize (rows columns : Int) (o : Options) : Options :=
  { o with boardRows := rows, boardColumns := columns }

/-- `WithListener`. -/
def WithListener (listener : Listener) (o : Options) : Options :=
  { o with listeners := o.listeners ++ [listener] }

/-- `WithInitFn`. -/
def WithInitFn (fn : Option (Point → Bool)) (o : Options) : Options :=
  { o with initFn := fn }

/-- `WithInitBoard`. -/
def WithInitBoard (initBoard : Option Board) (o : Options) : Options :=
  { o with initBoard := initBoard }

/-- `type Runner struct`, without its mutex. `ctx` stands for the pair
`ctx`, `closeCtx`. -/
structure Runner where
  options : Options
  ctx : Option Context
  clock : Option Ticker
  currentBoard : Option Board
  isStoppedChan : Option Signal
  state : State
  loopError : Option Error

namespace Runner

/-- `runner.New(optionFns...)`. -/
def New (optionFns : List (Options → Options)) : Runner × Option RunnerError :=
  ({ options := optionFns.foldl (fun o optionFn => optionFn o) defaultOptions
     ctx := none
     clock := none
     currentBoard := none
     isStoppedChan := none
     state := State.Stopped
     loopError := none }, none)

/-- `Runner.BoardSize`. -/
def BoardSize (g : Runner) : Int × Int :=
  (g.options.boardRows, g.options.boardColumns)

/-- `Runner.ClockInterval`. -/
def ClockInterval (g : Runner) : Duration :=
  g.options.clockInterval

/-- `Runner.LoopError`. -/
def LoopError (g : Runner) : Option Error :=
  g.loopError

/-- `Runner.AddListener`. -/
def AddListener (g : Runner) (l : Listener) : Runner :=
  { g with options := { g.options with listeners := g.options.listeners ++ [l] } }

/-- `Runner.RemoveListener`: the slice returned by `slices.DeleteFunc` is
dropped, the `listeners` field keeps its slice header. -/
def RemoveListener (g : Runner) (l : Listener) : Runner :=
  { g with options := { g.options with
      listeners := (slicesDeleteFunc g.options.listeners (fun cur => cur == l) none).1 } }

/-- The outcome of `start`: the runner after the call, what the call returned
(or its panic), and how many times `go g.loop()` was executed. -/
structure StartResult where
  runner : Runner
  result : Go (Option RunnerError)
  launched : Nat

/-- A write to the board behind `currentBoard`. When an initial board was
supplied, `currentBoard` and `options.initBoard` are the same pointer, and
both read the written board. -/
def writeCurrent (g : Runner) (b : Board) : Runner :=
  match g.options.initBoard with
  | none => { g with currentBoard := some b }
  | some _ => { g with currentBoard := some b, options := { g.options with initBoard := some b } }

/-- The clock of `start`: a new ticker, or the old one reset. -/
def startClock (g : Runner) : Go Ticker :=
  match g.clock with
  | none => newTicker g.options.clockInterval
  | some t => t.Reset g.options.clockInterval

/-- The initial board of `start`: the supplied board, with the configured
size overwritten by its dimensions, or a new board of the configured size. -/
def startBoard (g : Runner) : Runner × Go (Option RunnerError) :=
  match g.options.initBoard with
  | some b =>
    let g1 := { g with currentBoard := some b }
    match Board.Columns g1.currentBoard with
    | Except.error pn => (g1, Except.error pn)
    | Except.ok columns =>
      ({ g1 with options := { g1.options with
          boardRows := Board.Rows g1.currentBoard, boardColumns := columns } }, Except.ok none)
  | none =>
    match Board.New g.options.boardRows g.options.boardColumns with
    | (b, err) => ({ g with currentBoard := b }, Except.ok (err.map RunnerError.board))

/-- The loop of `start` over the points yielded by `Points()`: every cell is
set to the value of the initializer, the errors are joined. -/
def startInitLoop (fn : Point → Bool) :
    List Point → Runner → Option RunnerError → Runner × Go (Option RunnerError)
  | [], g, err => (g, Except.ok err)
  | p :: rest, g, err =>
    match Board.Set g.currentBoard p (fn p) with
    | Except.error pn => (g, Except.error pn)
    | Except.ok (b, setErr) => startInitLoop fn rest (writeCurrent g b) (errorsJoin err setErr)

/-- The initializer of `start`, applied when one is configured. -/
def startInit (g : Runner) (err : Option RunnerError) : Runner × Go (Option RunnerError) :=
  match g.options.initFn with
  | none => (g, Except.ok err)
  | some fn =>
    match Board.Points g.currentBoard with
    | Except.error pn => (g, Except.error pn)
    | Except.ok points => startInitLoop fn points g err

/-- `Runner.start` after the state check and `g.state = Starting`, up to its
return or panic; the deferred assignment is applied by `start`. -/
def startBody (g : Runner) : StartResult :=
  match startClock g with
  | Except.error pn => ⟨g, Except.error pn, 0⟩
  | Except.ok clock =>
    let g1 := { g with clock := some clock, isStoppedChan := some ⟨false⟩ }
    match withCancelCause g1.options.baseCtx with
    | Except.error pn => ⟨g1, Except.error pn, 0⟩
    | Except.ok ctx =>
      let g2 := { g1 with ctx := some ctx }
      match startBoard g2 with
      | (g3, Except.error pn) => ⟨g3, Except.error pn, 0⟩
      | (g3, Except.ok err) =>
        match startInit g3 err with
        | (g4, Except.error pn) => ⟨g4, Except.error pn, 0⟩
        | (g4, Except.ok (some e)) => ⟨g4, Except.ok (some e), 0⟩
        | (g4, Except.ok none) => ⟨g4, Except.ok none, 1⟩

/-- `Runner.start`: the state check, then the body with the deferred
`g.state = Running` run at its return or panic. -/
def start (g : Runner) : StartResult :=
  if g.state ≠ State.Stopped then
    ⟨g, Except.ok (some (RunnerError.cannotStart g.state.String)), 0⟩
  else
    let r := startBody { g with state := State.Starting }
    ⟨{ r.runner with state := State.Running }, r.result, r.launched⟩

/-- `Runner.Start`, for a call that acquires the mutex. -/
def Start (g : Runner) : StartResult :=
  start g

/-- How `close` reaches its `select`, or leaves before it. -/
inductive CloseEntry where
  | returned (err : RunnerError)
  | panicked (pn : Panic)
  | waiting
  deriving DecidableEq, Repr

/-- `Runner.close` up to its `select`: the state check, `g.state = Stopping`,
`g.clock.Stop()` and `g.closeCtx(nil)`. -/
def closeEnter (g : Runner) : Runner × CloseEntry :=
  if g.state ≠ State.Running then
    (g, CloseEntry.returned (RunnerError.cannotClose g.state.String))
  else
    let g1 := { g with state := State.Stopping }
    match g1.clock with
    | none => (g1, CloseEntry.panicked Panic.nilDereference)
    | some t =>
      let g2 := { g1 with clock := some t.Stop }
      match g2.ctx with
      | none => (g2, CloseEntry.panicked Panic.nilDereference)
      | some _ => ({ g2 with ctx := some ⟨true⟩ }, CloseEntry.waiting)

/-- The case `<-g.isStoppedChan` of the `select` of `close`. -/
def closeStopped (g : Runner) : Runner × Option RunnerError :=
  ({ g with state := State.Stopped }, none)

/-- The case `<-time.After(g.options.closeGracePeriod)` of the `select` of `close`. -/
def closeTimedOut (g : Runner) : Runner × Option RunnerError :=
  ({ g with state := State.Errored },
    some (RunnerError.closeTimeout g.options.closeGracePeriod))

/-- `Runner.close`, given the case its `select` takes: `stopped` says that the
completion channel is closed before the grace period ends. -/
def close (g : Runner) (stopped : Bool) : Runner × Go (Option RunnerError) :=
  match closeEnter g with
  | (g1, CloseEntry.returned err) => (g1, Except.ok (some err))
  | (g1, CloseEntry.panicked pn) => (g1, Except.error pn)
  | (g1, CloseEntry.waiting) =>
    if stopped then
      match closeStopped g1 with
      | (g2, err) => (g2, Except.ok err)
    else
      match closeTimedOut g1 with
      | (g2, err) => (g2, Except.ok err)

/-- `Runner.Close`, for a call that acquires the mutex. -/
def Close (g : Runner) (stopped : Bool) : Runner × Go (Option RunnerError) :=
  close g stopped

/-- `Runner.setLoopError`, for a call that acquires the mutex. -/
def setLoopError (g : Runner) (err : Error) : Runner :=
  { g with loopError := some err, state := State.Errored }

end Runner

end GameOfLife

/-! ## The execution loop and its callers as a transition system

`Runner.loop` runs in its own goroutine, next to the caller of `Close`; both
take the mutex of the runner. A `World` holds the runner, the holder of the
mutex, the point each of the two has reached in its code, and the channels.
A `Move` lets one of them take its next step, or lets the ticker fire or the
base context be cancelled; a step that cannot be taken (a `Lock` on a held
mutex, a send nobody receives, a `select` with no ready case) is not enabled.
The board-advance function called by the loop is a parameter `advance`; the
program runs it with `Board.NextBoard`. A `Program` is a `World` with a caller
of `Start`, which holds the mutex from its `Lock` to its return.
-/

namespace GameOfLife

/-- The two goroutines that take the mutex. -/
inductive Thread where
  | loop
  | closer
  deriving DecidableEq, Repr

/-- Where `Runner.loop` stands. -/
inductive LoopPc where
  /-- At `g.mu.Lock()` of `broadcastBoard`, the first statement of an iteration. -/
  | broadcastLock
  /-- Inside `broadcastBoard`, holding the mutex, before the clone and the send
  to listener `i` (or before the deferred `Unlock` when the range is over). -/
  | send (i : Nat)
  /-- At `g.currentBoard.NextBoard()`. -/
  | next
  /-- At `g.mu.Lock()` of `setLoopError(e)`. -/
  | errorLock (e : Error)
  /-- At the `select`. -/
  | select
  /-- Returned; the deferred `close(g.isStoppedChan)` has run. -/
  | exited
  /-- Panicked; the deferred calls have run and the program is terminated. -/
  | panicked (pn : Panic)
  deriving DecidableEq, Repr

/-- Where the caller of `Runner.Close` stands. -/
inductive ClosePc where
  /-- `Close` has not been called. -/
  | idle
  /-- At `g.mu.Lock()`. -/
  | lock
  /-- Holding the mutex, at the `select` of `close`. -/
  | select
  /-- Returned, with this error. -/
  | returned (err : Option RunnerError)
  /-- Panicked. -/
  | panicked (pn : Panic)
  deriving DecidableEq, Repr

/-- A listener channel, seen from the sender: whether a receiver takes what is
sent, and the free slots of its buffer. -/
structure Chan where
  reading : Bool
  free : Nat
  deriving DecidableEq, Repr

/-- The state of the running program. `sent` is the log of the boards
delivered, with the channel of each; `broadcasts` and `nextCalls` count the
calls of `broadcastBoard` and of `NextBoard` made by the loop. -/
structure World where
  runner : Runner
  mu : Option Thread
  loopPc : LoopPc
  closePc : ClosePc
  tick : Bool
  chans : List Chan
  sent : List (Nat × Board)
  broadcasts : Nat
  nextCalls : Nat

/-- What lets the program take a step. At a `select` with several ready cases
Go picks any of them: `takeTick` and `timeout` say which one is taken. -/
inductive Move where
  | loop (takeTick : Bool)
  | close (timeout : Bool)
  | tick
  | cancelBase
  deriving DecidableEq, Repr

namespace World

/-- A send on channel `c` can complete: it has a receiver, or room in its buffer. -/
def accepts (w : World) (c : Nat) : Bool :=
  match w.chans[c]? with
  | none => false
  | some ch => ch.reading || decide (0 < ch.free)

/-- The channels after a completed send on channel `c`. -/
def afterSend (w : World) (c : Nat) : List Chan :=
  match w.chans[c]? with
  | none => w.chans
  | some ch => if ch.reading then w.chans else w.chans.set c { ch with free := ch.free - 1 }

/-- The deferred `close(g.isStoppedChan)` of the loop. -/
def closeStoppedChan (g : Runner) : Runner :=
  { g with isStoppedChan := g.isStoppedChan.map fun _ => ⟨true⟩ }

/-- A panic of the loop: its deferred calls run, the program terminates. -/
def loopPanic (w : World) (pn : Panic) : World :=
  { w with runner := closeStoppedChan w.runner, loopPc := LoopPc.panicked pn }

/-- One step of `Runner.loop` (with `broadcastBoard` and `setLoopError`). -/
def stepLoop (advance : Option Board → Go (Option Board × Option Error)) (takeTick : Bool)
    (w : World) : Option World :=
  match w.loopPc with
  | LoopPc.broadcastLock =>
    if w.mu = none then
      some { w with mu := some Thread.loop, loopPc := LoopPc.send 0,
                    broadcasts := w.broadcasts + 1 }
    else none
  | LoopPc.send i =>
    match w.runner.options.listeners[i]? with
    | none => some { w with mu := none, loopPc := LoopPc.next }
    | some listener =>
      match Board.Clone w.runner.currentBoard with
      | Except.error pn => some (loopPanic { w with mu := none } pn)
      | Except.ok bClone =>
        match listener with
        | none => none
        | some c =>
          if w.accepts c then
            some { w with chans := w.afterSend c, sent := w.sent ++ [(c, bClone)],
                          loopPc := LoopPc.send (i + 1) }
          else none
  | LoopPc.next =>
    match advance w.runner.currentBoard with
    | Except.error pn => some (loopPanic { w with nextCalls := w.nextCalls + 1 } pn)
    | Except.ok (nextBoard, err) =>
      let w1 := { w with runner := { w.runner with currentBoard := nextBoard },
                         nextCalls := w.nextCalls + 1 }
      match err with
      | some e => some { w1 with loopPc := LoopPc.errorLock e }
      | none => some { w1 with loopPc := LoopPc.select }
  | LoopPc.errorLock e =>
    if w.mu = none then
      some { w with runner := w.runner.setLoopError e, loopPc := LoopPc.select }
    else none
  | LoopPc.select =>
    match w.runner.ctx, w.runner.clock with
    | some ctx, some _ =>
      if ctx.done ∧ (w.tick = false ∨ takeTick = false) then
        some { w with runner := closeStoppedChan w.runner, loopPc := LoopPc.exited }
      else if w.tick = true then
        some { w with tick := false, loopPc := LoopPc.broadcastLock }
      else none
    | _, _ => some (loopPanic w Panic.nilDereference)
  | LoopPc.exited => none
  | LoopPc.panicked _ => none

/-- One step of the caller of `Runner.Close`. -/
def stepClose (timeout : Bool) (w : World) : Option World :=
  match w.closePc with
  | ClosePc.idle => some { w with closePc := ClosePc.lock }
  | ClosePc.lock =>
    if w.mu = none then
      match w.runner.closeEnter with
      | (g, Runner.CloseEntry.returned err) =>
        some { w with runner := g, closePc := ClosePc.returned (some err) }
      | (g, Runner.CloseEntry.panicked pn) =>
        some { w with runner := g, closePc := ClosePc.panicked pn }
      | (g, Runner.CloseEntry.waiting) =>
        some { w with runner := g, mu := some Thread.closer, closePc := ClosePc.select }
    else none
  | ClosePc.select =>
    if timeout then
      match w.runner.closeTimedOut with
      | (g, err) => some { w with runner := g, mu := none, closePc := ClosePc.returned err }
    else
      match w.runner.isStoppedChan with
      | some ⟨true⟩ =>
        match w.runner.closeStopped with
        | (g, err) => some { w with runner := g, mu := none, closePc := ClosePc.returned err }
      | _ => none
  | ClosePc.returned _ => none
  | ClosePc.panicked _ => none

/-- The ticker fires: a tick waits in `g.clock.C`, if the ticker is running. -/
def stepTick (w : World) : Option World :=
  match w.runner.clock with
  | some ⟨_, true⟩ => some { w with tick := true }
  | _ => none

/-- The base context is cancelled, and with it the context derived from it. -/
def stepCancelBase (w : World) : Option World :=
  some { w with runner := { w.runner with
    options := { w.runner.options with baseCtx := w.runner.options.baseCtx.map fun _ => ⟨true⟩ }
    ctx := w.runner.ctx.map fun _ => ⟨true⟩ } }

/-- One step of the program; nothing moves once the loop has panicked. -/
def step (advance : Option Board → Go (Option Board × Option Error)) (m : Move) (w : World) :
    Option World :=
  match w.loopPc with
  | LoopPc.panicked _ => none
  | _ =>
    match m with
    | Move.loop takeTick => stepLoop advance takeTick w
    | Move.close timeout => stepClose timeout w
    | Move.tick => stepTick w
    | Move.cancelBase => stepCancelBase w

/-- A run: the moves are taken in order, a move that is not enabled is skipped. -/
def run (advance : Option Board → Go (Option Board × Option Error)) :
    List Move → World → World
  | [], w => w
  | m :: rest, w => run advance rest ((step advance m w).getD w)

/-- The program right after a successful `Start`: the loop is about to begin
its first iteration, the mutex is free, `Close` has not been called. -/
def afterStart (g : Runner) (chans : List Chan) : World :=
  { runner := g
    mu := none
    loopPc := LoopPc.broadcastLock
    closePc := ClosePc.idle
    tick := false
    chans := chans
    sent := []
    broadcasts := 0
    nextCalls := 0 }

end World

/-- Where a caller of `Runner.Start` stands. -/
inductive StartPc where
  /-- `Start` has not been called. -/
  | idle
  /-- At `g.mu.Lock()`. -/
  | lock
  /-- Returned, with this error. -/
  | returned (err : Option RunnerError)
  /-- Panicked. -/
  | panicked (pn : Panic)
  deriving DecidableEq, Repr

/-- The program with a caller of `Runner.Start` next to the loop and the
caller of `Close`. -/
structure Program where
  world : World
  startPc : StartPc

/-- What lets the program with a caller of `Start` take a step: a move of the
loop, of the caller of `Close`, of the ticker or of the base context, or a
step of the caller of `Start`. -/
inductive ProgramMove where
  | world (m : Move)
  | start
  deriving DecidableEq, Repr

namespace Program

/-- One step of the caller of `Runner.Start`: the call, then `g.mu.Lock()`,
which needs the mutex free, followed by `start` and the deferred `Unlock`.
`start` waits for nothing, so it runs to its return or panic while it holds
the mutex. A loop launched by `go g.loop()` stands at its first statement. -/
def stepStart (s : Program) : Option Program :=
  match s.startPc with
  | StartPc.idle => some { s with startPc := StartPc.lock }
  | StartPc.lock =>
    if s.world.mu = none then
      let r := Runner.Start s.world.runner
      let pc := if r.launched = 0 then s.world.loopPc else LoopPc.broadcastLock
      let w := { s.world with runner := r.runner, loopPc := pc }
      match r.result with
      | Except.ok err => some { world := w, startPc := StartPc.returned err }
      | Except.error pn => some { world := w, startPc := StartPc.panicked pn }
    else none
  | StartPc.returned _ => none
  | StartPc.panicked _ => none

/-- One step of the program; nothing moves once a goroutine has panicked. -/
def step (advance : Option Board → Go (Option Board × Option Error)) (m : ProgramMove)
    (s : Program) : Option Program :=
  match s.startPc with
  | StartPc.panicked _ => none
  | _ =>
    match m with
    | ProgramMove.world wm => (World.step advance wm s.world).map fun w => { s with world := w }
    | ProgramMove.start =>
      match s.world.loopPc with
      | LoopPc.panicked _ => none
      | _ => stepStart s

/-- A run: the moves are taken in order, a move that is not enabled is skipped. -/
def run (advance : Option Board → Go (Option Board × Option Error)) :
    List ProgramMove → Program → Program
  | [], s => s
  | m :: rest, s => run advance rest ((step advance m s).getD s)

end Program

end GameOfLife

/-! ## Definitions used to state and prove the properties -/

namespace GameOfLife

/-- The fields of the board are values a Go program can hold: `rows` is an
`int` and the number of stored bits fits an `int`. -/
def Board.representable (v : Board) : Prop :=
  isInt v.rows ∧ v.data.Length ≤ maxInt

instance (v : Board) : Decidable v.representable := by
  unfold Board.representable; exact inferInstance

/-- Column count of a board with a positive row count, as a plain quotient. -/
def Board.cols (v : Board) : Int := v.data.Length / v.rows

/-- The point lies inside `[0, rows) × [0, columns)`. -/
def Board.inBounds (v : Board) (p : Point) : Prop :=
  0 ≤ p.Row ∧ p.Row < v.rows ∧ 0 ≤ p.Column ∧ p.Column < v.cols

instance (v : Board) (p : Point) : Decidable (v.inBounds p) := by
  unfold Board.inBounds; exact inferInstance

/-- The stored bit of a cell, read at its row-major position. -/
def Board.cellBit (v : Board) (p : Point) : Bool :=
  v.data.bits.getD (p.Row * v.cols + p.Column).toNat false

namespace Board

/-- Number of live cells among the candidates accepted by the bounds filter. -/
def liveCount (v : Board) (p : Point) : Int :=
  ((p.Neighbours.filter (fun q => decide (v.inBounds q))).countP v.cellBit : Nat)

/-- The two transition rules, as a function of the cell and its live-neighbour count. -/
def rule (alive : Bool) (n : Int) : Bool :=
  (alive && (n == 2 || n == 3)) || (!alive && n == 3)

/-- The board after a write of one cell at its row-major position. -/
def setBit (v : Board) (p : Point) (a : Bool) : Board :=
  { v with data := ⟨v.data.bits.set (p.Row * v.cols + p.Column).toNat a⟩ }

/-- Liveness of a cell in the next generation, from the stored bits. -/
def nextBit (v : Board) (p : Point) : Bool := rule (v.cellBit p) (liveCount v p)

/-- The board under construction has the dimensions of the receiver. -/
def sameShape (nb v : Board) : Prop :=
  nb.rows = v.rows ∧ nb.data.Length = v.rows * v.cols

/-- The all-dead board allocated by `NextBoard` for a receiver with positive rows. -/
def blank (v : Board) : Board :=
  { data := ⟨List.replicate (v.rows * v.cols).toNat false⟩, rows := v.rows }

end Board

/-- The board after a sequence of `Set` calls, whatever error each call returned. -/
def setMany (b : Board) : List (Point × Bool) → Go Board
  | [] => pure b
  | (p, a) :: rest => do
    let (b', _) ← Board.Set (some b) p a
    setMany b' rest

/-- The eight Moore neighbours of a point: the cells of the surrounding 3×3
block other than the point itself. -/
def mooreNeighbourhood (p : Point) : List Point :=
  ([p.Row - 1, p.Row, p.Row + 1].flatMap fun r =>
    [p.Column - 1, p.Column, p.Column + 1].map fun c => (⟨r, c⟩ : Point)).filter
    (fun q => decide (q ≠ p))

/-- Number of Moore neighbours of `p` that lie inside the board and are alive,
as observed through the board's queries. -/
def mooreLiveCount (b : Option Board) (p : Point) : Int :=
  ((mooreNeighbourhood p).countP (fun q =>
    decide (Board.isValidPoint b q = Except.ok true ∧
      Board.IsAlive b q = Except.ok (true, none))) : Nat)

/-- The board of the package test: `New(3, 3)` and the `Set` calls that make
the middle column alive. -/
def blinkerColumn : Go Board :=
  match Board.New 3 3 with
  | (some b, none) => setMany b [(⟨0, 1⟩, true), (⟨1, 1⟩, true), (⟨2, 1⟩, true)]
  | _ => throw Panic.nilDereference

namespace Board

/-- The board returned by `New(3, 3)`: nine dead cells. -/
def deadBoard : Board :=
  ⟨⟨List.replicate 9 false⟩, 3⟩

/-- The board of the package test after its three `Set` calls. -/
def blinkerBoard : Board :=
  ⟨⟨[false, true, false, false, true, false, false, true, false]⟩, 3⟩

/-- The board expected by the package test: only the middle row alive. -/
def blinkerRow : Board :=
  ⟨⟨[false, false, false, true, true, true, false, false, false]⟩, 3⟩

end Board

/-- Row-major order on points: row ascending, then column ascending. -/
def rowMajorLt (p q : Point) : Prop :=
  p.Row < q.Row ∨ (p.Row = q.Row ∧ p.Column < q.Column)

/-- All points of an `R × C` grid, row by row. -/
def gridPoints (rs : List Int) (C : Int) : List Point :=
  rs.flatMap fun row => (forRange C).map fun column => (⟨row, column⟩ : Point)

/-- A store of bit-vector objects: a `*bitmap.BitMap` is an index into it. -/
structure Heap where
  objs : List BitMap
  deriving DecidableEq, Repr

/-- A `Board` struct whose `data` field is a pointer into the store. -/
structure BoardRef where
  data : Nat
  rows : Int
  deriving DecidableEq, Repr

/-- The board a reference denotes in a store (`none` when its pointer dangles). -/
def Heap.load (h : Heap) (b : BoardRef) : Option Board :=
  (h.objs[b.data]?).map fun m => ⟨m, b.rows⟩

/-- Overwrite of the object a pointer designates. -/
def Heap.store (h : Heap) (ptr : Nat) (m : BitMap) : Heap :=
  ⟨h.objs.set ptr m⟩

/-- `New(rows, cols)` in a store: the storage is a freshly allocated object. -/
def NewRef (h : Heap) (rows cols : Int) : Heap × Option BoardRef × Option Error :=
  match BitMap.New (wrapInt (rows * cols)) with
  | Except.error err => (h, none, some (Error.newBoard err))
  | Except.ok data => (⟨h.objs ++ [data]⟩, some ⟨h.objs.length, rows⟩, none)

/-- `Board.Set` in a store: the write lands in the object the receiver points to. -/
def SetRef (h : Heap) (b : BoardRef) (p : Point) (isAlive : Bool) :
    Heap × Go (Option Error) :=
  match Board.Set (h.load b) p isAlive with
  | Except.error pn => (h, Except.error pn)
  | Except.ok (v, err) => (h.store b.data v.data, Except.ok err)

/-- The body of the inner loop of `Board.NextBoard` in a store: the receiver is
read in the current store, the write goes through the pointer of `nextBoard`. -/
def nextBoardCellRef (h : Heap) (b nextBoard : BoardRef) (p : Point) :
    Heap × Go (Except Error Unit) :=
  match Board.IsAliveNextCycle (h.load b) p with
  | Except.error pn => (h, Except.error pn)
  | Except.ok (_, some e) => (h, Except.ok (Except.error e))
  | Except.ok (isAliveNext, none) =>
    if !isAliveNext then (h, Except.ok (Except.ok ()))
    else
      match SetRef h nextBoard p isAliveNext with
      | (h', Except.error pn) => (h', Except.error pn)
      | (h', Except.ok (some e)) => (h', Except.ok (Except.error e))
      | (h', Except.ok none) => (h', Except.ok (Except.ok ()))

/-- The inner loop of `Board.NextBoard` in a store. -/
def nextBoardColumnsRef (b nextBoard : BoardRef) (row : Int) :
    List Int → Heap → Heap × Go (Except Error Unit)
  | [], h => (h, Except.ok (Except.ok ()))
  | column :: rest, h =>
    match nextBoardCellRef h b nextBoard ⟨row, column⟩ with
    | (h', Except.ok (Except.ok ())) => nextBoardColumnsRef b nextBoard row rest h'
    | (h', r) => (h', r)

/-- The outer loop of `Board.NextBoard` in a store. -/
def nextBoardRowsRef (b nextBoard : BoardRef) : List Int → Heap → Heap × Go (Except Error Unit)
  | [], h => (h, Except.ok (Except.ok ()))
  | row :: rest, h =>
    match Board.Columns (h.load b) with
    | Except.error pn => (h, Except.error pn)
    | Except.ok cols =>
      match nextBoardColumnsRef b nextBoard row (forRange cols) h with
      | (h', Except.ok (Except.ok ())) => nextBoardRowsRef b nextBoard rest h'
      | (h', r) => (h', r)

/-- `Board.NextBoard` in a store: the final store, and the returned pointer
and error (or the panic). -/
def NextBoardRef (h : Heap) (b : BoardRef) : Heap × Go (Option BoardRef × Option Error) :=
  match Board.Columns (h.load b) with
  | Except.error pn => (h, Except.error pn)
  | Except.ok cols =>
    match NewRef h (Board.Rows (h.load b)) cols with
    | (h1, _, some _) => (h1, Except.error Panic.mustFailed)
    | (h1, none, none) => (h1, Except.error Panic.nilDereference)
    | (h1, some nextBoard, none) =>
      match h1.load b with
      | none => (h1, Except.error Panic.nilDereference)
      | some v =>
        match nextBoardRowsRef b nextBoard (forRange v.rows) h1 with
        | (h2, Except.error pn) => (h2, Except.error pn)
        | (h2, Except.ok (Except.error loopErr)) => (h2, Except.ok (none, some loopErr))
        | (h2, Except.ok (Except.ok ())) => (h2, Except.ok (some nextBoard, none))

/-- The objects below address `n` are the same in both stores. -/
def agreeBelow (n : Nat) (h h' : Heap) : Prop :=
  ∀ i, i < n → h'.objs[i]? = h.objs[i]?

/-- The outcome of a loop of `NextBoard` in a store matches its outcome on
board values: same panic, same error, or the same board behind `nextBoard`
with the receiver still denoting `v`. -/
def simResult (h' : Heap) (b nb : BoardRef) (v : Board) :
    Go (Except Error Board) → Go (Except Error Unit) → Prop
  | Except.error pn, r => r = Except.error pn
  | Except.ok (Except.error e), r => r = Except.ok (Except.error e)
  | Except.ok (Except.ok w), r =>
    r = Except.ok (Except.ok ()) ∧ h'.load b = some v ∧ h'.load nb = some w

/-- The outcome of `NextBoard` in a store matches its outcome on board values. -/
def simNextBoard (h' : Heap) :
    Go (Option Board × Option Error) → Go (Option BoardRef × Option Error) → Prop
  | Except.error pn, r => r = Except.error pn
  | Except.ok (none, e), r => r = Except.ok (none, e)
  | Except.ok (some w, e), r => ∃ nb, r = Except.ok (some nb, e) ∧ h'.load nb = some w

/-- A freshly built runner for a 3 × 3 board with one listener. -/
def runnerBuilt : Runner :=
  (Runner.New [WithBoardSize 3 3, WithListener (some 0)]).1

/-- The runner `runnerBuilt` after a successful `Start`. -/
def runnerStarted : Runner :=
  (Runner.Start runnerBuilt).runner

/-- A freshly built runner whose configured board size has a negative row count. -/
def runnerBadSize : Runner :=
  (Runner.New [WithBoardSize (-1) 1]).1

/-- A freshly built runner with the test board supplied, a different size
configured, and an initializer that makes every cell dead. -/
def runnerBoardAndInit : Runner :=
  (Runner.New [WithBoardSize 7 9, WithInitBoard (some Board.blinkerBoard),
    WithInitFn (some (fun _ => false))]).1

/-- The program after `Start` of `runnerBuilt`, whose one listener is an
unbuffered channel that nobody reads. -/
def stuckWorld : World :=
  World.afterStart runnerStarted [⟨false, 0⟩]

/-- A runner for a 3 × 3 board without listeners, after a successful `Start`. -/
def runnerQuiet : Runner :=
  (Runner.Start (Runner.New [WithBoardSize 3 3]).1).runner

/-- A board-advance function that fails with `e` on every board, and does on
the `nil` board what `NextBoard` does. -/
def failingAdvance (e : Error) : Option Board → Go (Option Board × Option Error)
  | some _ => pure (none, some e)
  | none => Board.NextBoard none

namespace World

/-- The loop is inside `broadcastBoard`, holding the mutex, at a send that
cannot complete (a `nil` channel, or a channel without receiver and without
room), and the caller of `Close` is at `g.mu.Lock()`. -/
def Stuck (w : World) (i : Nat) : Prop :=
  w.loopPc = LoopPc.send i ∧ w.mu = some Thread.loop ∧ w.closePc = ClosePc.lock ∧
  w.runner.currentBoard.isSome = true ∧
  (w.runner.options.listeners[i]? = some none ∨
    ∃ c, w.runner.options.listeners[i]? = some (some c) ∧ w.accepts c = false)

end World

namespace Board

/-- The board after `n` successive calls of `NextBoard`, each made on the
board returned by the call before, as the loop makes them. -/
def generation (b : Option Board) : Nat → Go (Option Board × Option Error)
  | 0 => pure (b, none)
  | n + 1 => do
    let (bn, _) ← generation b n
    NextBoard bn

/-- A clone of the board after `n` successive calls of `NextBoard`. -/
def generationClone (b : Option Board) (n : Nat) : Go Board := do
  let (bn, _) ← generation b n
  Clone bn

end Board

namespace World

/-- What the broadcasts `0, …, n-1` deliver, followed by what broadcast `n`
delivers to its first `i` listeners, when broadcast `k` sends a clone of the
board after `k` calls of `NextBoard` to every listener, in their order. -/
def deliveries (b : Option Board) (listeners : List Listener) (n i : Nat) :
    List (Listener × Go Board) :=
  (List.range n).flatMap (fun k => listeners.map fun l => (l, Board.generationClone b k)) ++
    (listeners.take i).map fun l => (l, Board.generationClone b n)

/-- The log of the sends of the loop: the channel and the board of each. -/
def delivered (w : World) : List (Listener × Go Board) :=
  w.sent.map fun e => (some e.1, Except.ok e.2)

/-- The broadcasts completed by the loop, and the sends completed in the
broadcast in progress. -/
def progressAt (pc : LoopPc) (broadcasts : Nat) : Nat × Nat :=
  match pc with
  | LoopPc.send i => (broadcasts - 1, i)
  | _ => (broadcasts, 0)

/-- The progress of the loop of a world. -/
def progress (w : World) : Nat × Nat :=
  progressAt w.loopPc w.broadcasts

/-- The counters at each point of the loop: a broadcast is begun before each
call of `NextBoard`, and no call has returned an error. -/
def countersAt (pc : LoopPc) (broadcasts nextCalls listeners : Nat) : Prop :=
  match pc with
  | LoopPc.send i => broadcasts = nextCalls + 1 ∧ i ≤ listeners
  | LoopPc.next => broadcasts = nextCalls + 1
  | LoopPc.errorLock _ => False
  | _ => broadcasts = nextCalls

/-- The loop has delivered the generations in order: its board is the initial
board `b` after `nextCalls` calls of `NextBoard`, and its log is `deliveries`
up to its progress. -/
def InOrder (b : Option Board) (listeners : List Listener) (w : World) : Prop :=
  w.runner.options.listeners = listeners ∧
  Board.generation b w.nextCalls = Except.ok (w.runner.currentBoard, none) ∧
  w.runner.currentBoard.isSome = true ∧
  w.delivered = deliveries b listeners w.progress.1 w.progress.2 ∧
  countersAt w.loopPc w.broadcasts w.nextCalls listeners.length

/-- Two worlds in which the loop stands at the same point with the same
board, listeners, counters and log. -/
def SameLoop (w w' : World) : Prop :=
  w'.runner.options.listeners = w.runner.options.listeners ∧
  w'.runner.currentBoard = w.runner.currentBoard ∧
  w'.loopPc = w.loopPc ∧ w'.broadcasts = w.broadcasts ∧ w'.nextCalls = w.nextCalls ∧
  w'.sent = w.sent

end World

/-- A runner started on the board of the package test, with two listeners. -/
def runnerBlinker : Runner :=
  (Runner.Start (Runner.New [WithInitBoard (some Board.blinkerBoard), WithListener (some 0),
    WithListener (some 1)]).1).runner

/-- A schedule: the loop makes its first broadcast and its first call of
`NextBoard`, the ticker fires, and the loop makes its second broadcast. -/
def blinkerMoves : List Move :=
  [Move.loop false, Move.loop false, Move.loop false, Move.loop false, Move.loop false,
    Move.tick, Move.loop true, Move.loop false, Move.loop false, Move.loop false]

/-- The run of `runnerBlinker` under `blinkerMoves`; the first listener is
read by a receiver, the second is a channel with room for two boards. -/
def blinkerRun : World :=
  World.run Board.NextBoard blinkerMoves (World.afterStart runnerBlinker [⟨true, 0⟩, ⟨false, 2⟩])

/-- The board after a sequence of `Set` calls that each returned a `nil`
error; `none` once a call has returned an error. -/
def setSuccessfully (b : Board) : List (Point × Bool) → Go (Option Board)
  | [] => pure (some b)
  | (p, a) :: rest => do
    let (b', err) ← Board.Set (some b) p a
    match err with
    | some _ => pure none
    | none => setSuccessfully b' rest

namespace World

/-- The loop is inside `broadcastBoard`, holding the mutex, at a send that
cannot complete (a `nil` channel, or a channel without receiver and without
room); the caller of `Close` is not inside `close`. -/
def Blocked (w : World) (i : Nat) : Prop :=
  w.loopPc = LoopPc.send i ∧ w.mu = some Thread.loop ∧ w.closePc ≠ ClosePc.select ∧
  w.runner.currentBoard.isSome = true ∧
  (w.runner.options.listeners[i]? = some none ∨
    ∃ c, w.runner.options.listeners[i]? = some (some c) ∧ w.accepts c = false)

/-- The caller to which `Close` has returned calls `Close` again. -/
def callCloseAgain (w : World) : World :=
  match w.closePc with
  | ClosePc.returned _ => { w with closePc := ClosePc.idle }
  | _ => w

end World

/-- The program of `stuckWorld` after a first `Close` that took the mutex
before the first broadcast and timed out, leaving the state `Errored`: the
loop has since taken the mutex and is blocked in its send, and `Close` is
called a second time. -/
def erroredWorld : World :=
  World.callCloseAgain (World.run Board.NextBoard
    [Move.close false, Move.close false, Move.loop false, Move.close true, Move.loop false]
    stuckWorld)

namespace World

end World

end GameOfLife

/-! ## Properties -/

/-! ### Integers, bounds and bit positions; the queries on a board with positive rows -/

namespace GameOfLife

theorem wrapInt_of_isInt {x : Int} (h : isInt x) : wrapInt x = x := by
  unfold isInt minInt maxInt at h
  unfold wrapInt
  omega

theorem isInt_of_bounds {x : Int} (h0 : -1 ≤ x) (h1 : x ≤ maxInt) : isInt x := by
  unfold isInt minInt; unfold maxInt at h1 ⊢; omega

theorem BitMap.Length_nonneg (m : BitMap) : 0 ≤ m.Length := by
  unfold BitMap.Length; exact Int.ofNat_nonneg _

namespace Board

theorem cols_nonneg (v : Board) (hpos : 0 < v.rows) : 0 ≤ v.cols :=
  Int.ediv_nonneg v.data.Length_nonneg (le_of_lt hpos)

theorem cols_le_Length (v : Board) : v.cols ≤ v.data.Length :=
  Int.ediv_le_self _ v.data.Length_nonneg

theorem rows_mul_cols_le (v : Board) (hpos : 0 < v.rows) : v.rows * v.cols ≤ v.data.Length := by
  unfold cols; exact Int.mul_ediv_self_le (ne_of_gt hpos)

theorem Columns_eq (v : Board) (hrep : v.representable) (hpos : 0 < v.rows) :
    Columns (some v) = Except.ok v.cols := by
  have hne : v.rows ≠ 0 := ne_of_gt hpos
  have h1 : v.data.Length.tdiv v.rows = v.cols :=
    Int.tdiv_eq_ediv v.data.Length_nonneg (le_of_lt hpos)
  have h2 : isInt v.cols :=
    isInt_of_bounds (by have := v.cols_nonneg hpos; omega) (le_trans v.cols_le_Length hrep.2)
  simp [Columns, goDiv, hne, h1, wrapInt_of_isInt h2]
  rfl

theorem index_bounds {R C r c : Int} (h0 : 0 ≤ r) (h1 : r < R) (h2 : 0 ≤ c) (h3 : c < C) :
    0 ≤ r * C + c ∧ r * C + c < R * C := by
  constructor
  · have : 0 ≤ r * C := Int.mul_nonneg h0 (by omega)
    omega
  · have h4 : (r + 1) * C ≤ R * C := Int.mul_le_mul_of_nonneg_right (by omega) (by omega)
    have h5 : (r + 1) * C = r * C + C := by ring
    omega

theorem position_bounds (v : Board) (p : Point) (hp : v.inBounds p) :
    0 ≤ p.Row * v.cols + p.Column ∧ p.Row * v.cols + p.Column < v.data.Length := by
  obtain ⟨h0, h1, h2, h3⟩ := hp
  have h := index_bounds h0 h1 h2 h3
  have := v.rows_mul_cols_le (by omega)
  omega

theorem isValidPoint_eq (v : Board) (hrep : v.representable) (hpos : 0 < v.rows) (p : Point) :
    isValidPoint (some v) p = Except.ok (decide (v.inBounds p)) := by
  simp only [isValidPoint, inBounds]
  by_cases h : p.Row ≥ 0 ∧ p.Row < v.rows ∧ p.Column ≥ 0
  · rw [if_pos h, Columns_eq v hrep hpos]
    obtain ⟨h0, h1, h2⟩ := h
    simp [bind, Except.bind, pure, Except.pure, h0, h1, h2]
  · rw [if_neg h]
    have : ¬ (0 ≤ p.Row ∧ p.Row < v.rows ∧ 0 ≤ p.Column ∧ p.Column < v.cols) := by
      intro h'; exact h ⟨h'.1, h'.2.1, h'.2.2.1⟩
    simp [pure, Except.pure, this]

theorem pointToBitPosition_eq (v : Board) (hrep : v.representable) (p : Point)
    (hp : v.inBounds p) :
    pointToBitPosition (some v) p = Except.ok (p.Row * v.cols + p.Column) := by
  have hpos : 0 < v.rows := by have := hp.1; have := hp.2.1; omega
  have hb := position_bounds v p hp
  have hL := hrep.2
  have hc := v.cols_nonneg hpos
  have h1 : isInt (p.Row * v.cols) :=
    isInt_of_bounds (by have := Int.mul_nonneg hp.1 hc; omega) (by have := hp.2.2.1; omega)
  have h2 : isInt (p.Row * v.cols + p.Column) := isInt_of_bounds (by omega) (by omega)
  simp [pointToBitPosition, Columns_eq v hrep hpos, bind, Except.bind, pure, Except.pure,
    wrapInt_of_isInt h1, wrapInt_of_isInt h2]

theorem IsAlive_inBounds (v : Board) (hrep : v.representable) (p : Point)
    (hp : v.inBounds p) :
    IsAlive (some v) p = Except.ok (v.cellBit p, none) := by
  have hpos : 0 < v.rows := by have := hp.1; have := hp.2.1; omega
  have hb := position_bounds v p hp
  have hset : v.data.IsSet (p.Row * v.cols + p.Column) = (v.cellBit p, none) := by
    unfold BitMap.IsSet cellBit
    rw [if_neg (by omega)]
  simp [IsAlive, isValidPoint_eq v hrep hpos, hp, pointToBitPosition_eq v hrep p hp,
    bind, Except.bind, pure, Except.pure, hset]

theorem IsAlive_outOfBounds (v : Board) (hrep : v.representable) (hpos : 0 < v.rows)
    (p : Point) (hp : ¬ v.inBounds p) :
    IsAlive (some v) p =
      Except.ok (false, some (Error.invalidPoint ⟨v.rows, v.cols, p, none⟩)) := by
  simp [IsAlive, isValidPoint_eq v hrep hpos, hp, Columns_eq v hrep hpos, Rows,
    bind, Except.bind, pure, Except.pure]

theorem neighboursLoop_eq (v : Board) (hrep : v.representable) (hpos : 0 < v.rows)
    (qs : List Point) :
    neighboursLoop (some v) qs = Except.ok (qs.filter (fun q => decide (v.inBounds q))) := by
  induction qs with
  | nil => rfl
  | cons q rest ih =>
    simp only [neighboursLoop, isValidPoint_eq v hrep hpos, ih, bind, Except.bind, pure,
      Except.pure, List.filter_cons]

theorem countLoop_eq (v : Board) (hrep : v.representable) (qs : List Point)
    (hqs : ∀ q ∈ qs, v.inBounds q) (acc : Int) :
    countLoop (some v) qs acc = Except.ok (acc + (qs.countP v.cellBit : Nat), none) := by
  induction qs generalizing acc with
  | nil => simp [countLoop, pure, Except.pure]
  | cons q rest ih =>
    have hq := hqs q (List.mem_cons_self _ _)
    have hrest : ∀ x ∈ rest, v.inBounds x := fun x hx => hqs x (List.mem_cons_of_mem _ hx)
    simp only [countLoop, IsAlive_inBounds v hrep q hq, bind, Except.bind, ih hrest]
    cases hbit : v.cellBit q
    · simp [List.countP_cons, hbit]
    · simp [List.countP_cons, hbit]; ring

theorem countLivingNeighbours_eq (v : Board) (hrep : v.representable) (hpos : 0 < v.rows)
    (p : Point) :
    countLivingNeighbours (some v) p = Except.ok (liveCount v p, none) := by
  simp only [countLivingNeighbours, neighbours, neighboursLoop_eq v hrep hpos, bind, Except.bind]
  rw [countLoop_eq v hrep _ (fun q hq => by simpa using (List.mem_filter.mp hq).2)]
  simp [liveCount]

theorem IsAliveNextCycle_eq (v : Board) (hrep : v.representable) (p : Point)
    (hp : v.inBounds p) :
    IsAliveNextCycle (some v) p = Except.ok (rule (v.cellBit p) (liveCount v p), none) := by
  have hpos : 0 < v.rows := by have := hp.1; have := hp.2.1; omega
  simp only [IsAliveNextCycle, IsAlive_inBounds v hrep p hp,
    countLivingNeighbours_eq v hrep hpos, bind, Except.bind, pure, Except.pure, rule]

theorem setBit_rows (v : Board) (p : Point) (a : Bool) : (v.setBit p a).rows = v.rows := rfl

theorem setBit_Length (v : Board) (p : Point) (a : Bool) :
    (v.setBit p a).data.Length = v.data.Length := by
  simp [setBit, BitMap.Length]

theorem setBit_cols (v : Board) (p : Point) (a : Bool) : (v.setBit p a).cols = v.cols := by
  simp [cols, setBit_Length, setBit_rows]

theorem setBit_inBounds (v : Board) (p : Point) (a : Bool) (q : Point) :
    (v.setBit p a).inBounds q ↔ v.inBounds q := by
  simp [inBounds, setBit_cols, setBit_rows]

theorem setBit_representable (v : Board) (p : Point) (a : Bool) :
    (v.setBit p a).representable ↔ v.representable := by
  simp [representable, setBit_Length, setBit_rows]

theorem index_injective {C r c r' c' : Int} (h2 : 0 ≤ c) (h3 : c < C) (h2' : 0 ≤ c')
    (h3' : c' < C) (h : r * C + c = r' * C + c') : r = r' ∧ c = c' := by
  have hC : C ≠ 0 := by omega
  have e1 : (c + r * C) / C = r := by
    rw [Int.add_mul_ediv_right _ _ hC, Int.ediv_eq_zero_of_lt h2 h3]; simp
  have e2 : (c' + r' * C) / C = r' := by
    rw [Int.add_mul_ediv_right _ _ hC, Int.ediv_eq_zero_of_lt h2' h3']; simp
  have h' : c + r * C = c' + r' * C := by omega
  rw [h'] at e1
  have hr : r = r' := by rw [← e1, e2]
  subst hr
  exact ⟨rfl, by omega⟩

theorem cellBit_setBit (v : Board) (p q : Point) (a : Bool) (hp : v.inBounds p)
    (hq : v.inBounds q) :
    (v.setBit p a).cellBit q = if q = p then a else v.cellBit q := by
  have hbp := position_bounds v p hp
  have hbq := position_bounds v q hq
  have hlen : (p.Row * v.cols + p.Column).toNat < v.data.bits.length := by
    have := hbp.2; unfold BitMap.Length at this; omega
  unfold cellBit
  rw [setBit_cols]
  simp only [setBit, List.getD_eq_getElem?_getD, List.getElem?_set]
  by_cases hqp : q = p
  · subst hqp
    simp [hlen]
  · have hne : (p.Row * v.cols + p.Column).toNat ≠ (q.Row * v.cols + q.Column).toNat := by
      intro h
      have h' : q.Row * v.cols + q.Column = p.Row * v.cols + p.Column := by omega
      have := index_injective hq.2.2.1 hq.2.2.2 hp.2.2.1 hp.2.2.2 h'
      apply hqp
      cases q; cases p; simp_all
    simp [hne, hqp]

theorem Set_inBounds (v : Board) (hrep : v.representable) (p : Point) (a : Bool)
    (hp : v.inBounds p) :
    Set (some v) p a = Except.ok (v.setBit p a, none) := by
  have hb := position_bounds v p hp
  have hset : v.data.SetVal (p.Row * v.cols + p.Column) a =
      (⟨v.data.bits.set (p.Row * v.cols + p.Column).toNat a⟩, none) := by
    unfold BitMap.SetVal
    rw [if_neg (by omega)]
  simp [Set, pointToBitPosition_eq v hrep p hp, bind, Except.bind, pure, Except.pure, hset,
    setBit]

theorem mem_forRange (n x : Int) : x ∈ forRange n ↔ 0 ≤ x ∧ x < n := by
  unfold forRange
  simp only [List.mem_map, List.mem_range]
  constructor
  · rintro ⟨k, hk, rfl⟩
    have : ((k : Nat) : Int) = Int.ofNat k := rfl
    omega
  · rintro ⟨h0, h1⟩
    exact ⟨x.toNat, by omega, by simp [Int.toNat_of_nonneg h0]⟩

theorem sameShape_cols (nb v : Board) (hpos : 0 < v.rows) (h : sameShape nb v) :
    nb.cols = v.cols := by
  unfold cols
  rw [h.1, h.2, Int.mul_ediv_cancel_left _ (ne_of_gt hpos)]
  rfl

theorem sameShape_inBounds (nb v : Board) (hpos : 0 < v.rows) (h : sameShape nb v)
    (q : Point) : nb.inBounds q ↔ v.inBounds q := by
  simp [inBounds, sameShape_cols nb v hpos h, h.1]

theorem sameShape_representable (nb v : Board) (hrep : v.representable) (hpos : 0 < v.rows)
    (h : sameShape nb v) : nb.representable := by
  refine ⟨by rw [h.1]; exact hrep.1, ?_⟩
  rw [h.2]
  exact le_trans (v.rows_mul_cols_le hpos) hrep.2

theorem sameShape_setBit (nb v : Board) (p : Point) (a : Bool) (h : sameShape nb v) :
    sameShape (nb.setBit p a) v := by
  simp [sameShape, setBit_rows, setBit_Length, h.1, h.2]

theorem nextBoardCell_eq (v nb : Board) (hrep : v.representable) (h : sameShape nb v)
    (p : Point) (hp : v.inBounds p) :
    nextBoardCell (some v) nb p =
      Except.ok (Except.ok (if v.nextBit p then nb.setBit p true else nb)) := by
  have hpos : 0 < v.rows := by have := hp.1; have := hp.2.1; omega
  have hnrep := sameShape_representable nb v hrep hpos h
  have hnp : nb.inBounds p := (sameShape_inBounds nb v hpos h p).mpr hp
  simp only [nextBoardCell, IsAliveNextCycle_eq v hrep p hp, bind, Except.bind, pure,
    Except.pure]
  cases hnext : v.nextBit p
  · unfold nextBit at hnext; simp [hnext]
  · unfold nextBit at hnext
    simp [hnext, Set_inBounds nb hnrep p true hnp, bind, Except.bind, pure, Except.pure]

theorem nextBoardColumns_eq (v : Board) (hrep : v.representable) (row : Int)
    (cs : List Int) (hcs : ∀ c ∈ cs, v.inBounds ⟨row, c⟩) (nb : Board)
    (h : sameShape nb v) :
    ∃ nb', nextBoardColumns (some v) row cs nb = Except.ok (Except.ok nb') ∧
      sameShape nb' v ∧
      ∀ q, v.inBounds q → (nb'.cellBit q = true ↔
        nb.cellBit q = true ∨ ((q.Row = row ∧ q.Column ∈ cs) ∧ v.nextBit q = true)) := by
  induction cs generalizing nb with
  | nil => exact ⟨nb, rfl, h, by simp⟩
  | cons c rest ih =>
    have hc := hcs c (List.mem_cons_self _ _)
    have hpos : 0 < v.rows := by have := hc.1; have := hc.2.1; omega
    have hrest : ∀ x ∈ rest, v.inBounds ⟨row, x⟩ :=
      fun x hx => hcs x (List.mem_cons_of_mem _ hx)
    have hshape :
        sameShape (if v.nextBit ⟨row, c⟩ then nb.setBit ⟨row, c⟩ true else nb) v := by
      split
      · exact sameShape_setBit nb v _ _ h
      · exact h
    obtain ⟨nb', hrun, hsh, hbits⟩ := ih hrest _ hshape
    refine ⟨nb', ?_, hsh, ?_⟩
    · simp only [nextBoardColumns, nextBoardCell_eq v nb hrep h _ hc, bind, Except.bind]
      exact hrun
    · intro q hq
      rw [hbits q hq]
      have hnq : nb.inBounds q := (sameShape_inBounds nb v hpos h q).mpr hq
      have hnc : nb.inBounds ⟨row, c⟩ := (sameShape_inBounds nb v hpos h _).mpr hc
      by_cases hn : v.nextBit ⟨row, c⟩ = true
      · rw [if_pos hn, cellBit_setBit nb _ q true hnc hnq]
        by_cases hqc : q = ⟨row, c⟩
        · subst hqc; simp [hn]
        · have : ¬ (q.Row = row ∧ q.Column = c) := by
            intro hh; apply hqc; cases q; simp_all
          simp only [if_neg hqc, List.mem_cons]
          constructor
          · rintro (h1 | ⟨⟨h2, h3⟩, h4⟩)
            · exact Or.inl h1
            · exact Or.inr ⟨⟨h2, Or.inr h3⟩, h4⟩
          · rintro (h1 | ⟨⟨h2, h3 | h3⟩, h4⟩)
            · exact Or.inl h1
            · exact absurd ⟨h2, h3⟩ this
            · exact Or.inr ⟨⟨h2, h3⟩, h4⟩
      · rw [if_neg hn]
        simp only [List.mem_cons]
        constructor
        · rintro (h1 | ⟨⟨h2, h3⟩, h4⟩)
          · exact Or.inl h1
          · exact Or.inr ⟨⟨h2, Or.inr h3⟩, h4⟩
        · rintro (h1 | ⟨⟨h2, h3 | h3⟩, h4⟩)
          · exact Or.inl h1
          · exfalso; apply hn
            have : q = ⟨row, c⟩ := by cases q; simp_all
            rw [← this]; exact h4
          · exact Or.inr ⟨⟨h2, h3⟩, h4⟩

theorem nextBoardRows_eq (v : Board) (hrep : v.representable) (hpos : 0 < v.rows)
    (rs : List Int) (hrs : ∀ r ∈ rs, 0 ≤ r ∧ r < v.rows) (nb : Board) (h : sameShape nb v) :
    ∃ nb', nextBoardRows (some v) rs nb = Except.ok (Except.ok nb') ∧
      sameShape nb' v ∧
      ∀ q, v.inBounds q → (nb'.cellBit q = true ↔
        nb.cellBit q = true ∨ (q.Row ∈ rs ∧ v.nextBit q = true)) := by
  induction rs generalizing nb with
  | nil => exact ⟨nb, rfl, h, by simp⟩
  | cons r rest ih =>
    have hr := hrs r (List.mem_cons_self _ _)
    have hrest : ∀ x ∈ rest, 0 ≤ x ∧ x < v.rows :=
      fun x hx => hrs x (List.mem_cons_of_mem _ hx)
    have hcs : ∀ c ∈ forRange v.cols, v.inBounds ⟨r, c⟩ := by
      intro c hc
      have := (mem_forRange _ _).mp hc
      exact ⟨hr.1, hr.2, this.1, this.2⟩
    obtain ⟨nb1, hrun1, hsh1, hbits1⟩ := nextBoardColumns_eq v hrep r _ hcs nb h
    obtain ⟨nb', hrun, hsh, hbits⟩ := ih hrest nb1 hsh1
    refine ⟨nb', ?_, hsh, ?_⟩
    · simp only [nextBoardRows, Columns_eq v hrep hpos, hrun1, bind, Except.bind]
      exact hrun
    · intro q hq
      rw [hbits q hq, hbits1 q hq]
      have hqc : q.Column ∈ forRange v.cols := (mem_forRange _ _).mpr ⟨hq.2.2.1, hq.2.2.2⟩
      simp only [List.mem_cons]
      constructor
      · rintro ((h1 | ⟨⟨h2, _⟩, h4⟩) | ⟨h5, h6⟩)
        · exact Or.inl h1
        · exact Or.inr ⟨Or.inl h2, h4⟩
        · exact Or.inr ⟨Or.inr h5, h6⟩
      · rintro (h1 | ⟨h2 | h2, h4⟩)
        · exact Or.inl (Or.inl h1)
        · exact Or.inl (Or.inr ⟨⟨h2, hqc⟩, h4⟩)
        · exact Or.inr ⟨h2, h4⟩

theorem New_rows_cols (v : Board) (hrep : v.representable) (hpos : 0 < v.rows) :
    New v.rows v.cols = (some v.blank, none) := by
  have h0 : 0 ≤ v.rows * v.cols := Int.mul_nonneg (le_of_lt hpos) (v.cols_nonneg hpos)
  have h1 : isInt (v.rows * v.cols) :=
    isInt_of_bounds (by omega) (le_trans (v.rows_mul_cols_le hpos) hrep.2)
  simp [New, BitMap.New, wrapInt_of_isInt h1, not_lt.mpr h0, blank]

theorem blank_sameShape (v : Board) (hpos : 0 < v.rows) : sameShape v.blank v := by
  have h0 : 0 ≤ v.rows * v.cols := Int.mul_nonneg (le_of_lt hpos) (v.cols_nonneg hpos)
  refine ⟨rfl, ?_⟩
  simp [blank, BitMap.Length, Int.toNat_of_nonneg h0]

theorem blank_cellBit (v : Board) (q : Point) : v.blank.cellBit q = false := by
  simp only [cellBit, blank, List.getD_eq_getElem?_getD, List.getElem?_replicate]
  split <;> rfl

/-- `NextBoard` on a board with a positive row count: it returns, without
error, a board of the same shape whose stored bits follow the transition rule. -/
theorem NextBoard_eq (v : Board) (hrep : v.representable) (hpos : 0 < v.rows) :
    ∃ nb, NextBoard (some v) = Except.ok (some nb, none) ∧ sameShape nb v ∧
      ∀ q, v.inBounds q → nb.cellBit q = v.nextBit q := by
  have hrs : ∀ r ∈ forRange v.rows, 0 ≤ r ∧ r < v.rows :=
    fun r hr => (mem_forRange _ _).mp hr
  obtain ⟨nb, hrun, hsh, hbits⟩ :=
    nextBoardRows_eq v hrep hpos _ hrs v.blank (blank_sameShape v hpos)
  refine ⟨nb, ?_, hsh, ?_⟩
  · simp only [NextBoard, Columns_eq v hrep hpos, Rows, New_rows_cols v hrep hpos, hrun, bind,
      Except.bind, pure, Except.pure]
  · intro q hq
    have h := hbits q hq
    rw [blank_cellBit] at h
    have hqr : q.Row ∈ forRange v.rows := (mem_forRange _ _).mpr ⟨hq.1, hq.2.1⟩
    cases hn : v.nextBit q
    · cases hc : nb.cellBit q
      · rfl
      · have := h.mp hc; simp [hn] at this
    · exact h.mpr (Or.inr ⟨hqr, hn⟩)

/-! ### Shape of the boards built by `New` and `Set` -/

theorem Set_shape (v : Board) (hrep : v.representable) (hpos : 0 < v.rows) (p : Point)
    (a : Bool) :
    ∃ v' e, Set (some v) p a = Except.ok (v', e) ∧ v'.rows = v.rows ∧
      v'.data.Length = v.data.Length := by
  simp only [Set, pointToBitPosition, Columns_eq v hrep hpos, bind, Except.bind, pure,
    Except.pure, BitMap.SetVal]
  by_cases h : wrapInt (wrapInt (p.Row * v.cols) + p.Column) < 0 ∨
      v.data.Length ≤ wrapInt (wrapInt (p.Row * v.cols) + p.Column)
  · rw [if_pos h]
    exact ⟨_, _, rfl, rfl, rfl⟩
  · rw [if_neg h]
    exact ⟨_, _, rfl, rfl, by simp [BitMap.Length]⟩

theorem setMany_shape (sets : List (Point × Bool)) (v : Board) (hrep : v.representable)
    (hpos : 0 < v.rows) (b : Board) (hb : setMany v sets = Except.ok b) :
    b.representable ∧ b.rows = v.rows ∧ b.data.Length = v.data.Length := by
  induction sets generalizing v with
  | nil =>
    simp only [setMany, pure, Except.pure, Except.ok.injEq] at hb
    subst hb; exact ⟨hrep, rfl, rfl⟩
  | cons s rest ih =>
    obtain ⟨p, a⟩ := s
    obtain ⟨v', e, hset, hrows, hlen⟩ := Set_shape v hrep hpos p a
    simp only [setMany, hset, bind, Except.bind] at hb
    have hrep' : v'.representable := ⟨by rw [hrows]; exact hrep.1, by rw [hlen]; exact hrep.2⟩
    obtain ⟨h1, h2, h3⟩ := ih v' hrep' (by rw [hrows]; exact hpos) hb
    exact ⟨h1, by rw [h2, hrows], by rw [h3, hlen]⟩

theorem wrapInt_le_maxInt (x : Int) : wrapInt x ≤ maxInt := by
  unfold wrapInt maxInt; omega

theorem New_shape (r c : Int) (hr : isInt r) (b : Board) (hnew : New r c = (some b, none)) :
    b.representable ∧ b.rows = r ∧ b.data.Length = wrapInt (r * c) := by
  unfold New BitMap.New at hnew
  by_cases hlt : wrapInt (r * c) < 0
  · rw [if_pos hlt] at hnew
    simp at hnew
  · rw [if_neg hlt] at hnew
    simp only [Prod.mk.injEq, Option.some.injEq, and_true] at hnew
    subst hnew
    have hL : (BitMap.mk (List.replicate (wrapInt (r * c)).toNat false)).Length
        = wrapInt (r * c) := by
      simp only [BitMap.Length, List.length_replicate]
      omega
    exact ⟨⟨hr, by rw [hL]; exact wrapInt_le_maxInt _⟩, rfl, hL⟩

/-! ### The transition rule and the next generation (C1, C2) -/

theorem Neighbours_eq_mooreNeighbourhood (p : Point) (hr0 : -1 < p.Row) (hr1 : p.Row < maxInt)
    (hc0 : -1 < p.Column) (hc1 : p.Column < maxInt) :
    p.Neighbours = mooreNeighbourhood p := by
  have e1 : wrapInt (p.Row - 1) = p.Row - 1 :=
    wrapInt_of_isInt (isInt_of_bounds (by omega) (by omega))
  have e2 : wrapInt (p.Row + 1) = p.Row + 1 :=
    wrapInt_of_isInt (isInt_of_bounds (by omega) (by omega))
  have e3 : wrapInt (p.Column - 1) = p.Column - 1 :=
    wrapInt_of_isInt (isInt_of_bounds (by omega) (by omega))
  have e4 : wrapInt (p.Column + 1) = p.Column + 1 :=
    wrapInt_of_isInt (isInt_of_bounds (by omega) (by omega))
  obtain ⟨r, c⟩ := p
  simp only at e1 e2 e3 e4
  simp [Point.Neighbours, mooreNeighbourhood, e1, e2, e3, e4, List.filter]

theorem inBounds_lt_maxInt (v : Board) (hrep : v.representable) (p : Point)
    (hp : v.inBounds p) : p.Row < maxInt ∧ p.Column < maxInt := by
  have hpos : 0 < v.rows := by have := hp.1; have := hp.2.1; omega
  have h1 := hrep.1.2
  have h2 := le_trans v.cols_le_Length hrep.2
  have := hp.2.1
  have := hp.2.2.2
  omega

theorem liveCount_eq_mooreLiveCount (v : Board) (hrep : v.representable) (p : Point)
    (hp : v.inBounds p) : liveCount v p = mooreLiveCount (some v) p := by
  have hpos : 0 < v.rows := by have := hp.1; have := hp.2.1; omega
  have hlt := inBounds_lt_maxInt v hrep p hp
  have hN := Neighbours_eq_mooreNeighbourhood p (by have := hp.1; omega) hlt.1
    (by have := hp.2.2.1; omega) hlt.2
  unfold liveCount mooreLiveCount
  rw [hN, List.countP_filter]
  congr 1
  apply List.countP_congr
  intro q _
  by_cases hq : v.inBounds q
  · simp [isValidPoint_eq v hrep hpos, IsAlive_inBounds v hrep q hq, hq]
  · simp [isValidPoint_eq v hrep hpos, hq]

/-- C1: for a board built by `New(r, c)` with `r > 0`, `c > 0` and then any
`Set` calls, `NextBoard` returns without error a board with the same `Rows()`
and `Columns()` on which `IsAlive(p)` equals the receiver's
`IsAliveNextCycle(p)` at every in-bounds point `p`. -/
theorem NextBoard_agrees_with_IsAliveNextCycle (r c : Int) (hr : 0 < r) (_hc : 0 < c)
    (hri : isInt r) (b0 : Board) (hnew : New r c = (some b0, none))
    (sets : List (Point × Bool)) (b : Board) (hb : setMany b0 sets = Except.ok b) :
    ∃ nb k, NextBoard (some b) = Except.ok (some nb, none) ∧
      Rows (some nb) = Rows (some b) ∧
      Columns (some nb) = Except.ok k ∧ Columns (some b) = Except.ok k ∧
      ∀ p, isValidPoint (some b) p = Except.ok true →
        ∃ a, IsAlive (some nb) p = Except.ok (a, none) ∧
          IsAliveNextCycle (some b) p = Except.ok (a, none) := by
  obtain ⟨hrep0, hrows0, _⟩ := New_shape r c hri b0 hnew
  obtain ⟨hrep, hrows, _⟩ := setMany_shape sets b0 hrep0 (by rw [hrows0]; exact hr) b hb
  have hpos : 0 < b.rows := by rw [hrows, hrows0]; exact hr
  obtain ⟨nb, hrun, hsh, hbits⟩ := NextBoard_eq b hrep hpos
  have hnrep := sameShape_representable nb b hrep hpos hsh
  have hnpos : 0 < nb.rows := by rw [hsh.1]; exact hpos
  refine ⟨nb, b.cols, hrun, hsh.1, ?_, Columns_eq b hrep hpos, ?_⟩
  · rw [Columns_eq nb hnrep hnpos, sameShape_cols nb b hpos hsh]
  · intro p hp
    rw [isValidPoint_eq b hrep hpos] at hp
    have hp' : b.inBounds p := by simpa using hp
    have hnp : nb.inBounds p := (sameShape_inBounds nb b hpos hsh p).mpr hp'
    exact ⟨b.nextBit p, by rw [IsAlive_inBounds nb hnrep p hnp, hbits p hp'],
      IsAliveNextCycle_eq b hrep p hp'⟩

/-- C2: at an in-bounds point, `IsAliveNextCycle` returns `true` exactly when
the cell is alive with 2 or 3 live in-board Moore neighbours, or dead with
exactly 3; so a dead cell with 3 becomes alive and one with 2 or 4 stays dead. -/
theorem IsAliveNextCycle_follows_rules (v : Board) (hrep : v.representable) (p : Point)
    (hp : isValidPoint (some v) p = Except.ok true) :
    ∃ alive next, IsAlive (some v) p = Except.ok (alive, none) ∧
      IsAliveNextCycle (some v) p = Except.ok (next, none) ∧
      (next = true ↔
        (alive = true ∧ (mooreLiveCount (some v) p = 2 ∨ mooreLiveCount (some v) p = 3)) ∨
        (alive = false ∧ mooreLiveCount (some v) p = 3)) ∧
      (alive = false → mooreLiveCount (some v) p = 3 → next = true) ∧
      (alive = false → mooreLiveCount (some v) p = 2 ∨ mooreLiveCount (some v) p = 4 →
        next = false) := by
  have hpos : 0 < v.rows := by
    by_contra hneg
    have : ¬ (p.Row ≥ 0 ∧ p.Row < v.rows ∧ p.Column ≥ 0) := by omega
    simp [isValidPoint, this, pure, Except.pure] at hp
  rw [isValidPoint_eq v hrep hpos] at hp
  have hp' : v.inBounds p := by simpa using hp
  refine ⟨v.cellBit p, rule (v.cellBit p) (mooreLiveCount (some v) p),
    IsAlive_inBounds v hrep p hp', ?_, ?_, ?_, ?_⟩
  · rw [IsAliveNextCycle_eq v hrep p hp', liveCount_eq_mooreLiveCount v hrep p hp']
  · cases v.cellBit p <;> simp [rule]
  · intro ha hn; simp [rule, ha, hn]
  · intro ha hn
    rcases hn with hn | hn <;> simp [rule, ha, hn]

/-! ### The blinker of the package test (C3) -/

/-- C1 at the board of the package test: `New(3, 3)` and three `Set` calls. -/
theorem NextBoard_agrees_with_IsAliveNextCycle_witness :
    (0 : Int) < 3 ∧ isInt 3 ∧
    New 3 3 = (some deadBoard, none) ∧
    setMany deadBoard [(⟨0, 1⟩, true), (⟨1, 1⟩, true), (⟨2, 1⟩, true)] =
      Except.ok blinkerBoard ∧
    ∃ nb k, NextBoard (some blinkerBoard) = Except.ok (some nb, none) ∧
      Rows (some nb) = Rows (some blinkerBoard) ∧
      Columns (some nb) = Except.ok k ∧ Columns (some blinkerBoard) = Except.ok k ∧
      ∀ p, isValidPoint (some blinkerBoard) p = Except.ok true →
        ∃ a, IsAlive (some nb) p = Except.ok (a, none) ∧
          IsAliveNextCycle (some blinkerBoard) p = Except.ok (a, none) :=
  ⟨by decide, by decide, by decide, by decide,
    NextBoard_agrees_with_IsAliveNextCycle 3 3 (by decide) (by decide) (by decide)
      deadBoard (by decide)
      [(⟨0, 1⟩, true), (⟨1, 1⟩, true), (⟨2, 1⟩, true)] blinkerBoard (by decide)⟩

/-- C2 at the dead cell (1,0) of the test board, which has three live neighbours. -/
theorem IsAliveNextCycle_follows_rules_witness :
    blinkerBoard.representable ∧
    isValidPoint (some blinkerBoard) ⟨1, 0⟩ = Except.ok true ∧
    mooreLiveCount (some blinkerBoard) ⟨1, 0⟩ = 3 ∧
    ∃ alive next, IsAlive (some blinkerBoard) ⟨1, 0⟩ = Except.ok (alive, none) ∧
      IsAliveNextCycle (some blinkerBoard) ⟨1, 0⟩ = Except.ok (next, none) ∧
      (next = true ↔
        (alive = true ∧ (mooreLiveCount (some blinkerBoard) ⟨1, 0⟩ = 2 ∨
          mooreLiveCount (some blinkerBoard) ⟨1, 0⟩ = 3)) ∨
        (alive = false ∧ mooreLiveCount (some blinkerBoard) ⟨1, 0⟩ = 3)) ∧
      (alive = false → mooreLiveCount (some blinkerBoard) ⟨1, 0⟩ = 3 → next = true) ∧
      (alive = false → mooreLiveCount (some blinkerBoard) ⟨1, 0⟩ = 2 ∨
        mooreLiveCount (some blinkerBoard) ⟨1, 0⟩ = 4 → next = false) :=
  ⟨by decide, by decide, by decide,
    IsAliveNextCycle_follows_rules blinkerBoard (by decide) ⟨1, 0⟩ (by decide)⟩

theorem inBounds_three (v : Board) (hrows : v.rows = 3) (hcols : v.cols = 3) (p : Point)
    (hp : v.inBounds p) :
    p ∈ [(⟨0, 0⟩ : Point), ⟨0, 1⟩, ⟨0, 2⟩, ⟨1, 0⟩, ⟨1, 1⟩, ⟨1, 2⟩, ⟨2, 0⟩, ⟨2, 1⟩,
      ⟨2, 2⟩] := by
  obtain ⟨r, c⟩ := p
  obtain ⟨h0, h1, h2, h3⟩ := hp
  simp only [hrows, hcols] at h0 h1 h2 h3
  interval_cases r <;> interval_cases c <;> decide

theorem liveCells_three (v : Board) (hrep : v.representable) (hrows : v.rows = 3)
    (hcols : v.cols = 3) (cells : List Point)
    (hcells : ∀ q ∈ [(⟨0, 0⟩ : Point), ⟨0, 1⟩, ⟨0, 2⟩, ⟨1, 0⟩, ⟨1, 1⟩, ⟨1, 2⟩, ⟨2, 0⟩,
      ⟨2, 1⟩, ⟨2, 2⟩], IsAlive (some v) q = Except.ok (decide (q ∈ cells), none)) (p : Point) :
    (v.inBounds p → IsAlive (some v) p = Except.ok (decide (p ∈ cells), none)) ∧
    (¬ v.inBounds p → ∃ e, IsAlive (some v) p = Except.ok (false, some e)) := by
  have hpos : 0 < v.rows := by omega
  exact ⟨fun hp => hcells p (inBounds_three v hrows hcols p hp),
    fun hp => ⟨_, IsAlive_outOfBounds v hrep hpos p hp⟩⟩

/-- C3: on the 3×3 board whose live cells are the column (0,1), (1,1), (2,1),
`NextBoard` returns without error a 3×3 board whose live cells are exactly the
row (1,0), (1,1), (1,2), every other cell being dead. -/
theorem NextBoard_blinker :
    blinkerColumn = Except.ok blinkerBoard ∧
    (∀ p, isValidPoint (some blinkerBoard) p = Except.ok true →
      IsAlive (some blinkerBoard) p =
        Except.ok (decide (p ∈ [(⟨0, 1⟩ : Point), ⟨1, 1⟩, ⟨2, 1⟩]), none)) ∧
    ∃ nb, NextBoard (some blinkerBoard) = Except.ok (some nb, none) ∧
      Rows (some nb) = 3 ∧ Columns (some nb) = Except.ok 3 ∧
      (∀ p, isValidPoint (some nb) p = Except.ok true →
        IsAlive (some nb) p =
          Except.ok (decide (p ∈ [(⟨1, 0⟩ : Point), ⟨1, 1⟩, ⟨1, 2⟩]), none)) ∧
      (∀ p, IsAlive (some nb) p = Except.ok (true, none) ↔
        p ∈ [(⟨1, 0⟩ : Point), ⟨1, 1⟩, ⟨1, 2⟩]) := by
  have hrep1 : blinkerBoard.representable := by decide
  have hrep2 : blinkerRow.representable := by decide
  have key1 := liveCells_three blinkerBoard hrep1 rfl (by decide)
    [(⟨0, 1⟩ : Point), ⟨1, 1⟩, ⟨2, 1⟩] (by decide)
  have key2 := liveCells_three blinkerRow hrep2 rfl (by decide)
    [(⟨1, 0⟩ : Point), ⟨1, 1⟩, ⟨1, 2⟩] (by decide)
  refine ⟨by decide, ?_, blinkerRow, by decide, rfl, by decide, ?_, ?_⟩
  · intro p hp
    rw [isValidPoint_eq _ hrep1 (by decide)] at hp
    exact (key1 p).1 (by simpa using hp)
  · intro p hp
    rw [isValidPoint_eq _ hrep2 (by decide)] at hp
    exact (key2 p).1 (by simpa using hp)
  · intro p
    by_cases hp : blinkerRow.inBounds p
    · rw [(key2 p).1 hp]
      simp
    · obtain ⟨e, he⟩ := (key2 p).2 hp
      rw [he]
      constructor
      · intro h; simp at h
      · intro h
        exfalso; apply hp
        revert h; simp only [List.mem_cons, List.mem_singleton, List.not_mem_nil, or_false]
        rintro (rfl | rfl | rfl) <;> decide

/-! ### `IsAlive` and `Set` at the bounds (C4, C5, C6) -/

/-- C4 (failing input): `NewFromData` accepts `rows = 0` with any storage, and
on the board it returns `IsAlive` panics with an integer division by zero at
every point, where the specification promises an `InvalidPointError` and no
panic. -/
theorem IsAlive_panics_on_zero_rows (data : BitMap) (p : Point) :
    NewFromData 0 data = (some ⟨data, 0⟩, none) ∧
    IsAlive (some ⟨data, 0⟩) p = Except.error Panic.divideByZero := by
  constructor
  · have h : ¬ data.Length < 0 := not_lt.mpr data.Length_nonneg
    simp [NewFromData, h]
  · have h : ¬ (p.Row ≥ 0 ∧ p.Row < 0 ∧ p.Column ≥ 0) := by omega
    simp [IsAlive, isValidPoint, h, Columns, goDiv, bind, Except.bind, pure, Except.pure,
      throw, throwThe, MonadExceptOf.throw]

/-- On a board with a non-zero row count, `IsAlive` at a point outside
`[0, Rows()) × [0, Columns())` returns an `InvalidPointError` carrying the
point and the dimensions, and does not panic. -/
theorem IsAlive_rejects_point_outside_bounds (v : Board) (hne : v.rows ≠ 0) (p : Point) :
    ∃ k, Columns (some v) = Except.ok k ∧
      (p.Row < 0 ∨ Rows (some v) ≤ p.Row ∨ p.Column < 0 ∨ k ≤ p.Column →
        IsAlive (some v) p =
          Except.ok (false, some (Error.invalidPoint ⟨Rows (some v), k, p, none⟩))) := by
  refine ⟨wrapInt (v.data.Length.tdiv v.rows), by simp [Columns, goDiv, hne]; rfl, ?_⟩
  intro hout
  have hcol : Columns (some v) = Except.ok (wrapInt (v.data.Length.tdiv v.rows)) := by
    simp [Columns, goDiv, hne]; rfl
  simp only [Rows] at hout
  by_cases h : p.Row ≥ 0 ∧ p.Row < v.rows ∧ p.Column ≥ 0
  · have hc : ¬ p.Column < wrapInt (v.data.Length.tdiv v.rows) := by omega
    simp [IsAlive, isValidPoint, h, hcol, hc, Rows, bind, Except.bind, pure, Except.pure]
  · simp [IsAlive, isValidPoint, h, hcol, Rows, bind, Except.bind, pure, Except.pure]

/-- C5: on a board built by `New(r, c)` with `r > 0` and `c > 0`, also after
any further `Set` calls have written it, `Set(p, a)` at an in-bounds point
succeeds; afterwards `IsAlive(p)` returns `a`, and at every other in-bounds
point `q` `IsAlive(q)` returns the value it returned before, alive or dead;
the stored bits are the old ones with the bit at `p.Row*Columns()+p.Column`
written. -/
theorem Set_writes_exactly_one_cell (r c : Int) (hr : 0 < r) (_hc : 0 < c) (hri : isInt r)
    (b0 : Board) (hnew : New r c = (some b0, none))
    (sets : List (Point × Bool)) (b : Board) (hb : setMany b0 sets = Except.ok b)
    (p : Point) (a : Bool) (hp : isValidPoint (some b) p = Except.ok true) :
    ∃ b', Set (some b) p a = Except.ok (b', none) ∧
      IsAlive (some b') p = Except.ok (a, none) ∧
      (∀ q, q ≠ p → isValidPoint (some b) q = Except.ok true →
        ∃ alive, IsAlive (some b) q = Except.ok (alive, none) ∧
          IsAlive (some b') q = Except.ok (alive, none)) ∧
      b'.rows = b.rows ∧
      ∃ k, Columns (some b) = Except.ok k ∧
        b'.data.bits = b.data.bits.set (p.Row * k + p.Column).toNat a := by
  obtain ⟨hrep0, hrows0, _⟩ := New_shape r c hri b0 hnew
  obtain ⟨hrep, hrows, _⟩ := setMany_shape sets b0 hrep0 (by rw [hrows0]; exact hr) b hb
  have hpos : 0 < b.rows := by rw [hrows, hrows0]; exact hr
  rw [isValidPoint_eq b hrep hpos] at hp
  have hp' : b.inBounds p := by simpa using hp
  have hrep' := (setBit_representable b p a).mpr hrep
  have hp'' := (setBit_inBounds b p a p).mpr hp'
  refine ⟨b.setBit p a, Set_inBounds b hrep p a hp', ?_, ?_, rfl, b.cols,
    Columns_eq b hrep hpos, rfl⟩
  · rw [IsAlive_inBounds _ hrep' p hp'', cellBit_setBit b p p a hp' hp']
    simp
  · intro q hqp hq
    rw [isValidPoint_eq b hrep hpos] at hq
    have hq' : b.inBounds q := by simpa using hq
    have hq'' := (setBit_inBounds b p a q).mpr hq'
    refine ⟨b.cellBit q, IsAlive_inBounds b hrep q hq', ?_⟩
    rw [IsAlive_inBounds _ hrep' q hq'', cellBit_setBit b p q a hp' hq', if_neg hqp]

/-- C5 on the board of the package test, whose middle column is alive:
clearing the cell (1,1) leaves (0,1) and (2,1) alive and the rest dead. -/
theorem Set_writes_exactly_one_cell_witness :
    (0 : Int) < 3 ∧ isInt 3 ∧
    New 3 3 = (some deadBoard, none) ∧
    setMany deadBoard [(⟨0, 1⟩, true), (⟨1, 1⟩, true), (⟨2, 1⟩, true)] =
      Except.ok blinkerBoard ∧
    isValidPoint (some blinkerBoard) ⟨1, 1⟩ = Except.ok true ∧
    IsAlive (some blinkerBoard) ⟨0, 1⟩ = Except.ok (true, none) ∧
    IsAlive (some blinkerBoard) ⟨1, 1⟩ = Except.ok (true, none) ∧
    ∃ b', Set (some blinkerBoard) ⟨1, 1⟩ false = Except.ok (b', none) ∧
      IsAlive (some b') ⟨1, 1⟩ = Except.ok (false, none) ∧
      (∀ q, q ≠ ⟨1, 1⟩ → isValidPoint (some blinkerBoard) q = Except.ok true →
        ∃ alive, IsAlive (some blinkerBoard) q = Except.ok (alive, none) ∧
          IsAlive (some b') q = Except.ok (alive, none)) ∧
      b'.rows = blinkerBoard.rows ∧
      ∃ k, Columns (some blinkerBoard) = Except.ok k ∧
        b'.data.bits = blinkerBoard.data.bits.set ((1 : Int) * k + 1).toNat false :=
  ⟨by decide, by decide, by decide, by decide, by decide, by decide, by decide,
    Set_writes_exactly_one_cell 3 3 (by decide) (by decide) (by decide)
      deadBoard (by decide)
      [(⟨0, 1⟩, true), (⟨1, 1⟩, true), (⟨2, 1⟩, true)] blinkerBoard (by decide)
      ⟨1, 1⟩ false (by decide)⟩

/-- Where `pointToBitPosition` returns a position `pos` for `p`, `Set(p, alive)`
fails with an `InvalidPointError` exactly when `pos` is outside
`[0, bit-length)`; with the position in range it writes that bit and returns
no error, whatever the row and column of `p`. -/
theorem Set_fails_iff_position_outside_storage (v : Board) (p : Point) (a : Bool) (pos : Int)
    (hpos : pointToBitPosition (some v) p = Except.ok pos) :
    ((∃ v' e, Set (some v) p a = Except.ok (v', some (Error.invalidPoint e))) ↔
      (pos < 0 ∨ v.data.Length ≤ pos)) ∧
    ((∃ v', Set (some v) p a = Except.ok (v', none)) ↔ (0 ≤ pos ∧ pos < v.data.Length)) ∧
    (0 ≤ pos ∧ pos < v.data.Length →
      Set (some v) p a = Except.ok (⟨⟨v.data.bits.set pos.toNat a⟩, v.rows⟩, none)) := by
  by_cases h : pos < 0 ∨ v.data.Length ≤ pos
  · have hset : Set (some v) p a =
        Except.ok (v, some (Error.invalidPoint ⟨v.rows, 0, ⟨0, 0⟩, none⟩)) := by
      simp [Set, hpos, bind, Except.bind, pure, Except.pure, BitMap.SetVal, h]
    refine ⟨⟨fun _ => h, fun _ => ⟨_, _, hset⟩⟩, ⟨?_, ?_⟩, ?_⟩
    · rintro ⟨v', hv'⟩
      rw [hset] at hv'
      simp at hv'
    · intro h'; omega
    · intro h'; omega
  · have hset : Set (some v) p a =
        Except.ok (⟨⟨v.data.bits.set pos.toNat a⟩, v.rows⟩, none) := by
      simp [Set, hpos, bind, Except.bind, pure, Except.pure, BitMap.SetVal, h]
    have hin : 0 ≤ pos ∧ pos < v.data.Length := by omega
    refine ⟨⟨?_, fun h' => absurd h' h⟩, ⟨fun _ => hin, fun _ => ⟨_, hset⟩⟩, fun _ => hset⟩
    rintro ⟨v', e, hv'⟩
    rw [hset] at hv'
    simp at hv'

/-- The point (0,5) of the 3×3 test board: `IsAlive` rejects it, its bit
position 5 is in the storage range, and `Set` accepts it. -/
theorem Set_fails_iff_position_outside_storage_witness :
    pointToBitPosition (some blinkerBoard) ⟨0, 5⟩ = Except.ok 5 ∧
    IsAlive (some blinkerBoard) ⟨0, 5⟩ =
      Except.ok (false, some (Error.invalidPoint ⟨3, 3, ⟨0, 5⟩, none⟩)) ∧
    ((∃ v' e, Set (some blinkerBoard) ⟨0, 5⟩ true =
        Except.ok (v', some (Error.invalidPoint e))) ↔
      ((5 : Int) < 0 ∨ blinkerBoard.data.Length ≤ 5)) ∧
    ((∃ v', Set (some blinkerBoard) ⟨0, 5⟩ true = Except.ok (v', none)) ↔
      ((0 : Int) ≤ 5 ∧ 5 < blinkerBoard.data.Length)) ∧
    ((0 : Int) ≤ 5 ∧ 5 < blinkerBoard.data.Length →
      Set (some blinkerBoard) ⟨0, 5⟩ true =
        Except.ok (⟨⟨blinkerBoard.data.bits.set (5 : Int).toNat true⟩, blinkerBoard.rows⟩,
          none)) :=
  ⟨by decide, by decide,
    Set_fails_iff_position_outside_storage blinkerBoard ⟨0, 5⟩ true 5 (by decide)⟩

/-- On a board with a non-zero row count the bit position of `p` is
`p.Row*Columns()+p.Column`, in 64-bit arithmetic, and `Set(p, alive)` tests
only that position: it fails with an `InvalidPointError` exactly when the
position is outside `[0, bit-length)` and otherwise writes that bit. -/
theorem Set_checks_only_the_bit_position (v : Board) (hne : v.rows ≠ 0) (p : Point)
    (a : Bool) :
    ∃ k, Columns (some v) = Except.ok k ∧
      pointToBitPosition (some v) p = Except.ok (wrapInt (wrapInt (p.Row * k) + p.Column)) ∧
      ((∃ v' e, Set (some v) p a = Except.ok (v', some (Error.invalidPoint e))) ↔
        (wrapInt (wrapInt (p.Row * k) + p.Column) < 0 ∨
          v.data.Length ≤ wrapInt (wrapInt (p.Row * k) + p.Column))) ∧
      (0 ≤ wrapInt (wrapInt (p.Row * k) + p.Column) ∧
        wrapInt (wrapInt (p.Row * k) + p.Column) < v.data.Length →
        Set (some v) p a = Except.ok
          (⟨⟨v.data.bits.set (wrapInt (wrapInt (p.Row * k) + p.Column)).toNat a⟩, v.rows⟩,
            none)) := by
  have hcol : Columns (some v) = Except.ok (wrapInt (v.data.Length.tdiv v.rows)) := by
    simp [Columns, goDiv, hne]; rfl
  have hpos : pointToBitPosition (some v) p = Except.ok
      (wrapInt (wrapInt (p.Row * wrapInt (v.data.Length.tdiv v.rows)) + p.Column)) := by
    simp [pointToBitPosition, hcol, bind, Except.bind, pure, Except.pure]
  obtain ⟨h1, _, h3⟩ := Set_fails_iff_position_outside_storage v p a _ hpos
  exact ⟨_, hcol, hpos, h1, h3⟩

/-- The points (1,4) and (-1,5) of the 3×3 test board lie outside its columns
and rows; their bit positions 7 and 2 are in the storage range, and `Set`
writes the cells (2,1) and (0,2). The point (2,3) has position 9 and fails. -/
theorem Set_checks_only_the_bit_position_witness :
    IsAlive (some blinkerBoard) ⟨1, 4⟩ =
      Except.ok (false, some (Error.invalidPoint ⟨3, 3, ⟨1, 4⟩, none⟩)) ∧
    Set (some blinkerBoard) ⟨1, 4⟩ false =
      Except.ok (⟨⟨[false, true, false, false, true, false, false, false, false]⟩, 3⟩, none) ∧
    IsAlive (some blinkerBoard) ⟨-1, 5⟩ =
      Except.ok (false, some (Error.invalidPoint ⟨3, 3, ⟨-1, 5⟩, none⟩)) ∧
    Set (some blinkerBoard) ⟨-1, 5⟩ true =
      Except.ok (⟨⟨[false, true, true, false, true, false, false, true, false]⟩, 3⟩, none) ∧
    Set (some blinkerBoard) ⟨2, 3⟩ true =
      Except.ok (blinkerBoard, some (Error.invalidPoint ⟨3, 0, ⟨0, 0⟩, none⟩)) ∧
    ∃ k, Columns (some blinkerBoard) = Except.ok k ∧
      pointToBitPosition (some blinkerBoard) ⟨1, 4⟩ =
        Except.ok (wrapInt (wrapInt (1 * k) + 4)) ∧
      ((∃ v' e, Set (some blinkerBoard) ⟨1, 4⟩ false =
          Except.ok (v', some (Error.invalidPoint e))) ↔
        (wrapInt (wrapInt (1 * k) + 4) < 0 ∨
          blinkerBoard.data.Length ≤ wrapInt (wrapInt (1 * k) + 4))) ∧
      (0 ≤ wrapInt (wrapInt (1 * k) + 4) ∧
        wrapInt (wrapInt (1 * k) + 4) < blinkerBoard.data.Length →
        Set (some blinkerBoard) ⟨1, 4⟩ false = Except.ok
          (⟨⟨blinkerBoard.data.bits.set (wrapInt (wrapInt (1 * k) + 4)).toNat false⟩,
            blinkerBoard.rows⟩, none)) :=
  ⟨by decide, by decide, by decide, by decide, by decide,
    Set_checks_only_the_bit_position blinkerBoard (by decide) ⟨1, 4⟩ false⟩

/-- C6 (failing input): `NewFromData` accepts `rows = 0` with any storage and
`New(0, c)` returns a zero-row board; on a zero-row board `Set` panics at
every point with an integer division by zero, in the `Columns()` call that
computes the bit position: it neither returns an `InvalidPointError` nor
writes a bit. -/
theorem Set_panics_on_zero_rows (data : BitMap) (c : Int) (p : Point) (a : Bool) :
    NewFromData 0 data = (some ⟨data, 0⟩, none) ∧
    New 0 c = (some ⟨⟨[]⟩, 0⟩, none) ∧
    Set (some ⟨data, 0⟩) p a = Except.error Panic.divideByZero := by
  refine ⟨?_, ?_, ?_⟩
  · have h : ¬ data.Length < 0 := not_lt.mpr data.Length_nonneg
    simp [NewFromData, h]
  · simp [New, BitMap.New, wrapInt]
  · simp [Set, pointToBitPosition, Columns, goDiv, bind, Except.bind, throw, throwThe,
      MonadExceptOf.throw]

/-! ### The point sequence (C7) -/

theorem forRange_pairwise (n : Int) : (forRange n).Pairwise (· < ·) := by
  unfold forRange
  rw [List.pairwise_map]
  exact (List.pairwise_lt_range _).imp (fun h => by
    show ((_ : Nat) : Int) < ((_ : Nat) : Int)
    omega)

theorem forRange_length (n : Int) (h : 0 ≤ n) : ((forRange n).length : Int) = n := by
  simp [forRange, Int.toNat_of_nonneg h]

theorem forRange_of_nonpos (n : Int) (h : n ≤ 0) : forRange n = [] := by
  have : n.toNat = 0 := by omega
  simp [forRange, this]

theorem gridPoints_length (rs : List Int) (C : Int) (hC : 0 ≤ C) :
    ((gridPoints rs C).length : Int) = rs.length * C := by
  induction rs with
  | nil => simp [gridPoints]
  | cons r rest ih =>
    have : gridPoints (r :: rest) C =
        (forRange C).map (fun column => (⟨r, column⟩ : Point)) ++ gridPoints rest C := by
      simp [gridPoints, List.flatMap_cons]
    rw [this, List.length_append, List.length_map]
    push_cast
    rw [ih, forRange_length C hC]
    simp only [List.length_cons]
    push_cast
    ring

theorem mem_gridPoints (rs : List Int) (C : Int) (p : Point) :
    p ∈ gridPoints rs C ↔ p.Row ∈ rs ∧ 0 ≤ p.Column ∧ p.Column < C := by
  unfold gridPoints
  simp only [List.mem_flatMap, List.mem_map, mem_forRange]
  constructor
  · rintro ⟨r, hr, c, ⟨h0, h1⟩, rfl⟩
    exact ⟨hr, h0, h1⟩
  · rintro ⟨hr, h0, h1⟩
    exact ⟨p.Row, hr, p.Column, ⟨h0, h1⟩, rfl⟩

theorem gridPoints_pairwise (rs : List Int) (hrs : rs.Pairwise (· < ·)) (C : Int) :
    (gridPoints rs C).Pairwise rowMajorLt := by
  unfold gridPoints
  rw [List.pairwise_flatMap]
  constructor
  · intro r _
    rw [List.pairwise_map]
    exact (forRange_pairwise C).imp (fun h => Or.inr ⟨rfl, h⟩)
  · refine hrs.imp ?_
    intro r r' hlt p hp q hq
    simp only [List.mem_map] at hp hq
    obtain ⟨_, _, rfl⟩ := hp
    obtain ⟨_, _, rfl⟩ := hq
    exact Or.inl hlt

theorem rowMajorLt_irrefl (p : Point) : ¬ rowMajorLt p p := by
  unfold rowMajorLt; omega

theorem Points_fold (b : Option Board) (C : Int) (hC : Columns b = Except.ok C)
    (rs : List Int) :
    rs.foldr
      (fun row acc => do
        let cols ← Columns b
        let tail ← acc
        pure ((forRange cols).map (fun column => (⟨row, column⟩ : Point)) ++ tail))
      (pure []) = (Except.ok (gridPoints rs C) : Go (List Point)) := by
  induction rs with
  | nil => rfl
  | cons r rest ih =>
    rw [List.foldr_cons, ih]
    simp only [hC, bind, Except.bind, pure, Except.pure]
    simp [gridPoints, List.flatMap_cons]

theorem Points_eq (v : Board) (hrep : v.representable) (hpos : 0 < v.rows) :
    Points (some v) = Except.ok (gridPoints (forRange v.rows) v.cols) := by
  unfold Points
  exact Points_fold (some v) v.cols (Columns_eq v hrep hpos) _

theorem Points_of_nonpos (v : Board) (h : v.rows ≤ 0) : Points (some v) = Except.ok [] := by
  simp [Points, Rows, forRange_of_nonpos v.rows h, pure, Except.pure]

/-- C7 (counterexample): `NewFromData(-2, data)` with six bits is accepted; the
board has `Rows() = -2` and `Columns() = -3`, and `Points()` yields no point
where the specification asks for `Rows() * Columns() = 6` of them. -/
theorem Points_negative_rows_counterexample :
    NewFromData (-2) ⟨List.replicate 6 false⟩ =
      (some ⟨⟨List.replicate 6 false⟩, -2⟩, none) ∧
    Rows (some ⟨⟨List.replicate 6 false⟩, -2⟩) = -2 ∧
    Columns (some ⟨⟨List.replicate 6 false⟩, -2⟩) = Except.ok (-3) ∧
    Points (some ⟨⟨List.replicate 6 false⟩, -2⟩) = Except.ok [] ∧
    (([] : List Point).length : Int) ≠ -2 * -3 := by
  decide

/-- C7 (amended): for a board with `R > 0` rows and `C` columns, `Points()`
yields exactly `R * C` points, each `(row, column)` with `0 ≤ row < R` and
`0 ≤ column < C` exactly once, in row-major order, and every iteration yields
that same sequence; for a board with `R ≤ 0` rows it yields no point. -/
theorem Points_row_major (v : Board) (hrep : v.representable) :
    (0 < v.rows → ∃ c ps, Columns (some v) = Except.ok c ∧
      Points (some v) = Except.ok ps ∧
      (ps.length : Int) = Rows (some v) * c ∧
      (∀ p, p ∈ ps ↔ 0 ≤ p.Row ∧ p.Row < Rows (some v) ∧ 0 ≤ p.Column ∧ p.Column < c) ∧
      ps.Nodup ∧ ps.Pairwise rowMajorLt ∧
      ∀ ps', Points (some v) = Except.ok ps' → ps' = ps) ∧
    (v.rows ≤ 0 → Points (some v) = Except.ok []) := by
  refine ⟨fun hpos => ?_, Points_of_nonpos v⟩
  have hP := Points_eq v hrep hpos
  have hpw := gridPoints_pairwise (forRange v.rows) (forRange_pairwise _) v.cols
  refine ⟨v.cols, _, Columns_eq v hrep hpos, hP, ?_, ?_, ?_, hpw, ?_⟩
  · rw [gridPoints_length _ _ (v.cols_nonneg hpos), forRange_length _ (le_of_lt hpos)]
    rfl
  · intro p
    rw [mem_gridPoints, mem_forRange]
    simp only [Rows]
    tauto
  · refine hpw.imp ?_
    intro p q h heq
    rw [heq] at h
    exact rowMajorLt_irrefl q h
  · intro ps' h
    rw [hP] at h
    exact (Except.ok.inj h).symm

/-- C7 (amended) at the 3×3 test board, with the sequence it yields. -/
theorem Points_row_major_witness :
    blinkerBoard.representable ∧
    ((0 : Int) < blinkerBoard.rows → ∃ c ps, Columns (some blinkerBoard) = Except.ok c ∧
      Points (some blinkerBoard) = Except.ok ps ∧
      (ps.length : Int) = Rows (some blinkerBoard) * c ∧
      (∀ p, p ∈ ps ↔ 0 ≤ p.Row ∧ p.Row < Rows (some blinkerBoard) ∧
        0 ≤ p.Column ∧ p.Column < c) ∧
      ps.Nodup ∧ ps.Pairwise rowMajorLt ∧
      ∀ ps', Points (some blinkerBoard) = Except.ok ps' → ps' = ps) ∧
    (blinkerBoard.rows ≤ 0 → Points (some blinkerBoard) = Except.ok []) ∧
    Points (some blinkerBoard) = Except.ok
      [⟨0, 0⟩, ⟨0, 1⟩, ⟨0, 2⟩, ⟨1, 0⟩, ⟨1, 1⟩, ⟨1, 2⟩, ⟨2, 0⟩, ⟨2, 1⟩, ⟨2, 2⟩] :=
  ⟨by decide, (Points_row_major blinkerBoard (by decide)).1,
    (Points_row_major blinkerBoard (by decide)).2, by decide⟩

/-! ### Bit length of the boards returned by the constructors (C8) -/

theorem Length_replicate (n : Int) (h : 0 ≤ n) :
    (BitMap.mk (List.replicate n.toNat false)).Length = n := by
  show ((List.replicate n.toNat false).length : Int) = n
  rw [List.length_replicate]
  exact Int.toNat_of_nonneg h

theorem Columns_of_exact (b : Board) (k : Int) (hk : isInt k) (hr : b.rows ≠ 0)
    (hL : b.data.Length = b.rows * k) : Columns (some b) = Except.ok k := by
  simp [Columns, goDiv, hr, hL, Int.mul_tdiv_cancel_left _ hr, wrapInt_of_isInt hk]
  rfl

theorem tdiv_neg_bounds (L R : Int) (hL : 0 ≤ L) (hR : R < 0) :
    -L ≤ L.tdiv R ∧ L.tdiv R ≤ 0 ∧ 0 ≤ R * L.tdiv R ∧ R * L.tdiv R ≤ L := by
  have e : L.tdiv R = -(L / (-R)) := by
    have : R = -(-R) := by omega
    rw [this, Int.tdiv_neg, Int.tdiv_eq_ediv hL (by omega)]
    simp
  have h1 : 0 ≤ L / (-R) := Int.ediv_nonneg hL (by omega)
  have h2 : L / (-R) ≤ L := Int.ediv_le_self _ hL
  have h3 : (-R) * (L / (-R)) ≤ L := Int.mul_ediv_self_le (by omega)
  have h4 : R * L.tdiv R = (-R) * (L / (-R)) := by rw [e]; ring
  have h5 : 0 ≤ (-R) * (L / (-R)) := Int.mul_nonneg (by omega) h1
  rw [h4, e]
  omega

theorem NextBoard_of_neg_rows (v : Board) (hrep : v.representable) (hneg : v.rows < 0) :
    Columns (some v) = Except.ok (v.data.Length.tdiv v.rows) ∧
    NextBoard (some v) = Except.ok
      (some ⟨⟨List.replicate (v.rows * v.data.Length.tdiv v.rows).toNat false⟩, v.rows⟩, none) := by
  obtain ⟨h1, h2, h3, h4⟩ := tdiv_neg_bounds _ _ v.data.Length_nonneg hneg
  have hL := hrep.2
  have hmin := hrep.1.1
  have hk : isInt (v.data.Length.tdiv v.rows) := by
    unfold isInt minInt; unfold maxInt at hL ⊢; omega
  have hprod : isInt (v.rows * v.data.Length.tdiv v.rows) := isInt_of_bounds (by omega) (by omega)
  have hcol : Columns (some v) = Except.ok (v.data.Length.tdiv v.rows) := by
    simp [Columns, goDiv, ne_of_lt hneg, wrapInt_of_isInt hk]
    rfl
  refine ⟨hcol, ?_⟩
  simp [NextBoard, hcol, Rows, New, BitMap.New, wrapInt_of_isInt hprod, not_lt.mpr h3,
    forRange_of_nonpos v.rows (le_of_lt hneg), nextBoardRows, bind, Except.bind, pure,
    Except.pure]

theorem NextBoard_divides_by_zero (v : Board) (hz : v.rows = 0) :
    NextBoard (some v) = Except.error Panic.divideByZero := by
  simp [NextBoard, Columns, goDiv, hz, bind, Except.bind, throw, throwThe,
    MonadExceptOf.throw]

/-- C8 (counterexample): `NewFromData(2, data)` with five bits is returned
without error, and its bit length 5 differs from `Rows() * Columns() = 2 * 2`. -/
theorem NewFromData_length_counterexample :
    NewFromData 2 ⟨List.replicate 5 false⟩ = (some ⟨⟨List.replicate 5 false⟩, 2⟩, none) ∧
    Rows (some ⟨⟨List.replicate 5 false⟩, 2⟩) = 2 ∧
    Columns (some ⟨⟨List.replicate 5 false⟩, 2⟩) = Except.ok 2 ∧
    (BitMap.mk (List.replicate 5 false)).Length ≠ 2 * 2 := by
  decide

/-- C8 (amended): a board returned without error by `New(r, c)` with `r ≠ 0`
and `r * c` inside the `int` range, or by `NextBoard`, has a bit length equal
to `Rows() * Columns()`; `Clone` returns a board with the rows, the bit length
and the columns of its receiver; `NewFromData(rows, data)` returns a board
with the given rows and data, of which only `rows ≤ length` is known. -/
theorem bit_length_of_returned_boards :
    (∀ r c b, isInt r → isInt c → r ≠ 0 → isInt (r * c) → New r c = (some b, none) →
      Columns (some b) = Except.ok c ∧ b.data.Length = Rows (some b) * c) ∧
    (∀ v nb, v.representable → NextBoard (some v) = Except.ok (some nb, none) →
      ∃ k, Columns (some nb) = Except.ok k ∧ nb.data.Length = Rows (some nb) * k) ∧
    (∀ v nb, Clone (some v) = Except.ok nb →
      Rows (some nb) = Rows (some v) ∧ nb.data.Length = v.data.Length ∧
        Columns (some nb) = Columns (some v)) ∧
    (∀ rows data b, NewFromData rows data = (some b, none) →
      Rows (some b) = rows ∧ b.data = data ∧ rows ≤ data.Length) := by
  refine ⟨?_, ?_, ?_, ?_⟩
  · intro r c b hr hc hne hrc hnew
    obtain ⟨_, hrows, hlen⟩ := New_shape r c hr b hnew
    rw [wrapInt_of_isInt hrc] at hlen
    have hL : b.data.Length = b.rows * c := by rw [hlen, hrows]
    exact ⟨Columns_of_exact b c hc (by rw [hrows]; exact hne) hL, hL⟩
  · intro v nb hrep hrun
    rcases lt_trichotomy v.rows 0 with hneg | hz | hpos
    · obtain ⟨_, hnext⟩ := NextBoard_of_neg_rows v hrep hneg
      obtain ⟨h1, h2, h3, h4⟩ := tdiv_neg_bounds _ _ v.data.Length_nonneg hneg
      rw [hnext] at hrun
      simp only [Except.ok.injEq, Prod.mk.injEq, Option.some.injEq, and_true] at hrun
      subst hrun
      have hk : isInt (v.data.Length.tdiv v.rows) := by
        have hL := hrep.2
        unfold isInt minInt; unfold maxInt at hL ⊢; omega
      have hL := Length_replicate (v.rows * v.data.Length.tdiv v.rows) h3
      exact ⟨_, Columns_of_exact _ _ hk (ne_of_lt hneg) hL, hL⟩
    · rw [NextBoard_divides_by_zero v hz] at hrun
      simp at hrun
    · obtain ⟨nb', hrun', hsh, _⟩ := NextBoard_eq v hrep hpos
      rw [hrun'] at hrun
      simp only [Except.ok.injEq, Prod.mk.injEq, Option.some.injEq, and_true] at hrun
      subst hrun
      have hnrep := sameShape_representable nb' v hrep hpos hsh
      refine ⟨v.cols, ?_, ?_⟩
      · rw [Columns_eq nb' hnrep (by rw [hsh.1]; exact hpos), sameShape_cols nb' v hpos hsh]
      · rw [hsh.2]; simp [Rows, hsh.1]
  · intro v nb hclone
    simp only [Clone, pure, Except.pure, Except.ok.injEq] at hclone
    subst hclone
    exact ⟨rfl, rfl, rfl⟩
  · intro rows data b hnew
    unfold NewFromData at hnew
    by_cases h : data.Length < rows
    · rw [if_pos h] at hnew; simp at hnew
    · rw [if_neg h] at hnew
      simp only [Prod.mk.injEq, Option.some.injEq, and_true] at hnew
      subst hnew
      exact ⟨rfl, rfl, not_lt.mp h⟩

/-- C8 (amended) at `New(3, 3)`, at `NextBoard` and `Clone` of the test board,
and at `NewFromData(2, data)` with five bits. -/
theorem bit_length_of_returned_boards_witness :
    (New 3 3 = (some deadBoard, none) ∧
      Columns (some deadBoard) = Except.ok 3 ∧
      deadBoard.data.Length = Rows (some deadBoard) * 3) ∧
    (NextBoard (some blinkerBoard) = Except.ok (some blinkerRow, none) ∧
      ∃ k, Columns (some blinkerRow) = Except.ok k ∧
        blinkerRow.data.Length = Rows (some blinkerRow) * k) ∧
    (Clone (some blinkerBoard) = Except.ok blinkerBoard ∧
      Rows (some blinkerBoard) = Rows (some blinkerBoard) ∧
      blinkerBoard.data.Length = blinkerBoard.data.Length ∧
      Columns (some blinkerBoard) = Columns (some blinkerBoard)) ∧
    (NewFromData 2 ⟨List.replicate 5 false⟩ = (some ⟨⟨List.replicate 5 false⟩, 2⟩, none) ∧
      Rows (some ⟨⟨List.replicate 5 false⟩, 2⟩) = 2 ∧
      (Board.mk ⟨List.replicate 5 false⟩ 2).data = ⟨List.replicate 5 false⟩ ∧
      (2 : Int) ≤ (BitMap.mk (List.replicate 5 false)).Length) :=
  ⟨⟨by decide, bit_length_of_returned_boards.1 3 3 _ (by decide) (by decide) (by decide)
      (by decide) (by decide)⟩,
    ⟨by decide, bit_length_of_returned_boards.2.1 blinkerBoard blinkerRow (by decide)
      (by decide)⟩,
    ⟨by decide, bit_length_of_returned_boards.2.2.1 blinkerBoard blinkerBoard (by decide)⟩,
    ⟨by decide, bit_length_of_returned_boards.2.2.2 2 ⟨List.replicate 5 false⟩ _ (by decide)⟩⟩

end Board

/-! ### `NextBoard` in a store: the receiver is not written (C9) -/

theorem agreeBelow_refl (n : Nat) (h : Heap) : agreeBelow n h h := fun _ _ => rfl

theorem agreeBelow_trans {n : Nat} {h1 h2 h3 : Heap} (h12 : agreeBelow n h1 h2)
    (h23 : agreeBelow n h2 h3) : agreeBelow n h1 h3 :=
  fun i hi => (h23 i hi).trans (h12 i hi)

theorem SetRef_agreeBelow (n : Nat) (h : Heap) (nb : BoardRef) (hn : n ≤ nb.data) (p : Point)
    (a : Bool) : agreeBelow n h (SetRef h nb p a).1 := by
  unfold SetRef
  split
  · exact agreeBelow_refl n h
  · intro i hi
    have : nb.data ≠ i := by omega
    simp [Heap.store, List.getElem?_set_ne this]

theorem nextBoardCellRef_agreeBelow (n : Nat) (h : Heap) (b nb : BoardRef) (hn : n ≤ nb.data)
    (p : Point) : agreeBelow n h (nextBoardCellRef h b nb p).1 := by
  unfold nextBoardCellRef
  split
  · exact agreeBelow_refl n h
  · exact agreeBelow_refl n h
  · split
    · exact agreeBelow_refl n h
    · rename_i isAliveNext _ _
      have key := SetRef_agreeBelow n h nb hn p isAliveNext
      split <;> rename_i heq <;> rw [heq] at key <;> exact key

theorem nextBoardColumnsRef_agreeBelow (n : Nat) (b nb : BoardRef) (hn : n ≤ nb.data)
    (row : Int) (cs : List Int) (h : Heap) :
    agreeBelow n h (nextBoardColumnsRef b nb row cs h).1 := by
  induction cs generalizing h with
  | nil => exact agreeBelow_refl n h
  | cons c rest ih =>
    have key := nextBoardCellRef_agreeBelow n h b nb hn ⟨row, c⟩
    unfold nextBoardColumnsRef
    split <;> rename_i heq <;> rw [heq] at key
    · exact agreeBelow_trans key (ih _)
    · exact key

theorem nextBoardRowsRef_agreeBelow (n : Nat) (b nb : BoardRef) (hn : n ≤ nb.data)
    (rs : List Int) (h : Heap) :
    agreeBelow n h (nextBoardRowsRef b nb rs h).1 := by
  induction rs generalizing h with
  | nil => exact agreeBelow_refl n h
  | cons r rest ih =>
    unfold nextBoardRowsRef
    split
    · exact agreeBelow_refl n h
    · rename_i cols _
      have key := nextBoardColumnsRef_agreeBelow n b nb hn r (forRange cols) h
      split <;> rename_i heq <;> rw [heq] at key
      · exact agreeBelow_trans key (ih _)
      · exact key

theorem NewRef_agreeBelow (h : Heap) (rows cols : Int) :
    agreeBelow h.objs.length h (NewRef h rows cols).1 ∧
    ∀ nb, (NewRef h rows cols).2.1 = some nb → nb.data = h.objs.length := by
  unfold NewRef
  split
  · exact ⟨agreeBelow_refl _ h, fun nb hnb => by simp at hnb⟩
  · refine ⟨fun i hi => ?_, fun nb hnb => ?_⟩
    · simp [List.getElem?_append_left hi]
    · simp only [Option.some.injEq] at hnb
      rw [← hnb]

theorem NextBoardRef_agreeBelow (h : Heap) (b : BoardRef) :
    agreeBelow h.objs.length h (NextBoardRef h b).1 := by
  unfold NextBoardRef
  split
  · exact agreeBelow_refl _ h
  · rename_i cols _
    have key := NewRef_agreeBelow h (Board.Rows (h.load b)) cols
    split <;> rename_i heq <;> rw [heq] at key
    · exact key.1
    · exact key.1
    · rename_i h1 nb
      have hnb : nb.data = h.objs.length := key.2 nb rfl
      split
      · exact key.1
      · rename_i v _
        have key2 := nextBoardRowsRef_agreeBelow h.objs.length b nb (le_of_eq hnb.symm)
          (forRange v.rows) h1
        split <;> rename_i heq2 <;> rw [heq2] at key2 <;> exact agreeBelow_trans key.1 key2

theorem load_of_agreeBelow (h h' : Heap) (b : BoardRef) (hb : b.data < h.objs.length)
    (hagree : agreeBelow h.objs.length h h') : h'.load b = h.load b := by
  unfold Heap.load
  rw [hagree b.data hb]

/-- C9: calling `NextBoard` leaves its receiver unchanged: in the store after
the call (returned or panicked), `Rows()`, `Columns()` and `IsAlive(p)` at
every point give on the receiver what they gave before the call. -/
theorem NextBoard_leaves_receiver_unchanged (h : Heap) (b : BoardRef)
    (hb : b.data < h.objs.length) :
    Board.Rows ((NextBoardRef h b).1.load b) = Board.Rows (h.load b) ∧
    Board.Columns ((NextBoardRef h b).1.load b) = Board.Columns (h.load b) ∧
    ∀ p, Board.IsAlive ((NextBoardRef h b).1.load b) p = Board.IsAlive (h.load b) p := by
  have hload := load_of_agreeBelow h _ b hb (NextBoardRef_agreeBelow h b)
  rw [hload]
  exact ⟨rfl, rfl, fun _ => rfl⟩

/-- C9 at a store holding the test board: the call allocates the new board at
address 1 and the receiver at address 0 reads as before. -/
theorem NextBoard_leaves_receiver_unchanged_witness :
    (0 : Nat) < (Heap.mk [Board.blinkerBoard.data]).objs.length ∧
    (NextBoardRef ⟨[Board.blinkerBoard.data]⟩ ⟨0, 3⟩) =
      (⟨[Board.blinkerBoard.data, Board.blinkerRow.data]⟩, Except.ok (some ⟨1, 3⟩, none)) ∧
    (Board.Rows ((NextBoardRef ⟨[Board.blinkerBoard.data]⟩ ⟨0, 3⟩).1.load ⟨0, 3⟩) =
      Board.Rows ((Heap.mk [Board.blinkerBoard.data]).load ⟨0, 3⟩) ∧
    Board.Columns ((NextBoardRef ⟨[Board.blinkerBoard.data]⟩ ⟨0, 3⟩).1.load ⟨0, 3⟩) =
      Board.Columns ((Heap.mk [Board.blinkerBoard.data]).load ⟨0, 3⟩) ∧
    ∀ p, Board.IsAlive ((NextBoardRef ⟨[Board.blinkerBoard.data]⟩ ⟨0, 3⟩).1.load ⟨0, 3⟩) p =
      Board.IsAlive ((Heap.mk [Board.blinkerBoard.data]).load ⟨0, 3⟩) p) :=
  ⟨by decide, by decide,
    NextBoard_leaves_receiver_unchanged ⟨[Board.blinkerBoard.data]⟩ ⟨0, 3⟩ (by decide)⟩

/-! ### The all-dead board (C10) -/

namespace Board

theorem liveCount_of_dead (v : Board) (p : Point)
    (hdead : ∀ q, v.inBounds q → v.cellBit q = false) : liveCount v p = 0 := by
  unfold liveCount
  have : (p.Neighbours.filter (fun q => decide (v.inBounds q))).countP v.cellBit = 0 := by
    rw [List.countP_eq_zero]
    intro q hq
    have hq' : v.inBounds q := by simpa using (List.mem_filter.mp hq).2
    simp [hdead q hq']
  rw [this]
  rfl

/-- On a board with a non-zero row count in which every cell is dead,
`NextBoard` returns a board of the same dimensions in which every cell is dead. -/
theorem NextBoard_of_dead_board (v : Board) (hrep : v.representable) (hne : v.rows ≠ 0)
    (hdead : ∀ p, isValidPoint (some v) p = Except.ok true →
      IsAlive (some v) p = Except.ok (false, none)) :
    ∃ nb k, NextBoard (some v) = Except.ok (some nb, none) ∧
      Rows (some nb) = Rows (some v) ∧
      Columns (some nb) = Except.ok k ∧ Columns (some v) = Except.ok k ∧
      ∀ p, isValidPoint (some nb) p = Except.ok true →
        IsAlive (some nb) p = Except.ok (false, none) := by
  rcases lt_or_gt_of_ne hne with hneg | hpos
  · obtain ⟨hcol, hnext⟩ := NextBoard_of_neg_rows v hrep hneg
    obtain ⟨h1, h2, h3, h4⟩ := tdiv_neg_bounds _ _ v.data.Length_nonneg hneg
    have hk : isInt (v.data.Length.tdiv v.rows) := by
      have hL := hrep.2
      unfold isInt minInt; unfold maxInt at hL ⊢; omega
    have hL := Length_replicate (v.rows * v.data.Length.tdiv v.rows) h3
    refine ⟨_, _, hnext, rfl, Columns_of_exact _ _ hk hne hL, hcol, ?_⟩
    intro p hp
    have : ¬ (p.Row ≥ 0 ∧ p.Row < v.rows ∧ p.Column ≥ 0) := by omega
    simp [isValidPoint, this, pure, Except.pure] at hp
  · have hpos : 0 < v.rows := hpos
    obtain ⟨nb, hrun, hsh, hbits⟩ := NextBoard_eq v hrep hpos
    have hnrep := sameShape_representable nb v hrep hpos hsh
    have hnpos : 0 < nb.rows := by rw [hsh.1]; exact hpos
    have hbit : ∀ q, v.inBounds q → v.cellBit q = false := by
      intro q hq
      have h := hdead q (by rw [isValidPoint_eq v hrep hpos]; simp [hq])
      rw [IsAlive_inBounds v hrep q hq] at h
      simpa using h
    refine ⟨nb, v.cols, hrun, hsh.1, ?_, Columns_eq v hrep hpos, ?_⟩
    · rw [Columns_eq nb hnrep hnpos, sameShape_cols nb v hpos hsh]
    · intro p hp
      rw [isValidPoint_eq nb hnrep hnpos] at hp
      have hp' : nb.inBounds p := by simpa using hp
      have hvp : v.inBounds p := (sameShape_inBounds nb v hpos hsh p).mp hp'
      rw [IsAlive_inBounds nb hnrep p hp', hbits p hvp]
      simp [nextBit, rule, hbit p hvp, liveCount_of_dead v p hbit]

/-- The all-dead 3×3 board stays all dead. -/
theorem NextBoard_of_dead_board_witness :
    deadBoard.representable ∧ deadBoard.rows ≠ 0 ∧
    ∃ nb k, NextBoard (some deadBoard) = Except.ok (some nb, none) ∧
      Rows (some nb) = Rows (some deadBoard) ∧
      Columns (some nb) = Except.ok k ∧ Columns (some deadBoard) = Except.ok k ∧
      ∀ p, isValidPoint (some nb) p = Except.ok true →
        IsAlive (some nb) p = Except.ok (false, none) :=
  ⟨by decide, by decide,
    NextBoard_of_dead_board deadBoard (by decide) (by decide)
      (fun p hp => by
        rw [isValidPoint_eq _ (by decide) (by decide)] at hp
        have hp' : deadBoard.inBounds p := by simpa using hp
        rw [IsAlive_inBounds _ (by decide) p hp']
        have := inBounds_three _ rfl (by decide) p hp'
        simp only [List.mem_cons, List.mem_singleton, List.not_mem_nil, or_false] at this
        rcases this with rfl | rfl | rfl | rfl | rfl | rfl | rfl | rfl | rfl <;> decide)⟩

/-- C10 (failing input): `NewFromData` accepts `rows = 0`; the board it returns
has no cell, so none is alive, and on it `NextBoard` panics with an integer
division by zero where the specification promises a returned all-dead board. -/
theorem NextBoard_panics_on_zero_rows (data : BitMap) :
    NewFromData 0 data = (some ⟨data, 0⟩, none) ∧
    (∀ p, isValidPoint (some ⟨data, 0⟩) p = Except.ok false) ∧
    (∀ p, IsAlive (some ⟨data, 0⟩) p ≠ Except.ok (true, none)) ∧
    NextBoard (some ⟨data, 0⟩) = Except.error Panic.divideByZero := by
  have hv : ∀ p : Point, ¬ (p.Row ≥ 0 ∧ p.Row < 0 ∧ p.Column ≥ 0) := fun p => by omega
  refine ⟨?_, ?_, ?_, NextBoard_divides_by_zero ⟨data, 0⟩ rfl⟩
  · have h : ¬ data.Length < 0 := not_lt.mpr data.Length_nonneg
    simp [NewFromData, h]
  · intro p
    simp [isValidPoint, hv p, pure, Except.pure]
  · intro p
    simp [IsAlive, isValidPoint, hv p, Columns, goDiv, bind, Except.bind, pure, Except.pure,
      throw, throwThe, MonadExceptOf.throw]

end Board

/-! ### `NextBoard` in a store computes `NextBoard` on board values -/

theorem load_rows (h : Heap) (b : BoardRef) (v : Board) (hv : h.load b = some v) :
    v.rows = b.rows ∧ b.data < h.objs.length := by
  unfold Heap.load at hv
  cases hget : h.objs[b.data]? with
  | none => rw [hget] at hv; simp at hv
  | some m =>
    rw [hget] at hv
    simp only [Option.map_some', Option.some.injEq] at hv
    subst hv
    exact ⟨rfl, (List.getElem?_eq_some_iff.mp hget).1⟩

theorem load_store_same (h : Heap) (b : BoardRef) (m : BitMap) (hb : b.data < h.objs.length) :
    (h.store b.data m).load b = some ⟨m, b.rows⟩ := by
  simp [Heap.load, Heap.store, List.getElem?_set, hb]

theorem load_store_other (h : Heap) (b nb : BoardRef) (m : BitMap) (hne : b.data ≠ nb.data) :
    (h.store nb.data m).load b = h.load b := by
  simp [Heap.load, Heap.store, List.getElem?_set_ne (Ne.symm hne)]

theorem Set_rows (w w' : Board) (p : Point) (a : Bool) (e : Option Error)
    (hset : Board.Set (some w) p a = Except.ok (w', e)) : w'.rows = w.rows := by
  unfold Board.Set at hset
  cases hpos : Board.pointToBitPosition (some w) p with
  | error pn => rw [hpos] at hset; simp [bind, Except.bind] at hset
  | ok pos =>
    rw [hpos] at hset
    simp only [bind, Except.bind, pure, Except.pure] at hset
    split at hset <;> simp only [Except.ok.injEq, Prod.mk.injEq] at hset <;>
      (rw [← hset.1])

theorem nextBoardCellRef_sim (h : Heap) (b nb : BoardRef) (v w : Board)
    (hv : h.load b = some v) (hw : h.load nb = some w) (hne : b.data ≠ nb.data) (p : Point) :
    simResult (nextBoardCellRef h b nb p).1 b nb v (Board.nextBoardCell (some v) w p)
      (nextBoardCellRef h b nb p).2 := by
  unfold nextBoardCellRef Board.nextBoardCell
  rw [hv]
  cases hnext : Board.IsAliveNextCycle (some v) p with
  | error pn => simp [simResult, bind, Except.bind]
  | ok res =>
    obtain ⟨x, err⟩ := res
    cases err with
    | some e => simp [simResult, bind, Except.bind, pure, Except.pure]
    | none =>
      cases x with
      | false => simp [simResult, bind, Except.bind, pure, Except.pure, hv, hw]
      | true =>
        simp only [bind, Except.bind, pure, Except.pure, Bool.not_true, Bool.false_eq_true,
          if_false, SetRef, hw]
        cases hset : Board.Set (some w) p true with
        | error pn => simp [simResult]
        | ok res =>
          obtain ⟨w', err⟩ := res
          cases err with
          | some e => simp [simResult]
          | none =>
            have hrows := Set_rows w w' p true none hset
            have hwl := load_rows h nb w hw
            refine ⟨rfl, ?_, ?_⟩
            · show (h.store nb.data w'.data).load b = some v
              rw [load_store_other h b nb _ hne, hv]
            · show (h.store nb.data w'.data).load nb = some w'
              rw [load_store_same h nb _ hwl.2]
              congr 1
              cases w'
              simp only [Board.mk.injEq, true_and]
              simp only at hrows
              rw [hrows, hwl.1]

theorem nextBoardColumnsRef_sim (b nb : BoardRef) (v : Board) (hne : b.data ≠ nb.data)
    (row : Int) (cs : List Int) (h : Heap) (w : Board) (hv : h.load b = some v)
    (hw : h.load nb = some w) :
    simResult (nextBoardColumnsRef b nb row cs h).1 b nb v
      (Board.nextBoardColumns (some v) row cs w) (nextBoardColumnsRef b nb row cs h).2 := by
  induction cs generalizing h w with
  | nil => exact ⟨rfl, hv, hw⟩
  | cons c rest ih =>
    have key := nextBoardCellRef_sim h b nb v w hv hw hne ⟨row, c⟩
    unfold nextBoardColumnsRef Board.nextBoardColumns
    cases hval : Board.nextBoardCell (some v) w ⟨row, c⟩ with
    | error pn =>
      rw [hval] at key
      rcases hcell : nextBoardCellRef h b nb ⟨row, c⟩ with ⟨h', r⟩
      rw [hcell] at key
      simp only [simResult] at key
      subst key
      simp [simResult, bind, Except.bind]
    | ok res =>
      cases res with
      | error e =>
        rw [hval] at key
        rcases hcell : nextBoardCellRef h b nb ⟨row, c⟩ with ⟨h', r⟩
        rw [hcell] at key
        simp only [simResult] at key
        subst key
        simp [simResult, bind, Except.bind, pure, Except.pure]
      | ok w' =>
        rw [hval] at key
        rcases hcell : nextBoardCellRef h b nb ⟨row, c⟩ with ⟨h', r⟩
        rw [hcell] at key
        obtain ⟨hr, hv', hw'⟩ := key
        simp only at hr hv' hw'
        subst hr
        simp only [bind, Except.bind]
        exact ih h' w' hv' hw'

theorem nextBoardRowsRef_sim (b nb : BoardRef) (v : Board) (hne : b.data ≠ nb.data)
    (rs : List Int) (h : Heap) (w : Board) (hv : h.load b = some v)
    (hw : h.load nb = some w) :
    simResult (nextBoardRowsRef b nb rs h).1 b nb v
      (Board.nextBoardRows (some v) rs w) (nextBoardRowsRef b nb rs h).2 := by
  induction rs generalizing h w with
  | nil => exact ⟨rfl, hv, hw⟩
  | cons r rest ih =>
    unfold nextBoardRowsRef Board.nextBoardRows
    rw [hv]
    cases hcols : Board.Columns (some v) with
    | error pn => simp [simResult, bind, Except.bind]
    | ok cols =>
      have key := nextBoardColumnsRef_sim b nb v hne r (forRange cols) h w hv hw
      simp only [bind, Except.bind]
      cases hval : Board.nextBoardColumns (some v) r (forRange cols) w with
      | error pn =>
        rw [hval] at key
        rcases hloop : nextBoardColumnsRef b nb r (forRange cols) h with ⟨h', res⟩
        rw [hloop] at key
        simp only [simResult] at key
        subst key
        simp [simResult]
      | ok res =>
        cases res with
        | error e =>
          rw [hval] at key
          rcases hloop : nextBoardColumnsRef b nb r (forRange cols) h with ⟨h', res⟩
          rw [hloop] at key
          simp only [simResult] at key
          subst key
          simp [simResult, pure, Except.pure]
        | ok w' =>
          rw [hval] at key
          rcases hloop : nextBoardColumnsRef b nb r (forRange cols) h with ⟨h', res⟩
          rw [hloop] at key
          obtain ⟨hr, hv', hw'⟩ := key
          simp only at hr hv' hw'
          subst hr
          exact ih h' w' hv' hw'

/-- `NextBoard` in a store computes what `NextBoard` on board values computes:
the same panic or error, or a pointer to the same new board. -/
theorem NextBoardRef_refines_NextBoard (h : Heap) (b : BoardRef) (v : Board)
    (hv : h.load b = some v) :
    simNextBoard (NextBoardRef h b).1 (Board.NextBoard (some v)) (NextBoardRef h b).2 := by
  have hb := load_rows h b v hv
  unfold NextBoardRef Board.NextBoard
  rw [hv]
  cases hcols : Board.Columns (some v) with
  | error pn => simp [simNextBoard, bind, Except.bind]
  | ok cols =>
    simp only [bind, Except.bind, NewRef, Board.New]
    cases hnew : BitMap.New (wrapInt (Board.Rows (some v) * cols)) with
    | error err =>
      simp [simNextBoard, throw, throwThe, MonadExceptOf.throw]
    | ok data =>
      have hv1 : (Heap.mk (h.objs ++ [data])).load b = some v := by
        unfold Heap.load at hv ⊢
        simp only
        rw [List.getElem?_append_left hb.2]
        exact hv
      have hw1 : (Heap.mk (h.objs ++ [data])).load ⟨h.objs.length, Board.Rows (some v)⟩ =
          some ⟨data, Board.Rows (some v)⟩ := by
        simp [Heap.load]
      have hne : b.data ≠ (BoardRef.mk h.objs.length (Board.Rows (some v))).data := by
        simp only; omega
      have key := nextBoardRowsRef_sim b ⟨h.objs.length, Board.Rows (some v)⟩ v hne
        (forRange v.rows) _ _ hv1 hw1
      simp only [hv1]
      cases hval : Board.nextBoardRows (some v) (forRange v.rows)
          ⟨data, Board.Rows (some v)⟩ with
      | error pn =>
        rw [hval] at key
        rcases hloop : nextBoardRowsRef b ⟨h.objs.length, Board.Rows (some v)⟩ (forRange v.rows)
          ⟨h.objs ++ [data]⟩ with ⟨h', res⟩
        rw [hloop] at key
        simp only [simResult] at key
        subst key
        simp [simNextBoard]
      | ok res =>
        cases res with
        | error e =>
          rw [hval] at key
          rcases hloop : nextBoardRowsRef b ⟨h.objs.length, Board.Rows (some v)⟩ (forRange v.rows)
            ⟨h.objs ++ [data]⟩ with ⟨h', res⟩
          rw [hloop] at key
          simp only [simResult] at key
          subst key
          simp [simNextBoard, pure, Except.pure]
        | ok w' =>
          rw [hval] at key
          rcases hloop : nextBoardRowsRef b ⟨h.objs.length, Board.Rows (some v)⟩ (forRange v.rows)
            ⟨h.objs ++ [data]⟩ with ⟨h', res⟩
          rw [hloop] at key
          obtain ⟨hr, _, hw'⟩ := key
          simp only at hr hw'
          subst hr
          exact ⟨_, rfl, hw'⟩

/-! ### `IsDead`, the candidate neighbours and the point errors (C11, C12, C13) -/

namespace Board

theorem IsDead_eq (b : Option Board) (p : Point) :
    IsDead b p = (IsAlive b p).map (fun r => (!r.1, r.2)) := by
  unfold IsDead
  cases IsAlive b p <;> rfl

/-- C11: at an in-bounds point `IsAlive` and `IsDead` both return without
error and with opposite booleans; at a point where `IsAlive` returns an error,
`IsDead` returns that same error. -/
theorem IsDead_negates_IsAlive (v : Board) (hrep : v.representable) (p : Point) :
    (isValidPoint (some v) p = Except.ok true →
      ∃ a, IsAlive (some v) p = Except.ok (a, none) ∧
        IsDead (some v) p = Except.ok (!a, none)) ∧
    (∀ (b : Option Board) (q : Point) (a : Bool) (e : Error),
      IsAlive b q = Except.ok (a, some e) → ∃ d, IsDead b q = Except.ok (d, some e)) := by
  constructor
  · intro hp
    have hpos : 0 < v.rows := by
      by_contra hneg
      have : ¬ (p.Row ≥ 0 ∧ p.Row < v.rows ∧ p.Column ≥ 0) := by omega
      simp [isValidPoint, this, pure, Except.pure] at hp
    rw [isValidPoint_eq v hrep hpos] at hp
    have hp' : v.inBounds p := by simpa using hp
    refine ⟨v.cellBit p, IsAlive_inBounds v hrep p hp', ?_⟩
    rw [IsDead_eq, IsAlive_inBounds v hrep p hp']
    rfl
  · intro b q a e h
    exact ⟨!a, by rw [IsDead_eq, h]; rfl⟩

/-- C11 at the test board: the live cell (1,1), and the point (0,5) outside
the bounds, which both queries reject with the same error. -/
theorem IsDead_negates_IsAlive_witness :
    blinkerBoard.representable ∧
    isValidPoint (some blinkerBoard) ⟨1, 1⟩ = Except.ok true ∧
    IsAlive (some blinkerBoard) ⟨1, 1⟩ = Except.ok (true, none) ∧
    IsDead (some blinkerBoard) ⟨1, 1⟩ = Except.ok (false, none) ∧
    IsAlive (some blinkerBoard) ⟨0, 5⟩ =
      Except.ok (false, some (Error.invalidPoint ⟨3, 3, ⟨0, 5⟩, none⟩)) ∧
    (∃ a, IsAlive (some blinkerBoard) ⟨1, 1⟩ = Except.ok (a, none) ∧
        IsDead (some blinkerBoard) ⟨1, 1⟩ = Except.ok (!a, none)) ∧
    (∃ d, IsDead (some blinkerBoard) ⟨0, 5⟩ =
      Except.ok (d, some (Error.invalidPoint ⟨3, 3, ⟨0, 5⟩, none⟩))) :=
  ⟨by decide, by decide, by decide, by decide, by decide,
    (IsDead_negates_IsAlive blinkerBoard (by decide) ⟨1, 1⟩).1 (by decide),
    (IsDead_negates_IsAlive blinkerBoard (by decide) ⟨1, 1⟩).2 (some blinkerBoard) ⟨0, 5⟩
      false _ (by decide)⟩

end Board

theorem wrapInt_pred_ne (x : Int) : wrapInt (x - 1) ≠ x := by
  unfold wrapInt; omega

theorem wrapInt_succ_ne (x : Int) : wrapInt (x + 1) ≠ x := by
  unfold wrapInt; omega

theorem wrapInt_pred_ne_succ (x : Int) : wrapInt (x - 1) ≠ wrapInt (x + 1) := by
  unfold wrapInt; omega

/-- C12 (counterexample): at a point in the last row of the `int` range,
`Row + 1` wraps around: the point `(minInt, 0)` is in `Neighbours`, and its
row is not within distance 1 of the row of the point. -/
theorem Neighbours_wraps_counterexample :
    (⟨minInt, 0⟩ : Point) ∈ (⟨maxInt, 0⟩ : Point).Neighbours ∧
    ¬ (|(⟨minInt, 0⟩ : Point).Row - (⟨maxInt, 0⟩ : Point).Row| ≤ 1) := by
  constructor
  · decide
  · simp only [minInt, maxInt]
    norm_num

theorem mem_Neighbours (p q : Point) :
    q ∈ p.Neighbours ↔ q ≠ p ∧
      (q.Row = wrapInt (p.Row - 1) ∨ q.Row = p.Row ∨ q.Row = wrapInt (p.Row + 1)) ∧
      (q.Column = wrapInt (p.Column - 1) ∨ q.Column = p.Column ∨
        q.Column = wrapInt (p.Column + 1)) := by
  obtain ⟨r, c⟩ := p
  obtain ⟨qr, qc⟩ := q
  have h1 := wrapInt_pred_ne r
  have h2 := wrapInt_succ_ne r
  have h3 := wrapInt_pred_ne c
  have h4 := wrapInt_succ_ne c
  simp only [Point.Neighbours, List.mem_cons, List.mem_singleton, List.not_mem_nil, or_false,
    Point.mk.injEq, ne_eq, not_and]
  generalize wrapInt (r - 1) = a at *
  generalize wrapInt (r + 1) = b at *
  generalize wrapInt (c - 1) = d at *
  generalize wrapInt (c + 1) = e at *
  constructor
  · rintro (⟨rfl, rfl⟩ | ⟨rfl, rfl⟩ | ⟨rfl, rfl⟩ | ⟨rfl, rfl⟩ | ⟨rfl, rfl⟩ | ⟨rfl, rfl⟩ |
      ⟨rfl, rfl⟩ | ⟨rfl, rfl⟩) <;> simp [h1, h2, h3, h4]
  · rintro ⟨hne, rfl | rfl | rfl, rfl | rfl | rfl⟩ <;> simp at hne ⊢

theorem Neighbours_nodup (p : Point) : p.Neighbours.Nodup := by
  obtain ⟨r, c⟩ := p
  have h1 := wrapInt_pred_ne r
  have h2 := wrapInt_succ_ne r
  have h3 := wrapInt_pred_ne c
  have h4 := wrapInt_succ_ne c
  have h5 := wrapInt_pred_ne_succ r
  have h6 := wrapInt_pred_ne_succ c
  simp only [Point.Neighbours, List.nodup_cons, List.mem_cons, List.mem_singleton,
    List.not_mem_nil, or_false, Point.mk.injEq, List.nodup_nil, not_or, not_and, and_true,
    not_false_eq_true]
  generalize wrapInt (r - 1) = a at *
  generalize wrapInt (r + 1) = b at *
  generalize wrapInt (c - 1) = d at *
  generalize wrapInt (c + 1) = e at *
  omega

/-- C12 (amended): `Neighbours(p)` is a list of exactly 8 pairwise-distinct
points, computed from `p` alone; `q` is in it exactly when `q ≠ p` and each
coordinate of `q` is that of `p`, or it plus or minus one with 64-bit
wrap-around; when the coordinates of `p` are strictly inside the `int` range,
that is `|q.Row - p.Row| ≤ 1` and `|q.Column - p.Column| ≤ 1`. -/
theorem Neighbours_is_moore_neighbourhood (p : Point) :
    p.Neighbours.length = 8 ∧ p.Neighbours.Nodup ∧
    (∀ q, q ∈ p.Neighbours ↔ q ≠ p ∧
      (q.Row = wrapInt (p.Row - 1) ∨ q.Row = p.Row ∨ q.Row = wrapInt (p.Row + 1)) ∧
      (q.Column = wrapInt (p.Column - 1) ∨ q.Column = p.Column ∨
        q.Column = wrapInt (p.Column + 1))) ∧
    (minInt < p.Row ∧ p.Row < maxInt ∧ minInt < p.Column ∧ p.Column < maxInt →
      ∀ q, q ∈ p.Neighbours ↔
        q ≠ p ∧ |q.Row - p.Row| ≤ 1 ∧ |q.Column - p.Column| ≤ 1) := by
  refine ⟨rfl, Neighbours_nodup p, mem_Neighbours p, ?_⟩
  rintro ⟨hr0, hr1, hc0, hc1⟩ q
  unfold minInt at hr0 hc0
  unfold maxInt at hr1 hc1
  have e1 : wrapInt (p.Row - 1) = p.Row - 1 := by unfold wrapInt; omega
  have e2 : wrapInt (p.Row + 1) = p.Row + 1 := by unfold wrapInt; omega
  have e3 : wrapInt (p.Column - 1) = p.Column - 1 := by unfold wrapInt; omega
  have e4 : wrapInt (p.Column + 1) = p.Column + 1 := by unfold wrapInt; omega
  rw [mem_Neighbours, e1, e2, e3, e4, abs_le, abs_le]
  constructor
  · rintro ⟨hne, hr, hc⟩
    exact ⟨hne, by omega, by omega⟩
  · rintro ⟨hne, hr, hc⟩
    exact ⟨hne, by omega, by omega⟩

/-- C12 (amended) at the point (1,1), with the list it yields. -/
theorem Neighbours_is_moore_neighbourhood_witness :
    (minInt < (⟨1, 1⟩ : Point).Row ∧ (⟨1, 1⟩ : Point).Row < maxInt ∧
      minInt < (⟨1, 1⟩ : Point).Column ∧ (⟨1, 1⟩ : Point).Column < maxInt) ∧
    (⟨1, 1⟩ : Point).Neighbours =
      [⟨0, 0⟩, ⟨0, 1⟩, ⟨0, 2⟩, ⟨1, 0⟩, ⟨1, 2⟩, ⟨2, 0⟩, ⟨2, 1⟩, ⟨2, 2⟩] ∧
    (∀ q, q ∈ (⟨1, 1⟩ : Point).Neighbours ↔
      q ≠ ⟨1, 1⟩ ∧ |q.Row - (⟨1, 1⟩ : Point).Row| ≤ 1 ∧
        |q.Column - (⟨1, 1⟩ : Point).Column| ≤ 1) :=
  ⟨by decide, by decide,
    (Neighbours_is_moore_neighbourhood ⟨1, 1⟩).2.2.2 (by decide)⟩

namespace Board

/-- Every `InvalidPointError` returned by `IsAlive` carries the queried point
and the board's `Rows()` and `Columns()`. -/
theorem IsAlive_error_fields (v : Board) (p : Point) (a : Bool) (e : InvalidPointError)
    (h : IsAlive (some v) p = Except.ok (a, some (Error.invalidPoint e))) :
    e.Point = p ∧ e.Rows = Rows (some v) ∧ Columns (some v) = Except.ok e.Columns := by
  simp only [IsAlive, bind, Except.bind, pure, Except.pure] at h
  cases hvalid : isValidPoint (some v) p with
  | error pn => rw [hvalid] at h; simp at h
  | ok valid =>
    rw [hvalid] at h
    cases hcol : Columns (some v) with
    | error pn =>
      simp only [isValidPoint, hcol, bind, Except.bind] at hvalid
      simp only [pointToBitPosition, hcol, bind, Except.bind] at h
      cases valid <;> simp at h
    | ok c =>
      simp only [pointToBitPosition, hcol, bind, Except.bind, pure, Except.pure] at h
      cases valid with
      | false =>
        simp only [Bool.not_false, if_true, Except.ok.injEq, Prod.mk.injEq,
          Option.some.injEq, Error.invalidPoint.injEq] at h
        obtain ⟨_, rfl⟩ := h
        exact ⟨rfl, rfl, rfl⟩
      | true =>
        simp only [Bool.not_true, Bool.false_eq_true, if_false] at h
        split at h
        · simp only [Except.ok.injEq, Prod.mk.injEq, Option.some.injEq,
            Error.invalidPoint.injEq] at h
          obtain ⟨_, rfl⟩ := h
          exact ⟨rfl, rfl, rfl⟩
        · simp at h

/-- Every `InvalidPointError` returned by `Set` has only its `Rows` field
filled in: `Columns` is 0 and `Point` is the zero point. -/
theorem Set_error_fields (v v' : Board) (p : Point) (a : Bool) (e : InvalidPointError)
    (h : Set (some v) p a = Except.ok (v', some (Error.invalidPoint e))) :
    e = ⟨v.rows, 0, ⟨0, 0⟩, none⟩ := by
  simp only [Set, bind, Except.bind, pure, Except.pure] at h
  cases hpos : pointToBitPosition (some v) p with
  | error pn => rw [hpos] at h; simp at h
  | ok pos =>
    rw [hpos] at h
    simp only at h
    split at h
    · simp only [Except.ok.injEq, Prod.mk.injEq, Option.some.injEq,
        Error.invalidPoint.injEq] at h
      exact h.2.symm
    · simp at h

/-- C13 (failing input): on the board of `New(3, 3)`, `Set` at the point (5,5)
returns an `InvalidPointError` whose `Columns` is 0 and whose `Point` is (0,0),
where the board has 3 columns and the offending point is (5,5); `IsAlive` at
the same point fills in all three fields. -/
theorem Set_error_drops_point_and_columns :
    New 3 3 = (some deadBoard, none) ∧
    Columns (some deadBoard) = Except.ok 3 ∧
    Set (some deadBoard) ⟨5, 5⟩ true =
      Except.ok (deadBoard, some (Error.invalidPoint ⟨3, 0, ⟨0, 0⟩, none⟩)) ∧
    IsAlive (some deadBoard) ⟨5, 5⟩ =
      Except.ok (false, some (Error.invalidPoint ⟨3, 3, ⟨5, 5⟩, none⟩)) := by
  decide

end Board

/-! ### `Start` and `Close` outside their state, for a call that holds the mutex -/

namespace Runner

/-- Once it holds the mutex, in any state other than `Stopped`, `Start`
returns an error and leaves the runner as it was, every field included; no
loop is launched. -/
theorem Start_outside_Stopped_is_rejected (g : Runner) (h : g.state ≠ State.Stopped) :
    (Start g).result = Except.ok (some (RunnerError.cannotStart g.state.String)) ∧
    (Start g).runner = g ∧ (Start g).launched = 0 := by
  simp [Start, start, h]

/-- A started runner: a second `Start` that gets the mutex is rejected. -/
theorem Start_outside_Stopped_is_rejected_witness :
    runnerStarted.state ≠ State.Stopped ∧
    (Start runnerStarted).result = Except.ok (some (RunnerError.cannotStart "Running")) ∧
    (Start runnerStarted).runner = runnerStarted ∧ (Start runnerStarted).launched = 0 :=
  ⟨by decide, Start_outside_Stopped_is_rejected runnerStarted (by decide)⟩

/-- Once it holds the mutex, in any state other than `Running`, `Close`
returns an error and leaves the runner as it was: same state, clock not
stopped, context not cancelled, whichever case its `select` would have taken. -/
theorem Close_outside_Running_is_rejected (g : Runner) (stopped : Bool)
    (h : g.state ≠ State.Running) :
    Close g stopped = (g, Except.ok (some (RunnerError.cannotClose g.state.String))) ∧
    (Close g stopped).1.state = g.state ∧ (Close g stopped).1.clock = g.clock ∧
    (Close g stopped).1.ctx = g.ctx := by
  have : Close g stopped =
      (g, Except.ok (some (RunnerError.cannotClose g.state.String))) := by
    simp [Close, close, closeEnter, h]
  rw [this]
  exact ⟨rfl, rfl, rfl, rfl⟩

/-- A freshly built runner, which was never started: `Close` is rejected. -/
theorem Close_outside_Running_is_rejected_witness :
    runnerBuilt.state ≠ State.Running ∧
    Close runnerBuilt true =
      (runnerBuilt, Except.ok (some (RunnerError.cannotClose "Stopped"))) ∧
    (Close runnerBuilt true).1.state = runnerBuilt.state ∧
    (Close runnerBuilt true).1.clock = runnerBuilt.clock ∧
    (Close runnerBuilt true).1.ctx = runnerBuilt.ctx :=
  ⟨by decide, Close_outside_Running_is_rejected runnerBuilt true (by decide)⟩

/-! ### The state after `Start` (C16) -/

theorem startBody_launched (g : Runner) :
    ((startBody g).launched = 1 ↔ (startBody g).result = Except.ok none) ∧
    (startBody g).launched ≤ 1 := by
  unfold startBody
  cases startClock g with
  | error pn => simp
  | ok clock =>
    dsimp only
    cases withCancelCause g.options.baseCtx with
    | error pn => simp
    | ok ctx =>
      dsimp only
      rcases startBoard _ with ⟨g3, r3⟩
      cases r3 with
      | error pn => simp
      | ok err =>
        dsimp only
        rcases startInit g3 err with ⟨g4, r4⟩
        cases r4 with
        | error pn => simp
        | ok e => cases e <;> simp

/-- From `Stopped`, `Start` always leaves the state `Running`, whatever it
returns; the loop is launched, once, exactly when it returns no error. -/
theorem Start_from_Stopped (g : Runner) (h : g.state = State.Stopped) :
    (Start g).runner.state = State.Running ∧
    ((Start g).launched = 1 ↔ (Start g).result = Except.ok none) ∧
    (Start g).launched ≤ 1 := by
  have hb := startBody_launched { g with state := State.Starting }
  have e : Start g =
      ⟨{ (startBody { g with state := State.Starting }).runner with state := State.Running },
        (startBody { g with state := State.Starting }).result,
        (startBody { g with state := State.Starting }).launched⟩ := by
    simp [Start, start, h]
  rw [e]
  exact ⟨rfl, hb.1, hb.2⟩

/-- C16 (failing input): a runner built with `WithBoardSize(-1, 1)` is in
state `Stopped`; `Start` returns the construction error of `board.New` and
launches no loop, and the deferred assignment leaves the state `Running`. -/
theorem Start_error_leaves_state_Running :
    runnerBadSize.state = State.Stopped ∧
    (Start runnerBadSize).result =
      Except.ok (some (RunnerError.board (Error.newBoard (BitMapError.badLength (-1))))) ∧
    (Start runnerBadSize).runner.state = State.Running ∧
    (Start runnerBadSize).launched = 0 := by
  decide

/-! ### The listener list (C18) -/

theorem filter_length_add_count {α : Type} [BEq α] [LawfulBEq α] (s : List α) (l : α) :
    (s.filter (fun cur => !(cur == l))).length + s.count l = s.length := by
  induction s with
  | nil => simp
  | cons x rest ih =>
    by_cases hx : x = l
    · subst hx
      simp [List.filter_cons, List.count_cons]
      omega
    · have hbeq : (x == l) = false := by simpa using hx
      simp [List.filter_cons, List.count_cons, hbeq]
      omega

/-- C18 (failing input): `RemoveListener` drops the slice returned by
`slices.DeleteFunc`, so the list keeps its length: the kept listeners move to
the front and each removed entry leaves a `nil` channel at the end. Removing
the listener just added to an empty list leaves the list `[nil]`. -/
theorem RemoveListener_leaves_nil_entries (g : Runner) (c : Nat) :
    (RemoveListener g (some c)).options.listeners =
      g.options.listeners.filter (fun cur => !(cur == some c)) ++
        List.replicate (g.options.listeners.count (some c)) none ∧
    (RemoveListener g (some c)).options.listeners.length = g.options.listeners.length ∧
    (RemoveListener (AddListener (New []).1 (some c)) (some c)).options.listeners = [none] ∧
    (New []).1.options.listeners = [] := by
  have hlen := filter_length_add_count g.options.listeners (some c)
  have hcount : g.options.listeners.length -
      (g.options.listeners.filter (fun cur => !(cur == some c))).length =
      g.options.listeners.count (some c) := by
    rw [← hlen]
    exact Nat.add_sub_cancel_left _ _
  refine ⟨?_, ?_, ?_, rfl⟩
  · simp only [RemoveListener, slicesDeleteFunc, hcount]
  · simp only [RemoveListener, slicesDeleteFunc, hcount, List.length_append,
      List.length_replicate]
    exact hlen
  · simp [RemoveListener, AddListener, New, slicesDeleteFunc, defaultOptions]

/-! ### The initial board of `Start` (C17) -/

theorem writeCurrent_fields (g : Runner) (b : Board) :
    (writeCurrent g b).currentBoard = some b ∧
    (writeCurrent g b).options.boardRows = g.options.boardRows ∧
    (writeCurrent g b).options.boardColumns = g.options.boardColumns ∧
    (writeCurrent g b).options.initFn = g.options.initFn := by
  unfold writeCurrent
  cases g.options.initBoard <;> exact ⟨rfl, rfl, rfl, rfl⟩

theorem startInitLoop_inBounds (fn : Point → Bool) (ps : List Point) (g : Runner) (v : Board)
    (hv : g.currentBoard = some v) (hrep : v.representable)
    (hps : ∀ p ∈ ps, v.inBounds p) :
    ∃ g' v', startInitLoop fn ps g none = (g', Except.ok none) ∧
      g'.currentBoard = some v' ∧ v'.rows = v.rows ∧ v'.data.Length = v.data.Length ∧
      g'.options.boardRows = g.options.boardRows ∧
      g'.options.boardColumns = g.options.boardColumns ∧
      ∀ q, v.inBounds q → v'.cellBit q = if q ∈ ps then fn q else v.cellBit q := by
  induction ps generalizing g v with
  | nil => exact ⟨g, v, rfl, hv, rfl, rfl, rfl, rfl, by simp⟩
  | cons p rest ih =>
    have hp := hps p (List.mem_cons_self _ _)
    have hset := Board.Set_inBounds v hrep p (fn p) hp
    have hw := writeCurrent_fields g (v.setBit p (fn p))
    have hrep1 := (Board.setBit_representable v p (fn p)).mpr hrep
    have hrest : ∀ x ∈ rest, (v.setBit p (fn p)).inBounds x :=
      fun x hx => (Board.setBit_inBounds v p (fn p) x).mpr (hps x (List.mem_cons_of_mem _ hx))
    obtain ⟨g', v', hrun, hcur, hrows, hlen, hbr, hbc, hbits⟩ :=
      ih (writeCurrent g (v.setBit p (fn p))) (v.setBit p (fn p)) hw.1 hrep1 hrest
    refine ⟨g', v', ?_, hcur, ?_, ?_, ?_, ?_, ?_⟩
    · simp only [startInitLoop, hv, hset, errorsJoin]
      exact hrun
    · rw [hrows]; rfl
    · rw [hlen, Board.setBit_Length]
    · rw [hbr, hw.2.1]
    · rw [hbc, hw.2.2.1]
    · intro q hq
      rw [hbits q ((Board.setBit_inBounds v p (fn p) q).mpr hq),
        Board.cellBit_setBit v p q (fn p) hp hq]
      by_cases hqp : q = p
      · subst hqp; simp
      · simp [hqp]

theorem startInit_of_board (g : Runner) (b : Board) (hcur : g.currentBoard = some b)
    (hrep : b.representable) (hne : b.rows ≠ 0) :
    ∃ g' b', startInit g none = (g', Except.ok none) ∧
      g'.currentBoard = some b' ∧ b'.rows = b.rows ∧ b'.data.Length = b.data.Length ∧
      g'.options.boardRows = g.options.boardRows ∧
      g'.options.boardColumns = g.options.boardColumns ∧
      (g.options.initFn = none → b' = b) ∧
      (∀ fn, g.options.initFn = some fn → ∀ q, b.inBounds q → b'.cellBit q = fn q) := by
  unfold startInit
  cases hfn : g.options.initFn with
  | none => exact ⟨g, b, rfl, hcur, rfl, rfl, rfl, rfl, fun _ => rfl, fun fn h => by simp at h⟩
  | some fn =>
    rcases lt_or_gt_of_ne hne with hneg | hpos
    · have hP : Board.Points g.currentBoard = Except.ok [] := by
        rw [hcur]; exact Board.Points_of_nonpos b (le_of_lt hneg)
      refine ⟨g, b, by simp [hP, startInitLoop], hcur, rfl, rfl, rfl, rfl, fun h => by simp at h,
        ?_⟩
      intro fn' _ q hq
      have := hq.1; have := hq.2.1
      omega
    · have hpos : 0 < b.rows := hpos
      have hP : Board.Points g.currentBoard =
          Except.ok (gridPoints (forRange b.rows) b.cols) := by
        rw [hcur]; exact Board.Points_eq b hrep hpos
      have hmem : ∀ p, p ∈ gridPoints (forRange b.rows) b.cols ↔ b.inBounds p := by
        intro p
        rw [Board.mem_gridPoints, Board.mem_forRange]
        unfold Board.inBounds
        tauto
      obtain ⟨g', v', hrun, hcur', hrows, hlen, hbr, hbc, hbits⟩ :=
        startInitLoop_inBounds fn _ g b hcur hrep (fun p hp => (hmem p).mp hp)
      refine ⟨g', v', by simp only [hP]; exact hrun, hcur', hrows, hlen, hbr, hbc,
        fun h => by simp at h, ?_⟩
      intro fn' hfn' q hq
      simp only [Option.some.injEq] at hfn'
      subst hfn'
      rw [hbits q hq, if_pos ((hmem q).mpr hq)]

/-- C17 (counterexample): with the test board supplied and an initializer that
makes every cell dead, `Start` succeeds and the current board is all dead: at
(1,1) the supplied board is alive and the current board is not. -/
theorem Start_applies_initFn_to_initBoard_counterexample :
    runnerBoardAndInit.options.initBoard = some Board.blinkerBoard ∧
    (Start runnerBoardAndInit).result = Except.ok none ∧
    (Start runnerBoardAndInit).runner.currentBoard = some Board.deadBoard ∧
    Board.IsAlive (some Board.blinkerBoard) ⟨1, 1⟩ = Except.ok (true, none) ∧
    Board.IsAlive (Start runnerBoardAndInit).runner.currentBoard ⟨1, 1⟩ =
      Except.ok (false, none) := by
  decide

theorem startBody_ok (g : Runner) (h : (startBody g).result = Except.ok none) :
    ∃ clock ctx g3 err g4, startClock g = Except.ok clock ∧
      withCancelCause g.options.baseCtx = Except.ok ctx ∧
      startBoard
        { g with clock := some clock, isStoppedChan := some ⟨false⟩, ctx := some ctx } =
        (g3, Except.ok err) ∧
      startInit g3 err = (g4, Except.ok none) ∧ (startBody g).runner = g4 := by
  unfold startBody at h ⊢
  cases hclock : startClock g with
  | error pn => simp [hclock] at h
  | ok clock =>
    simp only [hclock] at h ⊢
    cases hctx : withCancelCause g.options.baseCtx with
    | error pn => simp [hctx] at h
    | ok ctx =>
      simp only [hctx] at h ⊢
      generalize hsb : startBoard
        { g with clock := some clock, isStoppedChan := some ⟨false⟩, ctx := some ctx } =
        sb at h ⊢
      obtain ⟨g3, r3⟩ := sb
      cases r3 with
      | error pn => simp at h
      | ok err =>
        simp only at h ⊢
        generalize hsi : startInit g3 err = si at h ⊢
        obtain ⟨g4, r4⟩ := si
        cases r4 with
        | error pn => simp at h
        | ok e =>
          cases e with
          | some e => simp at h
          | none => exact ⟨clock, ctx, g3, err, g4, rfl, rfl, hsb, hsi, rfl⟩

/-- C17 (amended): when an initial board is supplied, after a successful
`Start` `BoardSize()` reports the dimensions of the supplied board, whatever
size was configured, and the current board has those dimensions; without an
initializer the current board is the supplied board; with an initializer the
current board has at every in-bounds point `p` the liveness `initFn(p)`. -/
theorem Start_with_initBoard (g : Runner) (b : Board) (hrep : b.representable)
    (hb : g.options.initBoard = some b) (hok : (Start g).result = Except.ok none) :
    ∃ c b', Board.Columns (some b) = Except.ok c ∧
      BoardSize (Start g).runner = (Board.Rows (some b), c) ∧
      (Start g).runner.currentBoard = some b' ∧
      Board.Rows (some b') = Board.Rows (some b) ∧
      Board.Columns (some b') = Except.ok c ∧
      (g.options.initFn = none → b' = b) ∧
      (∀ fn, g.options.initFn = some fn →
        ∀ p, Board.isValidPoint (some b) p = Except.ok true →
          Board.IsAlive (some b') p = Except.ok (fn p, none)) := by
  by_cases hst : g.state = State.Stopped
  swap
  · simp [Start, start, hst] at hok
  have e : Start g =
      ⟨{ (startBody { g with state := State.Starting }).runner with state := State.Running },
        (startBody { g with state := State.Starting }).result,
        (startBody { g with state := State.Starting }).launched⟩ := by
    simp [Start, start, hst]
  rw [e] at hok ⊢
  obtain ⟨clock, ctx, g3, err, g4, _, _, hsb, hsi, hrunner⟩ := startBody_ok _ hok
  simp only [hrunner]
  simp only [startBoard, hb] at hsb
  cases hcol : Board.Columns (some b) with
  | error pn => simp [hcol] at hsb
  | ok c =>
    simp only [hcol, Prod.mk.injEq, Except.ok.injEq] at hsb
    obtain ⟨hg3, herr⟩ := hsb
    subst herr
    have hne : b.rows ≠ 0 := by
      intro hz
      simp [Board.Columns, goDiv, hz, throw, throwThe, MonadExceptOf.throw] at hcol
    have hcur3 : g3.currentBoard = some b := by rw [← hg3]
    have hbr3 : g3.options.boardRows = Board.Rows (some b) := by rw [← hg3]
    have hbc3 : g3.options.boardColumns = c := by rw [← hg3]
    have hfn3 : g3.options.initFn = g.options.initFn := by rw [← hg3]
    obtain ⟨g', b', hrun, hcur, hrows, hlen, hbr, hbc, hnone, hsome⟩ :=
      startInit_of_board g3 b hcur3 hrep hne
    rw [hrun] at hsi
    simp only [Prod.mk.injEq, and_true] at hsi
    subst hsi
    have hcol' : Board.Columns (some b') = Except.ok c := by
      rw [← hcol]
      simp only [Board.Columns, hrows, hlen]
    refine ⟨c, b', rfl, ?_, hcur, ?_, hcol', fun h => hnone (hfn3.trans h), ?_⟩
    · simp only [BoardSize, hbr, hbc, hbr3, hbc3]
    · simp only [Board.Rows, hrows]
    · intro fn hfn p hp
      have hpos : 0 < b.rows := by
        by_contra hneg
        have : ¬ (p.Row ≥ 0 ∧ p.Row < b.rows ∧ p.Column ≥ 0) := by omega
        simp [Board.isValidPoint, this, pure, Except.pure] at hp
      rw [Board.isValidPoint_eq b hrep hpos] at hp
      have hp' : b.inBounds p := by simpa using hp
      have hrep' : b'.representable :=
        ⟨by rw [hrows]; exact hrep.1, by rw [hlen]; exact hrep.2⟩
      have hp'' : b'.inBounds p := by
        unfold Board.inBounds Board.cols at hp' ⊢
        rw [hrows, hlen]; exact hp'
      rw [Board.IsAlive_inBounds b' hrep' p hp'', hsome fn (hfn3.trans hfn) p hp']

/-- C17 (amended) at the runner built with the test board, a size of 7 × 9
and an all-dead initializer. -/
theorem Start_with_initBoard_witness :
    Board.blinkerBoard.representable ∧
    runnerBoardAndInit.options.initBoard = some Board.blinkerBoard ∧
    (Start runnerBoardAndInit).result = Except.ok none ∧
    BoardSize runnerBoardAndInit = (7, 9) ∧
    ∃ c b', Board.Columns (some Board.blinkerBoard) = Except.ok c ∧
      BoardSize (Start runnerBoardAndInit).runner = (Board.Rows (some Board.blinkerBoard), c) ∧
      (Start runnerBoardAndInit).runner.currentBoard = some b' ∧
      Board.Rows (some b') = Board.Rows (some Board.blinkerBoard) ∧
      Board.Columns (some b') = Except.ok c ∧
      (runnerBoardAndInit.options.initFn = none → b' = Board.blinkerBoard) ∧
      (∀ fn, runnerBoardAndInit.options.initFn = some fn →
        ∀ p, Board.isValidPoint (some Board.blinkerBoard) p = Except.ok true →
          Board.IsAlive (some b') p = Except.ok (fn p, none)) :=
  ⟨by decide, rfl, by decide, by decide,
    Start_with_initBoard runnerBoardAndInit Board.blinkerBoard (by decide) rfl (by decide)⟩

end Runner

/-! ### `Close` while a broadcast is stuck (C19) -/

namespace World

theorem Stuck_step (advance : Option Board → Go (Option Board × Option Error)) (w : World)
    (i : Nat) (h : Stuck w i) (m : Move) :
    Stuck ((step advance m w).getD w) i ∧
      ((step advance m w).getD w).runner.state = w.runner.state := by
  obtain ⟨hpc, hmu, hcl, hb, hl⟩ := h
  obtain ⟨b, hb'⟩ := Option.isSome_iff_exists.mp hb
  have hloop : ∀ takeTick, stepLoop advance takeTick w = none := by
    intro takeTick
    rcases hl with hl | ⟨c, hl, hacc⟩
    · simp [stepLoop, hpc, hl, hb', Board.Clone, pure, Except.pure]
    · simp [stepLoop, hpc, hl, hb', Board.Clone, pure, Except.pure, hacc]
  have hclose : ∀ timeout, stepClose timeout w = none := by
    intro timeout
    simp [stepClose, hcl, hmu]
  cases m with
  | loop takeTick =>
    have e : (step advance (Move.loop takeTick) w).getD w = w := by
      simp only [step, hpc, hloop, Option.getD_none]
    rw [e]
    exact ⟨⟨hpc, hmu, hcl, hb, hl⟩, rfl⟩
  | close timeout =>
    have e : (step advance (Move.close timeout) w).getD w = w := by
      simp only [step, hpc, hclose, Option.getD_none]
    rw [e]
    exact ⟨⟨hpc, hmu, hcl, hb, hl⟩, rfl⟩
  | tick =>
    have e : (step advance Move.tick w).getD w = w ∨
        (step advance Move.tick w).getD w = { w with tick := true } := by
      simp only [step, hpc, stepTick]
      split
      · exact Or.inr rfl
      · exact Or.inl rfl
    rcases e with e | e <;> rw [e] <;> exact ⟨⟨hpc, hmu, hcl, hb, hl⟩, rfl⟩
  | cancelBase =>
    have e : (step advance Move.cancelBase w).getD w =
        { w with runner := { w.runner with
            options := { w.runner.options with
              baseCtx := w.runner.options.baseCtx.map fun _ => ⟨true⟩ }
            ctx := w.runner.ctx.map fun _ => ⟨true⟩ } } := by
      simp only [step, hpc, stepCancelBase, Option.getD_some]
    rw [e]
    exact ⟨⟨hpc, hmu, hcl, hb, hl⟩, rfl⟩

/-- Once the loop is stuck in a broadcast and `Close` waits for the mutex, no
run changes that: `Close` never returns and the state is never written. -/
theorem Stuck_run (advance : Option Board → Go (Option Board × Option Error))
    (moves : List Move) (w : World) (i : Nat) (h : Stuck w i) :
    Stuck (run advance moves w) i ∧ (run advance moves w).runner.state = w.runner.state := by
  induction moves generalizing w with
  | nil => exact ⟨h, rfl⟩
  | cons m rest ih =>
    obtain ⟨h1, hs1⟩ := Stuck_step advance w i h m
    obtain ⟨h2, hs2⟩ := ih _ h1
    exact ⟨h2, hs2.trans hs1⟩

/-- C19 (failing run): a runner is started with one listener, an unbuffered
channel that nobody reads. The loop begins its first broadcast, then `Close`
is called. Whatever happens next (ticks, the grace period elapsing,
cancellation of the base context), `Close` is still at `g.mu.Lock()`, the
mutex is held by the loop blocked in its send, and the state is still
`Running`: `Close` returns neither the timeout error nor anything else. -/
theorem Close_blocks_behind_stuck_broadcast (moves : List Move) :
    stuckWorld.runner.state = State.Running ∧
    stuckWorld.runner.options.listeners = [some 0] ∧
    (run Board.NextBoard (Move.loop false :: Move.close false :: Move.close false :: moves)
      stuckWorld).closePc = ClosePc.lock ∧
    (run Board.NextBoard (Move.loop false :: Move.close false :: Move.close false :: moves)
      stuckWorld).mu = some Thread.loop ∧
    (run Board.NextBoard (Move.loop false :: Move.close false :: Move.close false :: moves)
      stuckWorld).loopPc = LoopPc.send 0 ∧
    (run Board.NextBoard (Move.loop false :: Move.close false :: Move.close false :: moves)
      stuckWorld).runner.state = State.Running := by
  have hstuck : Stuck (run Board.NextBoard [Move.loop false, Move.close false, Move.close false]
      stuckWorld) 0 := by
    refine ⟨by decide, by decide, by decide, by decide, Or.inr ⟨0, by decide, by decide⟩⟩
  have hstate : (run Board.NextBoard [Move.loop false, Move.close false, Move.close false]
      stuckWorld).runner.state = State.Running := by decide
  have hrun : run Board.NextBoard
      (Move.loop false :: Move.close false :: Move.close false :: moves) stuckWorld =
      run Board.NextBoard moves
        (run Board.NextBoard [Move.loop false, Move.close false, Move.close false]
          stuckWorld) := rfl
  obtain ⟨⟨h1, h2, h3, _, _⟩, hs⟩ := Stuck_run Board.NextBoard moves _ 0 hstuck
  rw [hrun]
  exact ⟨by decide, by decide, h3, h2, h1, hs.trans hstate⟩

/-- When `Close` takes the mutex before the loop begins its broadcast, the loop
waits for the mutex, and `Close` returns the timeout error with the state
`Errored` once the grace period has elapsed. -/
theorem Close_times_out_when_it_locks_first :
    (run Board.NextBoard [Move.close false, Move.close false, Move.loop false, Move.close true]
      stuckWorld).closePc =
      ClosePc.returned (some (RunnerError.closeTimeout (60 * 1000000000))) ∧
    (run Board.NextBoard [Move.close false, Move.close false, Move.loop false, Move.close true]
      stuckWorld).runner.state = State.Errored ∧
    (run Board.NextBoard [Move.close false, Move.close false, Move.loop false, Move.close true]
      stuckWorld).loopPc = LoopPc.broadcastLock := by
  decide

/-! ### The loop after a failed board advance -/

/-- After a failed board advance the loop records the error and reaches its
`select` with the state `Errored`; no board is current any more. -/
theorem loop_records_error (advance : Option Board → Go (Option Board × Option Error))
    (w : World) (nb : Option Board) (e : Error) (hpc : w.loopPc = LoopPc.next)
    (hmu : w.mu = none) (hfail : advance w.runner.currentBoard = Except.ok (nb, some e))
    (t1 t2 : Bool) :
    (run advance [Move.loop t1, Move.loop t2] w).loopPc = LoopPc.select ∧
    (run advance [Move.loop t1, Move.loop t2] w).runner.loopError = some e ∧
    (run advance [Move.loop t1, Move.loop t2] w).runner.state = State.Errored ∧
    (run advance [Move.loop t1, Move.loop t2] w).runner.currentBoard = nb ∧
    (run advance [Move.loop t1, Move.loop t2] w).nextCalls = w.nextCalls + 1 ∧
    (run advance [Move.loop t1, Move.loop t2] w).broadcasts = w.broadcasts := by
  simp [run, step, stepLoop, hpc, hfail, hmu, Runner.setLoopError]

/-- At its `select`, the loop returns on cancellation, closing the completion
channel, and on a tick it begins another iteration: it takes the mutex for
the next broadcast. This does not depend on the state or on `loopError`. -/
theorem loop_select (advance : Option Board → Go (Option Board × Option Error))
    (w : World) (ctx : Context) (clock : Ticker) (hpc : w.loopPc = LoopPc.select)
    (hctx : w.runner.ctx = some ctx) (hclock : w.runner.clock = some clock)
    (takeTick : Bool) :
    (ctx.done = true → w.tick = false →
      (run advance [Move.loop takeTick] w).loopPc = LoopPc.exited ∧
      (run advance [Move.loop takeTick] w).runner.isStoppedChan =
        w.runner.isStoppedChan.map fun _ => ⟨true⟩) ∧
    (ctx.done = false → w.tick = true → w.mu = none →
      (run advance [Move.loop takeTick, Move.loop takeTick] w).loopPc = LoopPc.send 0 ∧
      (run advance [Move.loop takeTick, Move.loop takeTick] w).broadcasts =
        w.broadcasts + 1 ∧
      (run advance [Move.loop takeTick, Move.loop takeTick] w).runner.isStoppedChan =
        w.runner.isStoppedChan) := by
  constructor
  · intro hdone htick
    simp [run, step, stepLoop, hpc, hctx, hclock, hdone, htick, closeStoppedChan]
  · intro hdone htick hmu
    simp [run, step, stepLoop, hpc, hctx, hclock, hdone, htick, hmu]

/-- The loop run with a board-advance function that fails, on a started
runner without listeners: it broadcasts, calls the advance, records the error
and sets the state `Errored`. When the ticker then fires, the loop does not
exit: it begins another iteration, makes a second broadcast and a second
advance call, on the `nil` board, where it panics; the completion channel was
not closed at the wake-up. Only a cancellation makes it exit at the `select`. -/
theorem loop_iterates_again_after_error :
    (run (failingAdvance Error.nilPointer)
      [Move.loop false, Move.loop false, Move.loop false, Move.loop false]
      (afterStart runnerQuiet [])).loopPc = LoopPc.select ∧
    (run (failingAdvance Error.nilPointer)
      [Move.loop false, Move.loop false, Move.loop false, Move.loop false]
      (afterStart runnerQuiet [])).runner.state = State.Errored ∧
    (run (failingAdvance Error.nilPointer)
      [Move.loop false, Move.loop false, Move.loop false, Move.loop false]
      (afterStart runnerQuiet [])).runner.loopError = some Error.nilPointer ∧
    (run (failingAdvance Error.nilPointer)
      [Move.loop false, Move.loop false, Move.loop false, Move.loop false]
      (afterStart runnerQuiet [])).broadcasts = 1 ∧
    (run (failingAdvance Error.nilPointer)
      [Move.loop false, Move.loop false, Move.loop false, Move.loop false]
      (afterStart runnerQuiet [])).nextCalls = 1 ∧
    (run (failingAdvance Error.nilPointer)
      [Move.loop false, Move.loop false, Move.loop false, Move.loop false,
        Move.tick, Move.loop false]
      (afterStart runnerQuiet [])).loopPc = LoopPc.broadcastLock ∧
    (run (failingAdvance Error.nilPointer)
      [Move.loop false, Move.loop false, Move.loop false, Move.loop false,
        Move.tick, Move.loop false]
      (afterStart runnerQuiet [])).runner.isStoppedChan = some ⟨false⟩ ∧
    (run (failingAdvance Error.nilPointer)
      [Move.loop false, Move.loop false, Move.loop false, Move.loop false,
        Move.tick, Move.loop false, Move.loop false, Move.loop false, Move.loop false]
      (afterStart runnerQuiet [])).broadcasts = 2 ∧
    (run (failingAdvance Error.nilPointer)
      [Move.loop false, Move.loop false, Move.loop false, Move.loop false,
        Move.tick, Move.loop false, Move.loop false, Move.loop false, Move.loop false]
      (afterStart runnerQuiet [])).nextCalls = 2 ∧
    (run (failingAdvance Error.nilPointer)
      [Move.loop false, Move.loop false, Move.loop false, Move.loop false,
        Move.tick, Move.loop false, Move.loop false, Move.loop false, Move.loop false]
      (afterStart runnerQuiet [])).loopPc = LoopPc.panicked Panic.nilDereference ∧
    (run (failingAdvance Error.nilPointer)
      [Move.loop false, Move.loop false, Move.loop false, Move.loop false,
        Move.cancelBase, Move.loop false]
      (afterStart runnerQuiet [])).loopPc = LoopPc.exited ∧
    (run (failingAdvance Error.nilPointer)
      [Move.loop false, Move.loop false, Move.loop false, Move.loop false,
        Move.cancelBase, Move.loop false]
      (afterStart runnerQuiet [])).runner.isStoppedChan = some ⟨true⟩ := by
  decide

/-! ### The boards delivered by the execution loop (C21) -/

theorem deliveries_full (b : Option Board) (listeners : List Listener) (n i : Nat)
    (hi : listeners.length ≤ i) :
    deliveries b listeners n i = deliveries b listeners (n + 1) 0 := by
  simp [deliveries, List.range_succ, List.take_of_length_le hi]

theorem deliveries_succ (b : Option Board) (listeners : List Listener) (n i : Nat)
    (l : Listener) (hl : listeners[i]? = some l) :
    deliveries b listeners n (i + 1) =
      deliveries b listeners n i ++ [(l, Board.generationClone b n)] := by
  simp [deliveries, List.take_succ, hl]

theorem InOrder_of_SameLoop (b : Option Board) (listeners : List Listener) (w w' : World)
    (h : InOrder b listeners w) (hs : SameLoop w w') : InOrder b listeners w' := by
  obtain ⟨h1, h2, h3, h4, h5⟩ := h
  obtain ⟨s1, s2, s3, s4, s5, s6⟩ := hs
  unfold InOrder delivered progress at *
  rw [s1, s2, s3, s4, s5, s6]
  exact ⟨h1, h2, h3, h4, h5⟩

theorem closeEnter_fields (g : Runner) :
    g.closeEnter.1.options = g.options ∧ g.closeEnter.1.currentBoard = g.currentBoard := by
  unfold Runner.closeEnter
  split
  · exact ⟨rfl, rfl⟩
  · dsimp only
    cases g.clock with
    | none => exact ⟨rfl, rfl⟩
    | some t =>
      dsimp only
      cases g.ctx with
      | none => exact ⟨rfl, rfl⟩
      | some c => exact ⟨rfl, rfl⟩

theorem stepClose_SameLoop (timeout : Bool) (w w' : World)
    (hs : stepClose timeout w = some w') : SameLoop w w' := by
  have hf := closeEnter_fields w.runner
  unfold stepClose at hs
  cases hpc : w.closePc with
  | idle =>
    simp only [hpc, Option.some.injEq] at hs
    subst hs; exact ⟨rfl, rfl, rfl, rfl, rfl, rfl⟩
  | lock =>
    simp only [hpc] at hs
    split at hs
    · generalize hce : w.runner.closeEnter = ce at hs hf
      obtain ⟨g, entry⟩ := ce
      cases entry <;> simp only [Option.some.injEq] at hs <;> subst hs <;>
        exact ⟨by rw [hf.1], hf.2, rfl, rfl, rfl, rfl⟩
    · simp at hs
  | select =>
    simp only [hpc] at hs
    split at hs
    · simp only [Runner.closeTimedOut, Option.some.injEq] at hs
      subst hs; exact ⟨rfl, rfl, rfl, rfl, rfl, rfl⟩
    · split at hs
      · simp only [Runner.closeStopped, Option.some.injEq] at hs
        subst hs; exact ⟨rfl, rfl, rfl, rfl, rfl, rfl⟩
      · simp at hs
  | returned err => simp [hpc] at hs
  | panicked pn => simp [hpc] at hs

theorem stepTick_SameLoop (w w' : World) (hs : stepTick w = some w') : SameLoop w w' := by
  unfold stepTick at hs
  split at hs
  · simp only [Option.some.injEq] at hs
    subst hs; exact ⟨rfl, rfl, rfl, rfl, rfl, rfl⟩
  · simp at hs

theorem stepCancelBase_SameLoop (w w' : World) (hs : stepCancelBase w = some w') :
    SameLoop w w' := by
  simp only [stepCancelBase, Option.some.injEq] at hs
  subst hs; exact ⟨rfl, rfl, rfl, rfl, rfl, rfl⟩

theorem stepLoop_InOrder (b : Option Board) (listeners : List Listener) (takeTick : Bool)
    (w w' : World) (h : InOrder b listeners w)
    (hs : stepLoop Board.NextBoard takeTick w = some w')
    (hok : ∀ k, k ≤ w'.nextCalls → ∃ bk, Board.generation b k = Except.ok (some bk, none)) :
    InOrder b listeners w' := by
  obtain ⟨hl, hgen, hcur, hdel, hcnt⟩ := h
  obtain ⟨cur, hcur'⟩ := Option.isSome_iff_exists.mp hcur
  unfold progress at hdel
  unfold stepLoop at hs
  cases hpc : w.loopPc with
  | broadcastLock =>
    simp only [hpc] at hs hdel hcnt
    split at hs
    · simp only [Option.some.injEq] at hs
      subst hs
      simp only [countersAt] at hcnt
      refine ⟨hl, hgen, hcur, ?_, ?_⟩
      · simpa [progress, progressAt, delivered] using hdel
      · simp [countersAt, hcnt]
    · simp at hs
  | send i =>
    simp only [hpc] at hs hdel hcnt
    simp only [countersAt] at hcnt
    simp only [progressAt] at hdel
    cases hli : w.runner.options.listeners[i]? with
    | none =>
      simp only [hli, Option.some.injEq] at hs
      subst hs
      have hlen : listeners.length ≤ i := by
        rw [← hl]; exact List.getElem?_eq_none_iff.mp hli
      refine ⟨hl, hgen, hcur, ?_, ?_⟩
      · have e := deliveries_full b listeners (w.broadcasts - 1) i hlen
        have e2 : w.broadcasts - 1 + 1 = w.broadcasts := by omega
        rw [e2] at e
        simpa [progress, progressAt, delivered, e] using hdel
      · simp [countersAt, hcnt.1]
    | some listener =>
      simp only [hli, hcur', Board.Clone, pure, Except.pure] at hs
      cases listener with
      | none => simp at hs
      | some c =>
        simp only at hs
        split at hs
        · simp only [Option.some.injEq] at hs
          subst hs
          have hlt : i < listeners.length := by
            rw [← hl]
            exact (List.getElem?_eq_some_iff.mp hli).1
          have hclone : Board.generationClone b (w.broadcasts - 1) =
              Except.ok { data := cur.data.Clone, rows := cur.rows } := by
            have e2 : w.broadcasts - 1 = w.nextCalls := by omega
            simp [Board.generationClone, e2, hgen, hcur', bind, Except.bind, Board.Clone, pure,
              Except.pure]
          refine ⟨hl, hgen, hcur, ?_, ?_⟩
          · have e := deliveries_succ b listeners (w.broadcasts - 1) i (some c)
              (by rw [← hl]; exact hli)
            simp only [progress, progressAt, delivered, List.map_append, List.map_cons,
              List.map_nil, e, hclone]
            simp only [delivered] at hdel
            rw [hdel]
          · simp only [countersAt]
            exact ⟨hcnt.1, hlt⟩
        · simp at hs
  | next =>
    simp only [hpc] at hs hdel hcnt
    simp only [countersAt] at hcnt
    simp only [progressAt] at hdel
    cases hadv : Board.NextBoard w.runner.currentBoard with
    | error pn =>
      simp only [hadv, Option.some.injEq] at hs
      subst hs
      obtain ⟨bk, hbk⟩ := hok (w.nextCalls + 1) (le_refl _)
      simp [Board.generation, hgen, bind, Except.bind, hadv] at hbk
    | ok res =>
      obtain ⟨nextBoard, err⟩ := res
      have hnc : w'.nextCalls = w.nextCalls + 1 := by
        simp only [hadv] at hs
        cases err <;> simp only [Option.some.injEq] at hs <;> subst hs <;> rfl
      obtain ⟨bk, hbk⟩ := hok (w.nextCalls + 1) (by rw [hnc])
      simp only [Board.generation, hgen, bind, Except.bind, hadv, Except.ok.injEq,
        Prod.mk.injEq] at hbk
      obtain ⟨hb1, hb2⟩ := hbk
      subst hb1 hb2
      simp only [hadv, Option.some.injEq] at hs
      subst hs
      refine ⟨hl, ?_, rfl, ?_, ?_⟩
      · simp [Board.generation, hgen, bind, Except.bind, hadv]
      · simpa [progress, progressAt, delivered] using hdel
      · simp [countersAt, hcnt]
  | errorLock e =>
    simp only [hpc, countersAt] at hcnt
  | select =>
    simp only [hpc] at hs hdel hcnt
    simp only [countersAt] at hcnt
    simp only [progressAt] at hdel
    have key : ∀ pc : LoopPc, ∀ g : Runner, ∀ t : Bool,
        g.options.listeners = w.runner.options.listeners →
        g.currentBoard = w.runner.currentBoard →
        (pc = LoopPc.exited ∨ pc = LoopPc.broadcastLock ∨ ∃ pn, pc = LoopPc.panicked pn) →
        InOrder b listeners { w with runner := g, loopPc := pc, tick := t } := by
      intro pc g t hg1 hg2 hpc'
      refine ⟨by rw [← hl]; exact hg1, by rw [hgen, ← hg2], by rw [← hcur]; simp [hg2], ?_, ?_⟩
      · rcases hpc' with rfl | rfl | ⟨pn, rfl⟩ <;>
          simpa [progress, progressAt, delivered] using hdel
      · rcases hpc' with rfl | rfl | ⟨pn, rfl⟩ <;> simp [countersAt, hcnt]
    cases hctx : w.runner.ctx with
    | none =>
      simp only [hctx, Option.some.injEq] at hs
      subst hs
      exact key _ _ w.tick rfl rfl (Or.inr (Or.inr ⟨_, rfl⟩))
    | some ctx =>
      cases hclock : w.runner.clock with
      | none =>
        simp only [hctx, hclock, Option.some.injEq] at hs
        subst hs
        exact key _ _ w.tick rfl rfl (Or.inr (Or.inr ⟨_, rfl⟩))
      | some clock =>
        simp only [hctx, hclock] at hs
        split at hs
        · simp only [Option.some.injEq] at hs
          subst hs
          exact key _ _ w.tick rfl rfl (Or.inl rfl)
        · split at hs
          · simp only [Option.some.injEq] at hs
            subst hs
            exact key _ w.runner false rfl rfl (Or.inr (Or.inl rfl))
          · simp at hs
  | exited => simp [hpc] at hs
  | panicked pn => simp [hpc] at hs

theorem stepLoop_nextCalls (advance : Option Board → Go (Option Board × Option Error))
    (takeTick : Bool) (w w' : World) (hs : stepLoop advance takeTick w = some w') :
    w.nextCalls ≤ w'.nextCalls := by
  unfold stepLoop at hs
  repeat' split at hs
  all_goals first
    | (simp only [Option.some.injEq] at hs; subst hs; simp [loopPanic])
    | simp at hs

theorem step_nextCalls (advance : Option Board → Go (Option Board × Option Error))
    (m : Move) (w w' : World) (hs : step advance m w = some w') :
    w.nextCalls ≤ w'.nextCalls := by
  unfold step at hs
  split at hs
  · simp at hs
  · cases m with
    | loop takeTick => exact stepLoop_nextCalls advance takeTick w w' hs
    | close timeout => exact le_of_eq (stepClose_SameLoop timeout w w' hs).2.2.2.2.1.symm
    | tick => exact le_of_eq (stepTick_SameLoop w w' hs).2.2.2.2.1.symm
    | cancelBase => exact le_of_eq (stepCancelBase_SameLoop w w' hs).2.2.2.2.1.symm

theorem run_nextCalls (advance : Option Board → Go (Option Board × Option Error))
    (moves : List Move) (w : World) : w.nextCalls ≤ (run advance moves w).nextCalls := by
  induction moves generalizing w with
  | nil => exact le_refl _
  | cons m rest ih =>
    simp only [run]
    cases hs : step advance m w with
    | none => exact ih w
    | some w' => exact le_trans (step_nextCalls advance m w w' hs) (ih w')

theorem step_InOrder (b : Option Board) (listeners : List Listener) (m : Move)
    (w w' : World) (h : InOrder b listeners w) (hs : step Board.NextBoard m w = some w')
    (hok : ∀ k, k ≤ w'.nextCalls → ∃ bk, Board.generation b k = Except.ok (some bk, none)) :
    InOrder b listeners w' := by
  unfold step at hs
  split at hs
  · simp at hs
  · cases m with
    | loop takeTick => exact stepLoop_InOrder b listeners takeTick w w' h hs hok
    | close timeout =>
      exact InOrder_of_SameLoop b listeners w w' h (stepClose_SameLoop timeout w w' hs)
    | tick => exact InOrder_of_SameLoop b listeners w w' h (stepTick_SameLoop w w' hs)
    | cancelBase =>
      exact InOrder_of_SameLoop b listeners w w' h (stepCancelBase_SameLoop w w' hs)

theorem run_InOrder (b : Option Board) (listeners : List Listener) (moves : List Move)
    (w : World) (h : InOrder b listeners w)
    (hok : ∀ k, k ≤ (run Board.NextBoard moves w).nextCalls →
      ∃ bk, Board.generation b k = Except.ok (some bk, none)) :
    InOrder b listeners (run Board.NextBoard moves w) := by
  induction moves generalizing w with
  | nil => exact h
  | cons m rest ih =>
    simp only [run] at hok ⊢
    cases hs : step Board.NextBoard m w with
    | none =>
      rw [hs] at hok
      exact ih w h hok
    | some w' =>
      rw [hs] at hok
      exact ih w' (step_InOrder b listeners m w w' h hs (fun k hk =>
        hok k (le_trans hk (run_nextCalls Board.NextBoard rest w')))) hok

theorem afterStart_InOrder (g : Runner) (chans : List Chan)
    (h : g.currentBoard.isSome = true) :
    InOrder g.currentBoard g.options.listeners (afterStart g chans) :=
  ⟨rfl, rfl, h, rfl, rfl⟩

theorem flatMap_range_length {α : Type} (f : Nat → List α) (len : Nat)
    (hf : ∀ k, (f k).length = len) (n : Nat) :
    ((List.range n).flatMap f).length = n * len := by
  induction n with
  | zero => simp
  | succ n ih => simp [List.range_succ, ih, hf, Nat.succ_mul]

theorem flatMap_range_getElem? {α : Type} (f : Nat → List α) (len : Nat)
    (hf : ∀ k, (f k).length = len) (n k i : Nat) (hk : k < n) (hi : i < len) :
    ((List.range n).flatMap f)[k * len + i]? = (f k)[i]? := by
  induction n with
  | zero => omega
  | succ n ih =>
    have hlen := flatMap_range_length f len hf n
    have e : (List.range (n + 1)).flatMap f = (List.range n).flatMap f ++ f n := by
      simp [List.range_succ]
    rw [e]
    by_cases hkn : k < n
    · have hlt : k * len + i < ((List.range n).flatMap f).length := by
        rw [hlen]
        calc k * len + i < k * len + len := by omega
          _ = (k + 1) * len := by rw [Nat.succ_mul]
          _ ≤ n * len := Nat.mul_le_mul_right len hkn
      rw [List.getElem?_append_left hlt]
      exact ih hkn
    · have hkeq : k = n := by omega
      subst hkeq
      rw [List.getElem?_append_right (by rw [hlen]; omega), hlen]
      congr 1
      omega

/-- C21: in a run of the loop started on board `g.currentBoard`, in which no
call of `NextBoard` panicked or returned an error, the log of the sends is,
broadcast after broadcast, a clone of the initial board advanced by `n` calls
of `NextBoard` for every listener in broadcast `n` (`n = 0, 1, …`): the send
number `i` of a completed broadcast `n` goes to listener `i` and carries that
clone. A broadcast is begun before each call of `NextBoard` and after the one
before, and the current board is the initial board advanced by the number of
calls made. -/
theorem broadcasts_deliver_generations_in_order (g : Runner) (chans : List Chan)
    (moves : List Move) (w : World)
    (hw : w = run Board.NextBoard moves (afterStart g chans))
    (hok : ∀ k, k ≤ w.nextCalls →
      ∃ bk, Board.generation g.currentBoard k = Except.ok (some bk, none)) :
    w.delivered = deliveries g.currentBoard g.options.listeners w.progress.1 w.progress.2 ∧
    (∀ n, n < w.progress.1 → ∀ i l, g.options.listeners[i]? = some l →
      w.delivered[n * g.options.listeners.length + i]? =
        some (l, Board.generationClone g.currentBoard n)) ∧
    w.nextCalls ≤ w.broadcasts ∧ w.broadcasts ≤ w.nextCalls + 1 ∧
    Board.generation g.currentBoard w.nextCalls = Except.ok (w.runner.currentBoard, none) ∧
    w.runner.options.listeners = g.options.listeners := by
  subst hw
  have h0 : g.currentBoard.isSome = true := by
    obtain ⟨b0, hb0⟩ := hok 0 (Nat.zero_le _)
    simp only [Board.generation, pure, Except.pure, Except.ok.injEq, Prod.mk.injEq,
      and_true] at hb0
    rw [hb0]; rfl
  obtain ⟨hl, hgen, _, hdel, hcnt⟩ :=
    run_InOrder g.currentBoard g.options.listeners moves _ (afterStart_InOrder g chans h0) hok
  refine ⟨hdel, ?_, ?_, ?_, hgen, hl⟩
  · intro n hn i l hli
    have hi : i < g.options.listeners.length := (List.getElem?_eq_some_iff.mp hli).1
    have hlt : n * g.options.listeners.length + i <
        ((List.range (run Board.NextBoard moves (afterStart g chans)).progress.1).flatMap
          (fun k => g.options.listeners.map
            fun l => (l, Board.generationClone g.currentBoard k))).length := by
      rw [flatMap_range_length _ g.options.listeners.length (fun k => by simp)]
      calc n * g.options.listeners.length + i
          < n * g.options.listeners.length + g.options.listeners.length := by omega
        _ = (n + 1) * g.options.listeners.length := by rw [Nat.succ_mul]
        _ ≤ _ := Nat.mul_le_mul_right _ hn
    rw [hdel, deliveries, List.getElem?_append_left hlt,
      flatMap_range_getElem? _ g.options.listeners.length (fun k => by simp) _ n i hn hi]
    simp [hli]
  · cases hpc : (run Board.NextBoard moves (afterStart g chans)).loopPc <;>
      simp only [hpc, countersAt] at hcnt <;> omega
  · cases hpc : (run Board.NextBoard moves (afterStart g chans)).loopPc <;>
      simp only [hpc, countersAt] at hcnt <;> omega

/-- C21 on a run of two broadcasts of the board of the package test: both
listeners receive the column board, then both receive the row board. -/
theorem broadcasts_deliver_generations_in_order_witness :
    blinkerRun.sent = [(0, Board.blinkerBoard), (1, Board.blinkerBoard),
      (0, Board.blinkerRow), (1, Board.blinkerRow)] ∧
    blinkerRun.nextCalls = 1 ∧
    (∀ k, k ≤ blinkerRun.nextCalls →
      ∃ bk, Board.generation runnerBlinker.currentBoard k = Except.ok (some bk, none)) ∧
    blinkerRun.delivered = deliveries runnerBlinker.currentBoard runnerBlinker.options.listeners
      blinkerRun.progress.1 blinkerRun.progress.2 ∧
    (∀ n, n < blinkerRun.progress.1 → ∀ i l, runnerBlinker.options.listeners[i]? = some l →
      blinkerRun.delivered[n * runnerBlinker.options.listeners.length + i]? =
        some (l, Board.generationClone runnerBlinker.currentBoard n)) ∧
    blinkerRun.nextCalls ≤ blinkerRun.broadcasts ∧
    blinkerRun.broadcasts ≤ blinkerRun.nextCalls + 1 ∧
    Board.generation runnerBlinker.currentBoard blinkerRun.nextCalls =
      Except.ok (blinkerRun.runner.currentBoard, none) ∧
    blinkerRun.runner.options.listeners = runnerBlinker.options.listeners :=
  have hn : blinkerRun.nextCalls = 1 := by decide
  have hok : ∀ k, k ≤ blinkerRun.nextCalls →
      ∃ bk, Board.generation runnerBlinker.currentBoard k = Except.ok (some bk, none) :=
    fun k hk =>
      match k, hk with
      | 0, _ => ⟨Board.blinkerBoard, by decide⟩
      | 1, _ => ⟨Board.blinkerRow, by decide⟩
      | k + 2, h => absurd h (by rw [hn]; omega)
  ⟨by decide, hn, hok,
    broadcasts_deliver_generations_in_order runnerBlinker [⟨true, 0⟩, ⟨false, 2⟩] blinkerMoves
      blinkerRun rfl hok⟩

end World

/-! ### `NextBoard` returns no error on the boards built by `New` and `Set` (C22) -/

namespace Board

theorem setSuccessfully_setMany (sets : List (Point × Bool)) (v b : Board)
    (h : setSuccessfully v sets = Except.ok (some b)) : setMany v sets = Except.ok b := by
  induction sets generalizing v with
  | nil =>
    simp only [setSuccessfully, pure, Except.pure, Except.ok.injEq, Option.some.injEq] at h
    subst h; rfl
  | cons s rest ih =>
    obtain ⟨p, a⟩ := s
    simp only [setSuccessfully, setMany, bind, Except.bind] at h ⊢
    cases hset : Set (some v) p a with
    | error pn => rw [hset] at h; simp at h
    | ok res =>
      obtain ⟨v', e⟩ := res
      rw [hset] at h
      cases e with
      | some err => simp [pure, Except.pure] at h
      | none => exact ih v' h

theorem wrapInt_le_self (x : Int) (h : 0 ≤ x) : wrapInt x ≤ x := by
  unfold wrapInt; omega

/-- C22: on a board built by `New(r, c)` with `r > 0` and `c > 0` and then
written by `Set` calls that all succeeded, `NextBoard` returns a board and a
`nil` error. Every neighbour kept by the bounds filter is a valid point; every
valid point has its bit position in `[0, r*c)` and inside the storage; and at
every cell scanned by the two loops `IsAlive`, `countLivingNeighbours` and
`IsAliveNextCycle` return a `nil` error and the `Set` on a new board of the
receiver's dimensions succeeds. -/
theorem NextBoard_never_returns_error (r c : Int) (hr : 0 < r) (hc : 0 < c) (hri : isInt r)
    (b0 : Board) (hnew : New r c = (some b0, none))
    (sets : List (Point × Bool)) (b : Board)
    (hb : setSuccessfully b0 sets = Except.ok (some b)) :
    (∃ nb, NextBoard (some b) = Except.ok (some nb, none)) ∧
    (∀ p ns, neighbours (some b) p = Except.ok ns →
      ∀ q ∈ ns, isValidPoint (some b) q = Except.ok true) ∧
    (∀ p, isValidPoint (some b) p = Except.ok true →
      ∃ pos, pointToBitPosition (some b) p = Except.ok pos ∧
        0 ≤ pos ∧ pos < r * c ∧ pos < b.data.Length) ∧
    ∃ cols, Columns (some b) = Except.ok cols ∧
      ∀ row ∈ forRange b.rows, ∀ column ∈ forRange cols,
        ∃ alive n next,
          IsAlive (some b) ⟨row, column⟩ = Except.ok (alive, none) ∧
          countLivingNeighbours (some b) ⟨row, column⟩ = Except.ok (n, none) ∧
          IsAliveNextCycle (some b) ⟨row, column⟩ = Except.ok (next, none) ∧
          ∀ nextBoard : Board, nextBoard.rows = b.rows →
            nextBoard.data.Length = b.rows * cols →
            ∃ written, Set (some nextBoard) ⟨row, column⟩ next = Except.ok (written, none) := by
  obtain ⟨hrep0, hrows0, hlen0⟩ := New_shape r c hri b0 hnew
  obtain ⟨hrep, hrows, hlen⟩ :=
    setMany_shape sets b0 hrep0 (by rw [hrows0]; exact hr) b (setSuccessfully_setMany sets b0 b hb)
  have hpos : 0 < b.rows := by rw [hrows, hrows0]; exact hr
  have hL : b.data.Length ≤ r * c := by
    rw [hlen, hlen0]
    exact wrapInt_le_self _ (le_of_lt (Int.mul_pos hr hc))
  refine ⟨?_, ?_, ?_, b.cols, Columns_eq b hrep hpos, ?_⟩
  · obtain ⟨nb, hrun, _, _⟩ := NextBoard_eq b hrep hpos
    exact ⟨nb, hrun⟩
  · intro p ns hns q hq
    simp only [neighbours, neighboursLoop_eq b hrep hpos, Except.ok.injEq] at hns
    subst hns
    have hq' : b.inBounds q := by simpa using (List.mem_filter.mp hq).2
    rw [isValidPoint_eq b hrep hpos]
    simp [hq']
  · intro p hp
    rw [isValidPoint_eq b hrep hpos] at hp
    have hp' : b.inBounds p := by simpa using hp
    have hbounds := position_bounds b p hp'
    exact ⟨_, pointToBitPosition_eq b hrep p hp', hbounds.1, by omega, hbounds.2⟩
  · intro row hrow column hcolumn
    have hp : b.inBounds ⟨row, column⟩ := by
      have h1 := (mem_forRange _ _).mp hrow
      have h2 := (mem_forRange _ _).mp hcolumn
      exact ⟨h1.1, h1.2, h2.1, h2.2⟩
    refine ⟨_, _, _, IsAlive_inBounds b hrep _ hp, countLivingNeighbours_eq b hrep hpos _,
      IsAliveNextCycle_eq b hrep _ hp, ?_⟩
    intro nextBoard hnrows hnlen
    have hsh : sameShape nextBoard b := ⟨hnrows, hnlen⟩
    exact ⟨_, Set_inBounds nextBoard (sameShape_representable nextBoard b hrep hpos hsh) _ _
      ((sameShape_inBounds nextBoard b hpos hsh _).mpr hp)⟩

/-- C22 at the board of the package test: `New(3, 3)` and three `Set` calls. -/
theorem NextBoard_never_returns_error_witness :
    (0 : Int) < 3 ∧ isInt 3 ∧
    New 3 3 = (some deadBoard, none) ∧
    setSuccessfully deadBoard [(⟨0, 1⟩, true), (⟨1, 1⟩, true), (⟨2, 1⟩, true)] =
      Except.ok (some blinkerBoard) ∧
    (∃ nb, NextBoard (some blinkerBoard) = Except.ok (some nb, none)) ∧
    (∀ p ns, neighbours (some blinkerBoard) p = Except.ok ns →
      ∀ q ∈ ns, isValidPoint (some blinkerBoard) q = Except.ok true) ∧
    (∀ p, isValidPoint (some blinkerBoard) p = Except.ok true →
      ∃ pos, pointToBitPosition (some blinkerBoard) p = Except.ok pos ∧
        0 ≤ pos ∧ pos < 3 * 3 ∧ pos < blinkerBoard.data.Length) ∧
    ∃ cols, Columns (some blinkerBoard) = Except.ok cols ∧
      ∀ row ∈ forRange blinkerBoard.rows, ∀ column ∈ forRange cols,
        ∃ alive n next,
          IsAlive (some blinkerBoard) ⟨row, column⟩ = Except.ok (alive, none) ∧
          countLivingNeighbours (some blinkerBoard) ⟨row, column⟩ = Except.ok (n, none) ∧
          IsAliveNextCycle (some blinkerBoard) ⟨row, column⟩ = Except.ok (next, none) ∧
          ∀ nextBoard : Board, nextBoard.rows = blinkerBoard.rows →
            nextBoard.data.Length = blinkerBoard.rows * cols →
            ∃ written, Set (some nextBoard) ⟨row, column⟩ next = Except.ok (written, none) :=
  ⟨by decide, by decide, by decide, by decide,
    NextBoard_never_returns_error 3 3 (by decide) (by decide) (by decide)
      deadBoard (by decide)
      [(⟨0, 1⟩, true), (⟨1, 1⟩, true), (⟨2, 1⟩, true)] blinkerBoard (by decide)⟩

end Board

/-! ### `Start` and `Close` behind a stuck broadcast (C14, C15) -/

namespace World

theorem Blocked_step (advance : Option Board → Go (Option Board × Option Error)) (w : World)
    (i : Nat) (h : Blocked w i) (m : Move) :
    Blocked ((step advance m w).getD w) i ∧
      ((step advance m w).getD w).runner.state = w.runner.state := by
  obtain ⟨hpc, hmu, hcl, hb, hl⟩ := h
  obtain ⟨b, hb'⟩ := Option.isSome_iff_exists.mp hb
  have hloop : ∀ takeTick, stepLoop advance takeTick w = none := by
    intro takeTick
    rcases hl with hl | ⟨c, hl, hacc⟩
    · simp [stepLoop, hpc, hl, hb', Board.Clone, pure, Except.pure]
    · simp [stepLoop, hpc, hl, hb', Board.Clone, pure, Except.pure, hacc]
  cases m with
  | loop takeTick =>
    have e : (step advance (Move.loop takeTick) w).getD w = w := by
      simp only [step, hpc, hloop, Option.getD_none]
    rw [e]
    exact ⟨⟨hpc, hmu, hcl, hb, hl⟩, rfl⟩
  | close timeout =>
    have e : (step advance (Move.close timeout) w).getD w = w ∨
        (step advance (Move.close timeout) w).getD w = { w with closePc := ClosePc.lock } := by
      simp only [step, hpc, stepClose]
      cases hc : w.closePc with
      | idle => exact Or.inr rfl
      | lock => simp [hmu]
      | select => exact absurd hc hcl
      | returned err => exact Or.inl rfl
      | panicked pn => exact Or.inl rfl
    rcases e with e | e <;> rw [e]
    · exact ⟨⟨hpc, hmu, hcl, hb, hl⟩, rfl⟩
    · exact ⟨⟨hpc, hmu, by simp, hb, hl⟩, rfl⟩
  | tick =>
    have e : (step advance Move.tick w).getD w = w ∨
        (step advance Move.tick w).getD w = { w with tick := true } := by
      simp only [step, hpc, stepTick]
      split
      · exact Or.inr rfl
      · exact Or.inl rfl
    rcases e with e | e <;> rw [e] <;> exact ⟨⟨hpc, hmu, hcl, hb, hl⟩, rfl⟩
  | cancelBase =>
    have e : (step advance Move.cancelBase w).getD w =
        { w with runner := { w.runner with
            options := { w.runner.options with
              baseCtx := w.runner.options.baseCtx.map fun _ => ⟨true⟩ }
            ctx := w.runner.ctx.map fun _ => ⟨true⟩ } } := by
      simp only [step, hpc, stepCancelBase, Option.getD_some]
    rw [e]
    exact ⟨⟨hpc, hmu, hcl, hb, hl⟩, rfl⟩

end World

namespace Program

/-- While the loop is blocked in a broadcast, a caller of `Start` that waits
for the mutex stays there, and the state is not written, whatever moves. -/
theorem StartBlocked_step (advance : Option Board → Go (Option Board × Option Error))
    (s : Program) (i : Nat) (hs : s.startPc = StartPc.lock) (h : World.Blocked s.world i)
    (m : ProgramMove) :
    ((step advance m s).getD s).startPc = StartPc.lock ∧
      World.Blocked ((step advance m s).getD s).world i ∧
      ((step advance m s).getD s).world.runner.state = s.world.runner.state := by
  cases m with
  | world wm =>
    obtain ⟨h1, h2⟩ := World.Blocked_step advance s.world i h wm
    cases hw : World.step advance wm s.world with
    | none =>
      have e : (step advance (ProgramMove.world wm) s).getD s = s := by
        simp [step, hs, hw]
      rw [e]
      exact ⟨hs, h, rfl⟩
    | some w' =>
      have e : (step advance (ProgramMove.world wm) s).getD s = { s with world := w' } := by
        simp [step, hs, hw]
      rw [e]
      rw [hw] at h1 h2
      exact ⟨hs, h1, h2⟩
  | start =>
    have e : (step advance ProgramMove.start s).getD s = s := by
      simp [step, hs, stepStart, h.1, h.2.1]
    rw [e]
    exact ⟨hs, h, rfl⟩

theorem StartBlocked_run (advance : Option Board → Go (Option Board × Option Error))
    (moves : List ProgramMove) (s : Program) (i : Nat) (hs : s.startPc = StartPc.lock)
    (h : World.Blocked s.world i) :
    (run advance moves s).startPc = StartPc.lock ∧
      World.Blocked (run advance moves s).world i ∧
      (run advance moves s).world.runner.state = s.world.runner.state := by
  induction moves generalizing s with
  | nil => exact ⟨hs, h, rfl⟩
  | cons m rest ih =>
    obtain ⟨h1, h2, h3⟩ := StartBlocked_step advance s i hs h m
    obtain ⟨k1, k2, k3⟩ := ih _ h1 h2
    exact ⟨k1, k2, k3.trans h3⟩

/-- C14 (failing run): a runner is started with one listener, an unbuffered
channel that nobody reads, and its loop begins the first broadcast; the state
is `Running`. `Start` is then called a second time. Whatever happens next
(ticks, a call of `Close`, cancellation of the base context), `Start` is
still at `g.mu.Lock()`, the mutex is held by the loop blocked in its send,
and the state is still `Running`: `Start` returns no error, nor anything. -/
theorem Start_blocks_behind_stuck_broadcast (moves : List ProgramMove) :
    stuckWorld.runner.state = State.Running ∧
    stuckWorld.runner.options.listeners = [some 0] ∧
    (run Board.NextBoard
      (ProgramMove.world (Move.loop false) :: ProgramMove.start :: ProgramMove.start :: moves)
      ⟨stuckWorld, StartPc.idle⟩).startPc = StartPc.lock ∧
    (run Board.NextBoard
      (ProgramMove.world (Move.loop false) :: ProgramMove.start :: ProgramMove.start :: moves)
      ⟨stuckWorld, StartPc.idle⟩).world.mu = some Thread.loop ∧
    (run Board.NextBoard
      (ProgramMove.world (Move.loop false) :: ProgramMove.start :: ProgramMove.start :: moves)
      ⟨stuckWorld, StartPc.idle⟩).world.loopPc = LoopPc.send 0 ∧
    (run Board.NextBoard
      (ProgramMove.world (Move.loop false) :: ProgramMove.start :: ProgramMove.start :: moves)
      ⟨stuckWorld, StartPc.idle⟩).world.runner.state = State.Running := by
  have hpc : (run Board.NextBoard
      [ProgramMove.world (Move.loop false), ProgramMove.start, ProgramMove.start]
      ⟨stuckWorld, StartPc.idle⟩).startPc = StartPc.lock := by decide
  have hblocked : World.Blocked (run Board.NextBoard
      [ProgramMove.world (Move.loop false), ProgramMove.start, ProgramMove.start]
      ⟨stuckWorld, StartPc.idle⟩).world 0 := by
    refine ⟨by decide, by decide, by decide, by decide, Or.inr ⟨0, by decide, by decide⟩⟩
  have hstate : (run Board.NextBoard
      [ProgramMove.world (Move.loop false), ProgramMove.start, ProgramMove.start]
      ⟨stuckWorld, StartPc.idle⟩).world.runner.state = State.Running := by decide
  have hrun : run Board.NextBoard
      (ProgramMove.world (Move.loop false) :: ProgramMove.start :: ProgramMove.start :: moves)
      ⟨stuckWorld, StartPc.idle⟩ =
      run Board.NextBoard moves
        (run Board.NextBoard
          [ProgramMove.world (Move.loop false), ProgramMove.start, ProgramMove.start]
          ⟨stuckWorld, StartPc.idle⟩) := rfl
  obtain ⟨h1, ⟨h2, h3, _, _, _⟩, hs⟩ := StartBlocked_run Board.NextBoard moves _ 0 hpc hblocked
  rw [hrun]
  exact ⟨by decide, by decide, h1, h3, h2, hs.trans hstate⟩

/-- When the second `Start` takes the mutex before the loop begins its
broadcast, it returns the state-conflict error and the runner is as before. -/
theorem Start_returns_when_it_locks_first :
    (run Board.NextBoard [ProgramMove.start, ProgramMove.start]
      ⟨stuckWorld, StartPc.idle⟩).startPc =
      StartPc.returned (some (RunnerError.cannotStart "Running")) ∧
    (run Board.NextBoard [ProgramMove.start, ProgramMove.start]
      ⟨stuckWorld, StartPc.idle⟩).world.runner.state = State.Running ∧
    (run Board.NextBoard [ProgramMove.start, ProgramMove.start]
      ⟨stuckWorld, StartPc.idle⟩).world.loopPc = LoopPc.broadcastLock := by
  decide

end Program

namespace World

/-- C15 (failing run): a runner is started with one listener, an unbuffered
channel that nobody reads. A first `Close` takes the mutex before the first
broadcast and times out, which leaves the state `Errored`; the loop then
takes the mutex and blocks in its send. `Close` is called again, in a state
other than `Running`. Whatever happens next, this `Close` is still at
`g.mu.Lock()`, the mutex is held by the loop, and the state is still
`Errored`: `Close` returns no error, nor anything. -/
theorem Close_blocks_in_state_Errored (moves : List Move) :
    erroredWorld.runner.state = State.Errored ∧
    erroredWorld.closePc = ClosePc.idle ∧
    erroredWorld.loopPc = LoopPc.send 0 ∧
    (run Board.NextBoard (Move.close false :: Move.close false :: moves)
      erroredWorld).closePc = ClosePc.lock ∧
    (run Board.NextBoard (Move.close false :: Move.close false :: moves)
      erroredWorld).mu = some Thread.loop ∧
    (run Board.NextBoard (Move.close false :: Move.close false :: moves)
      erroredWorld).loopPc = LoopPc.send 0 ∧
    (run Board.NextBoard (Move.close false :: Move.close false :: moves)
      erroredWorld).runner.state = State.Errored := by
  have hstuck : Stuck (run Board.NextBoard [Move.close false, Move.close false]
      erroredWorld) 0 := by
    refine ⟨by decide, by decide, by decide, by decide, Or.inr ⟨0, by decide, by decide⟩⟩
  have hstate : (run Board.NextBoard [Move.close false, Move.close false]
      erroredWorld).runner.state = State.Errored := by decide
  have hrun : run Board.NextBoard (Move.close false :: Move.close false :: moves)
      erroredWorld =
      run Board.NextBoard moves
        (run Board.NextBoard [Move.close false, Move.close false] erroredWorld) := rfl
  obtain ⟨⟨h1, h2, h3, _, _⟩, hs⟩ := Stuck_run Board.NextBoard moves _ 0 hstuck
  rw [hrun]
  exact ⟨by decide, by decide, by decide, h3, h2, h1, hs.trans hstate⟩

end World

/-! ### `NextBoard` returns no error in the loop (C20) -/

namespace Board

end Board

namespace World

end World

end GameOfLife
